import Mathlib

/-!
Verification development for the redpanda-chart-upgrade repository.

The configuration documents manipulated by the tool are serde_yaml values.
We embed them as the inductive type `Yaml` below; mappings are association
lists of string keys (the program only ever constructs and queries string
keys), with IndexMap semantics: lookup finds the first binding, insertion
replaces the value in place when the key is present and appends otherwise,
and removal deletes the key's bindings.  Rust equality on mappings
(IndexMap equality) is key-set/value equality, which list equality of our
model refines.
-/

namespace ChartUpgrade

/-- Embedding of `serde_yaml::Value`: null, booleans, strings, numbers
(the tool never computes with numbers, so integers suffice), sequences and
string-keyed mappings. -/
inductive Yaml : Type where
  | null : Yaml
  | bool : Bool → Yaml
  | str : String → Yaml
  | int : Int → Yaml
  | seq : List Yaml → Yaml
  | map : List (String × Yaml) → Yaml

mutual

/-- Structural equality test on embedded YAML values.  (Rust's
`PartialEq` on `Value` compares mappings as key-value sets; on the
well-formed, order-normalized values handled in this development the two
notions agree, and the claims settled here use it only through conditions
on scalars and through concrete evaluations.) -/
def yamlBEq : Yaml → Yaml → Bool
  | .null, .null => true
  | .bool a, .bool b => a == b
  | .str a, .str b => a == b
  | .int a, .int b => a == b
  | .seq a, .seq b => yamlBEqList a b
  | .map a, .map b => yamlBEqPairs a b
  | _, _ => false

/-- Elementwise equality test for sequences. -/
def yamlBEqList : List Yaml → List Yaml → Bool
  | [], [] => true
  | a :: as, b :: bs => yamlBEq a b && yamlBEqList as bs
  | _, _ => false

/-- Elementwise equality test for mapping entry lists. -/
def yamlBEqPairs : List (String × Yaml) → List (String × Yaml) → Bool
  | [], [] => true
  | (k, v) :: as, (k2, v2) :: bs => k == k2 && yamlBEq v v2 && yamlBEqPairs as bs
  | _, _ => false

end

mutual

theorem yamlBEq_refl : ∀ a, yamlBEq a a = true
  | .null => rfl
  | .bool a => by simp [yamlBEq]
  | .str a => by simp [yamlBEq]
  | .int a => by simp [yamlBEq]
  | .seq a => by simp [yamlBEq, yamlBEqList_refl a]
  | .map a => by simp [yamlBEq, yamlBEqPairs_refl a]

theorem yamlBEqList_refl : ∀ a, yamlBEqList a a = true
  | [] => rfl
  | a :: as => by simp [yamlBEqList, yamlBEq_refl a, yamlBEqList_refl as]

theorem yamlBEqPairs_refl : ∀ a, yamlBEqPairs a a = true
  | [] => rfl
  | (k, v) :: as => by simp [yamlBEqPairs, yamlBEq_refl v, yamlBEqPairs_refl as]

end

mutual

theorem eq_of_yamlBEq : ∀ a b, yamlBEq a b = true → a = b
  | .null, .null, _ => rfl
  | .bool a, .bool b, h => by simp [yamlBEq] at h; simp [h]
  | .str a, .str b, h => by simp [yamlBEq] at h; simp [h]
  | .int a, .int b, h => by simp [yamlBEq] at h; simp [h]
  | .seq a, .seq b, h => by
    simp [yamlBEq] at h
    simp [eq_of_yamlBEqList a b h]
  | .map a, .map b, h => by
    simp [yamlBEq] at h
    simp [eq_of_yamlBEqPairs a b h]
  | .null, .bool _, h => by simp [yamlBEq] at h
  | .null, .str _, h => by simp [yamlBEq] at h
  | .null, .int _, h => by simp [yamlBEq] at h
  | .null, .seq _, h => by simp [yamlBEq] at h
  | .null, .map _, h => by simp [yamlBEq] at h
  | .bool _, .null, h => by simp [yamlBEq] at h
  | .bool _, .str _, h => by simp [yamlBEq] at h
  | .bool _, .int _, h => by simp [yamlBEq] at h
  | .bool _, .seq _, h => by simp [yamlBEq] at h
  | .bool _, .map _, h => by simp [yamlBEq] at h
  | .str _, .null, h => by simp [yamlBEq] at h
  | .str _, .bool _, h => by simp [yamlBEq] at h
  | .str _, .int _, h => by simp [yamlBEq] at h
  | .str _, .seq _, h => by simp [yamlBEq] at h
  | .str _, .map _, h => by simp [yamlBEq] at h
  | .int _, .null, h => by simp [yamlBEq] at h
  | .int _, .bool _, h => by simp [yamlBEq] at h
  | .int _, .str _, h => by simp [yamlBEq] at h
  | .int _, .seq _, h => by simp [yamlBEq] at h
  | .int _, .map _, h => by simp [yamlBEq] at h
  | .seq _, .null, h => by simp [yamlBEq] at h
  | .seq _, .bool _, h => by simp [yamlBEq] at h
  | .seq _, .str _, h => by simp [yamlBEq] at h
  | .seq _, .int _, h => by simp [yamlBEq] at h
  | .seq _, .map _, h => by simp [yamlBEq] at h
  | .map _, .null, h => by simp [yamlBEq] at h
  | .map _, .bool _, h => by simp [yamlBEq] at h
  | .map _, .str _, h => by simp [yamlBEq] at h
  | .map _, .int _, h => by simp [yamlBEq] at h
  | .map _, .seq _, h => by simp [yamlBEq] at h

theorem eq_of_yamlBEqList : ∀ a b, yamlBEqList a b = true → a = b
  | [], [], _ => rfl
  | a :: as, b :: bs, h => by
    simp [yamlBEqList] at h
    simp [eq_of_yamlBEq a b h.1, eq_of_yamlBEqList as bs h.2]
  | [], _ :: _, h => by simp [yamlBEqList] at h
  | _ :: _, [], h => by simp [yamlBEqList] at h

theorem eq_of_yamlBEqPairs : ∀ a b, yamlBEqPairs a b = true → a = b
  | [], [], _ => rfl
  | (k, v) :: as, (k2, v2) :: bs, h => by
    simp [yamlBEqPairs] at h
    obtain ⟨⟨h1, h2⟩, h3⟩ := h
    simp [h1, eq_of_yamlBEq v v2 h2, eq_of_yamlBEqPairs as bs h3]
  | [], _ :: _, h => by simp [yamlBEqPairs] at h
  | _ :: _, [], h => by simp [yamlBEqPairs] at h

end

instance : DecidableEq Yaml := fun a b =>
  if h : yamlBEq a b = true then .isTrue (eq_of_yamlBEq a b h)
  else .isFalse (fun hh => h (hh ▸ yamlBEq_refl a))

/-- First-match lookup in a mapping's entry list (`Mapping::get`). -/
def getv : List (String × Yaml) → String → Option Yaml
  | [], _ => none
  | (k, v) :: rest, key => if k = key then some v else getv rest key

/-- `Mapping::insert` with IndexMap semantics: replace the first binding in
place when present, append otherwise. -/
def insv : List (String × Yaml) → String → Yaml → List (String × Yaml)
  | [], key, val => [(key, val)]
  | (k, v) :: rest, key, val =>
    if k = key then (k, val) :: rest else (k, v) :: insv rest key val

/-- `Mapping::remove`: delete the key's bindings, keeping the order of
the remaining entries (IndexMap shift semantics; the crate manifest is
not part of the snapshot, so the serde_yaml minor version - and with it
a possible swap-remove residual order - is not pinned; the downstream
facts are key-presence statements and idempotence, reproved the same way
under either ordering). -/
def remv : List (String × Yaml) → String → List (String × Yaml)
  | [], _ => []
  | (k, v) :: rest, key =>
    if k = key then remv rest key else (k, v) :: remv rest key

/-- `entry(key).or_insert(val)`: insert only when the key is absent. -/
def orInsv (m : List (String × Yaml)) (key : String) (val : Yaml) :
    List (String × Yaml) :=
  match getv m key with
  | some _ => m
  | none => m ++ [(key, val)]

/-- Apply `f` to the value bound to `key` (first binding), if present. -/
def modv : List (String × Yaml) → String → (Yaml → Yaml) → List (String × Yaml)
  | [], _, _ => []
  | (k, v) :: rest, key, f =>
    if k = key then (k, f v) :: rest else (k, v) :: modv rest key f

/-- Apply `f` to the value bound to `key` only when that value is a
mapping, mirroring `if let Some(Value::Mapping(x)) = m.get_mut(key)`. -/
def modMap (m : List (String × Yaml)) (key : String)
    (f : List (String × Yaml) → List (String × Yaml)) : List (String × Yaml) :=
  modv m key (fun v => match v with
    | .map x => .map (f x)
    | other => other)

/-- Insert every entry of `l` into `m` in order (`for (k,v) in l { m.insert(k,v) }`). -/
def insAll (m : List (String × Yaml)) (l : List (String × Yaml)) :
    List (String × Yaml) :=
  l.foldl (fun acc p => insv acc p.1 p.2) m

/-- Path lookup by repeated mapping lookup: absent on the first missing
segment or non-mapping intermediate node. -/
def getPath : Yaml → List String → Option Yaml
  | t, [] => some t
  | .map m, k :: rest =>
    match getv m k with
    | some v => getPath v rest
    | none => none
  | _, _ :: _ => none

/-- `Value::get(key)` on an arbitrary node: mapping lookup, `none` otherwise. -/
def getY (t : Yaml) (key : String) : Option Yaml :=
  match t with
  | .map m => getv m key
  | _ => none

/-- `Value::as_bool`. -/
def asBool : Yaml → Option Bool
  | .bool b => some b
  | _ => none

/-- `Value::as_str`. -/
def asStr : Yaml → Option String
  | .str s => some s
  | _ => none

/-- Keys of a mapping's entry list. -/
def keysOf (m : List (String × Yaml)) : List String := m.map Prod.fst

mutual

/-- Well-formedness: every mapping in the tree has pairwise distinct keys.
Every `serde_yaml::Value` satisfies this by construction (mappings are
IndexMaps). -/
def WF : Yaml → Bool
  | .null => true
  | .bool _ => true
  | .str _ => true
  | .int _ => true
  | .seq l => WFList l
  | .map m => decide ((keysOf m).Nodup) && WFPairs m

/-- Well-formedness of a list of sequence elements. -/
def WFList : List Yaml → Bool
  | [] => true
  | t :: rest => WF t && WFList rest

/-- Well-formedness of the values of a mapping's entry list. -/
def WFPairs : List (String × Yaml) → Bool
  | [] => true
  | (_, v) :: rest => WF v && WFPairs rest

end

/-! ### Basic lemmas about the mapping operations -/

theorem getv_append (m l : List (String × Yaml)) (k : String) :
    getv (m ++ l) k = ((getv m k).or (getv l k)) := by
  induction m with
  | nil => simp [getv]
  | cons p rest ih =>
    obtain ⟨k0, v0⟩ := p
    by_cases h0 : k0 = k <;> simp [getv, h0, ih]

theorem getv_insv_self (m : List (String × Yaml)) (k : String) (v : Yaml) :
    getv (insv m k v) k = some v := by
  induction m with
  | nil => simp [insv, getv]
  | cons p rest ih =>
    obtain ⟨k0, v0⟩ := p
    by_cases h0 : k0 = k <;> simp [insv, getv, h0, ih]

theorem getv_insv_ne (m : List (String × Yaml)) (k k' : String) (v : Yaml)
    (h : k' ≠ k) : getv (insv m k v) k' = getv m k' := by
  have h' : ¬k = k' := fun hh => h hh.symm
  induction m with
  | nil => simp [insv, getv, h']
  | cons p rest ih =>
    obtain ⟨k0, v0⟩ := p
    by_cases h0 : k0 = k
    · subst h0
      simp [insv, getv, h']
    · simp [insv, getv, h0, ih]

theorem getv_remv_self (m : List (String × Yaml)) (k : String) :
    getv (remv m k) k = none := by
  induction m with
  | nil => simp [remv, getv]
  | cons p rest ih =>
    obtain ⟨k0, v0⟩ := p
    by_cases h0 : k0 = k <;> simp [remv, getv, h0, ih]

theorem getv_remv_ne (m : List (String × Yaml)) (k k' : String) (h : k' ≠ k) :
    getv (remv m k) k' = getv m k' := by
  have h' : ¬k = k' := fun hh => h hh.symm
  induction m with
  | nil => simp [remv, getv]
  | cons p rest ih =>
    obtain ⟨k0, v0⟩ := p
    by_cases h0 : k0 = k
    · subst h0
      simp [remv, getv, h', ih]
    · simp [remv, getv, h0, ih]

theorem remv_of_getv_none (m : List (String × Yaml)) (k : String)
    (h : getv m k = none) : remv m k = m := by
  induction m with
  | nil => simp [remv]
  | cons p rest ih =>
    obtain ⟨k0, v0⟩ := p
    by_cases h0 : k0 = k
    · simp [getv, h0] at h
    · simp [getv, h0] at h
      simp [remv, h0, ih h]

theorem insv_of_getv_eq (m : List (String × Yaml)) (k : String) (v : Yaml)
    (h : getv m k = some v) : insv m k v = m := by
  induction m with
  | nil => simp [getv] at h
  | cons p rest ih =>
    obtain ⟨k0, v0⟩ := p
    by_cases h0 : k0 = k
    · simp [getv, h0] at h
      simp [insv, h0, h]
    · simp [getv, h0] at h
      simp [insv, h0, ih h]

theorem orInsv_of_getv_some (m : List (String × Yaml)) (k : String) (v w : Yaml)
    (h : getv m k = some w) : orInsv m k v = m := by
  simp [orInsv, h]

theorem orInsv_of_getv_none (m : List (String × Yaml)) (k : String) (v : Yaml)
    (h : getv m k = none) : orInsv m k v = m ++ [(k, v)] := by
  simp [orInsv, h]

theorem getv_orInsv_self (m : List (String × Yaml)) (k : String) (v : Yaml) :
    getv (orInsv m k v) k = some ((getv m k).getD v) := by
  cases h : getv m k with
  | some w => simp [orInsv, h]
  | none => simp [orInsv, h, getv_append, getv]

theorem getv_orInsv_ne (m : List (String × Yaml)) (k k' : String) (v : Yaml)
    (h : k' ≠ k) : getv (orInsv m k v) k' = getv m k' := by
  have h' : ¬k = k' := fun hh => h hh.symm
  cases h0 : getv m k with
  | some w => simp [orInsv, h0]
  | none => simp [orInsv, h0, getv_append, getv, h']

theorem getv_modv_self (m : List (String × Yaml)) (k : String) (f : Yaml → Yaml) :
    getv (modv m k f) k = (getv m k).map f := by
  induction m with
  | nil => simp [modv, getv]
  | cons p rest ih =>
    obtain ⟨k0, v0⟩ := p
    by_cases h0 : k0 = k <;> simp [modv, getv, h0, ih]

theorem getv_modv_ne (m : List (String × Yaml)) (k k' : String) (f : Yaml → Yaml)
    (h : k' ≠ k) : getv (modv m k f) k' = getv m k' := by
  have h' : ¬k = k' := fun hh => h hh.symm
  induction m with
  | nil => simp [modv, getv]
  | cons p rest ih =>
    obtain ⟨k0, v0⟩ := p
    by_cases h0 : k0 = k
    · subst h0
      simp [modv, getv, h']
    · simp [modv, getv, h0, ih]

theorem modv_of_getv_none (m : List (String × Yaml)) (k : String)
    (f : Yaml → Yaml) (h : getv m k = none) : modv m k f = m := by
  induction m with
  | nil => simp [modv]
  | cons p rest ih =>
    obtain ⟨k0, v0⟩ := p
    by_cases h0 : k0 = k
    · simp [getv, h0] at h
    · simp [getv, h0] at h
      simp [modv, h0, ih h]

theorem modv_id_of_fix (m : List (String × Yaml)) (k : String) (f : Yaml → Yaml)
    (h : ∀ v, getv m k = some v → f v = v) : modv m k f = m := by
  induction m with
  | nil => simp [modv]
  | cons p rest ih =>
    obtain ⟨k0, v0⟩ := p
    by_cases h0 : k0 = k
    · have hv := h v0 (by simp [getv, h0])
      simp [modv, h0, hv]
    · simp [modv, h0]
      exact ih (fun v hv => h v (by simp [getv, h0, hv]))

theorem modv_modv_same (m : List (String × Yaml)) (k : String)
    (f g : Yaml → Yaml) :
    modv (modv m k g) k f = modv m k (fun v => f (g v)) := by
  induction m with
  | nil => simp [modv]
  | cons p rest ih =>
    obtain ⟨k0, v0⟩ := p
    by_cases h0 : k0 = k <;> simp [modv, h0, ih]

/-! ### `schema_version.rs`: `SchemaVersion`, `FromStr` and `Display`

`FromStr` splits the input on `'.'`, requires exactly three parts and
parses each part with `str::parse::<u32>` (optional leading `'+'`, one or
more ASCII digits, value below `2^32`).  `Display` renders
`"major.minor.patch"` in canonical decimal. -/

/-- `{major, minor, patch}` of `SchemaVersion` (`u32` fields; parsing
enforces the `2^32` bound). -/
structure SchemaVersion where
  major : Nat
  minor : Nat
  patch : Nat
deriving DecidableEq

/-- Numeric value of an ASCII digit character. -/
def digitVal (c : Char) : Nat := c.toNat - '0'.toNat

/-- Canonical decimal rendering of a natural number (Rust's `Display` for
`u32`). -/
def natDecimal (n : Nat) : List Char :=
  if n = 0 then ['0'] else (Nat.digits 10 n).reverse.map Nat.digitChar

/-- `str::split('.')` on a character list. -/
def splitDots : List Char → List (List Char)
  | [] => [[]]
  | c :: rest =>
    if c = '.' then [] :: splitDots rest
    else
      match splitDots rest with
      | p :: ps => (c :: p) :: ps
      | [] => [[c]]

/-- Strip one optional leading `'+'` (accepted by `u32`'s `FromStr`). -/
def stripPlus (l : List Char) : List Char :=
  match l with
  | c :: rest => if c = '+' then rest else l
  | [] => []

/-- Big-endian decimal accumulation. -/
def decimalValue (l : List Char) : Nat :=
  l.foldl (fun acc c => 10 * acc + digitVal c) 0

/-- `str::parse::<u32>`: optional `'+'`, then one or more ASCII digits,
rejecting values that overflow `u32`.  (Checked accumulation overflows
exactly when the final exact value does, since the accumulator grows
monotonically.) -/
def parseU32 (l : List Char) : Option Nat :=
  let body := stripPlus l
  if body ≠ [] ∧ body.all Char.isDigit then
    let n := decimalValue body
    if n < 2 ^ 32 then some n else none
  else none

/-- `FromStr for SchemaVersion`: split on `'.'`, require exactly three
parts, parse each as `u32`. -/
def SchemaVersion.fromStr (s : String) : Option SchemaVersion :=
  match splitDots s.data with
  | [a, b, c] =>
    match parseU32 a, parseU32 b, parseU32 c with
    | some x, some y, some z => some ⟨x, y, z⟩
    | _, _, _ => none
  | _ => none

/-- `Display for SchemaVersion`: `"major.minor.patch"`. -/
def SchemaVersion.display (v : SchemaVersion) : String :=
  String.mk (natDecimal v.major ++
    ('.' :: (natDecimal v.minor ++ ('.' :: natDecimal v.patch))))

/-! #### Round-trip lemmas for the version parser -/

theorem digitChar_isDigit (d : Nat) (h : d < 10) :
    (Nat.digitChar d).isDigit = true := by
  interval_cases d <;> decide

theorem digitVal_digitChar (d : Nat) (h : d < 10) :
    digitVal (Nat.digitChar d) = d := by
  interval_cases d <;> decide

theorem natDecimal_all_digit (n : Nat) :
    ∀ c ∈ natDecimal n, c.isDigit = true := by
  intro c hc
  by_cases h : n = 0
  · simp [natDecimal, h] at hc
    simp [hc]
  · simp [natDecimal, h] at hc
    obtain ⟨d, hd, hdc⟩ := hc
    have hlt : d < 10 := Nat.digits_lt_base (by norm_num) hd
    rw [← hdc]
    exact digitChar_isDigit d hlt

theorem natDecimal_ne_nil (n : Nat) : natDecimal n ≠ [] := by
  by_cases h : n = 0
  · simp [natDecimal, h]
  · simp [natDecimal, h, Nat.digits_ne_nil_iff_ne_zero]

theorem natDecimal_no_dot (n : Nat) : ∀ c ∈ natDecimal n, ¬c = '.' := by
  intro c hc hdot
  have := natDecimal_all_digit n c hc
  rw [hdot] at this
  simp at this

theorem splitDots_no_dot_append (a r : List Char) (h : ∀ c ∈ a, ¬c = '.') :
    splitDots (a ++ '.' :: r) = a :: splitDots r := by
  induction a with
  | nil => simp [splitDots]
  | cons c a' ih =>
    have hc : ¬c = '.' := h c (by simp)
    have ih' := ih (fun c' hc' => h c' (by simp [hc']))
    simp only [List.cons_append, splitDots, List.append_eq, hc, if_false, ih']

theorem splitDots_no_dot (a : List Char) (h : ∀ c ∈ a, ¬c = '.') :
    splitDots a = [a] := by
  induction a with
  | nil => simp [splitDots]
  | cons c a' ih =>
    have hc : ¬c = '.' := h c (by simp)
    have ih' := ih (fun c' hc' => h c' (by simp [hc']))
    simp only [splitDots, hc, if_false, ih']

theorem stripPlus_of_head_ne (l : List Char) (h : ∀ c ∈ l.head?, ¬c = '+') :
    stripPlus l = l := by
  cases l with
  | nil => rfl
  | cons c rest =>
    have hc : ¬c = '+' := h c (by simp)
    simp [stripPlus, hc]

/-- Big-endian fold over digit values agrees with `Nat.ofDigits` of the
little-endian digit list. -/
theorem foldl_reverse_ofDigits (le : List Nat) (acc : Nat) :
    List.foldl (fun a d => 10 * a + d) acc le.reverse =
      acc * 10 ^ le.length + Nat.ofDigits 10 le := by
  induction le generalizing acc with
  | nil => simp [Nat.ofDigits]
  | cons d rest ih =>
    simp only [List.reverse_cons, List.foldl_append, List.foldl_cons,
      List.foldl_nil, ih, Nat.ofDigits_cons, List.length_cons]
    ring

theorem foldl_digitChar (le : List Nat) (acc : Nat) (h : ∀ d ∈ le, d < 10) :
    List.foldl (fun a c => 10 * a + digitVal c) acc (le.map Nat.digitChar) =
      List.foldl (fun a d => 10 * a + d) acc le := by
  induction le generalizing acc with
  | nil => rfl
  | cons d rest ih =>
    simp only [List.map_cons, List.foldl_cons]
    rw [digitVal_digitChar d (h d (by simp))]
    exact ih _ (fun d' hd' => h d' (by simp [hd']))

theorem decimalValue_natDecimal (n : Nat) : decimalValue (natDecimal n) = n := by
  by_cases h : n = 0
  · simp [decimalValue, natDecimal, h, digitVal]
  · have hdig : ∀ d ∈ (Nat.digits 10 n).reverse, d < 10 :=
      fun d hd => Nat.digits_lt_base (by norm_num) (List.mem_reverse.mp hd)
    have hmap := foldl_digitChar (Nat.digits 10 n).reverse 0 hdig
    simp only [decimalValue, natDecimal, h, if_false, hmap,
      foldl_reverse_ofDigits, Nat.ofDigits_digits, Nat.zero_mul, Nat.zero_add]

theorem parseU32_natDecimal (n : Nat) (h : n < 2 ^ 32) :
    parseU32 (natDecimal n) = some n := by
  have hstrip : stripPlus (natDecimal n) = natDecimal n := by
    apply stripPlus_of_head_ne
    intro c hc
    intro hplus
    have hmem : c ∈ natDecimal n := by
      cases hl : natDecimal n with
      | nil => simp [hl] at hc
      | cons a rest => simp [hl] at hc ⊢; simp [hc]
    have := natDecimal_all_digit n c hmem
    rw [hplus] at this
    simp at this
  have halldig : (natDecimal n).all Char.isDigit = true := by
    rw [List.all_eq_true]
    exact fun c hc => natDecimal_all_digit n c hc
  simp only [parseU32, hstrip, halldig, decimalValue_natDecimal n, h,
    if_true, ne_eq, natDecimal_ne_nil n, not_false_eq_true, and_true,
    true_and, if_pos]

/-! ### The version-format regex of `main.rs` (`validate_version_format`)

`^v\d+\.\d+\.\d+(-[a-zA-Z0-9.-]+)?$`, modelled over ASCII input (the
`regex` crate's `\d` additionally admits non-ASCII Unicode decimal digits,
which never occur in the strings this tool handles). -/

/-- A character admitted in the optional `-suffix`: `[a-zA-Z0-9.-]`. -/
def isSuffixChar (c : Char) : Bool :=
  c.isAlpha || c.isDigit || c = '.' || c = '-'

/-- Consume one or more leading digits (`\d+`), returning the remainder. -/
def digitsThen (l : List Char) : Option (List Char) :=
  match l.span Char.isDigit with
  | (ds, rest) => if ds.isEmpty then none else some rest

/-- `validate_version_format` of `main.rs`: `Ok` exactly when the string
matches `^v\d+\.\d+\.\d+(-[a-zA-Z0-9.-]+)?$`. -/
def validFormat (s : String) : Bool :=
  match s.data with
  | 'v' :: rest =>
    match digitsThen rest with
    | some ('.' :: r2) =>
      match digitsThen r2 with
      | some ('.' :: r3) =>
        match digitsThen r3 with
        | some [] => true
        | some ('-' :: suf) => !suf.isEmpty && suf.all isSuffixChar
        | _ => false
      | _ => false
    | _ => false
  | _ => false

/-! ### `transformation_rule.rs` -/

/-- `TransformationType`. -/
inductive TransformationType : Type where
  | Move : TransformationType
  | Copy : TransformationType
  | Transform : String → TransformationType
  | Merge : List String → TransformationType
  | Split : List String → TransformationType
  | Remove : TransformationType
deriving DecidableEq

/-- `ConditionType`. -/
inductive ConditionType : Type where
  | FieldExists : ConditionType
  | FieldAbsent : ConditionType
  | ValueEquals : ConditionType
  | ValueNotEquals : ConditionType
deriving DecidableEq

/-- `Condition`. -/
structure Condition where
  field_path : String
  condition_type : ConditionType
  expected_value : Option Yaml
deriving DecidableEq

/-- `TransformationRule` (`priority` is a `u32`). -/
structure TransformationRule where
  rule_id : String
  source_path : String
  target_path : String
  transformation_type : TransformationType
  condition : Option Condition
  priority : Nat
deriving DecidableEq

/-- `AppliedTransformation`. -/
structure AppliedTransformation where
  rule_id : String
  source_path : String
  target_path : String
  old_value : Option Yaml
  new_value : Option Yaml
  transformation_type : TransformationType
deriving DecidableEq

/-- Dot-separated path segments (`path.split('.')`). -/
def pathSegs (path : String) : List String :=
  (splitDots path.data).map (fun l => String.mk l)

/-- `get_nested_value`: repeated mapping lookup along the dot path. -/
def get_nested_value (t : Yaml) (path : String) : Option Yaml :=
  getPath t (pathSegs path)

/-- `TransformationRule::condition_satisfied`, evaluated against the
current state of the tree. -/
def TransformationRule.condition_satisfied (r : TransformationRule)
    (config : Yaml) : Bool :=
  match r.condition with
  | none => true
  | some c =>
    let fv := get_nested_value config c.field_path
    match c.condition_type with
    | .FieldExists => fv.isSome
    | .FieldAbsent => fv.isNone
    | .ValueEquals =>
      match fv, c.expected_value with
      | some a, some e => decide (a = e)
      | _, _ => false
    | .ValueNotEquals =>
      match fv, c.expected_value with
      | some a, some e => decide (a ≠ e)
      | _, _ => true

/-! ### `validation.rs` -/

/-- `ValidationErrorType`. -/
inductive ValidationErrorType : Type where
  | MissingRequiredField : ValidationErrorType
  | InvalidFieldType : ValidationErrorType
  | InvalidFieldValue : ValidationErrorType
  | StructureViolation : ValidationErrorType
  | SchemaViolation : ValidationErrorType
deriving DecidableEq

/-- `ValidationError`. -/
structure ValidationError where
  field_path : String
  error_type : ValidationErrorType
  message : String
  suggested_fix : Option String
deriving DecidableEq

/-- `ValidationWarningType`. -/
inductive ValidationWarningType : Type where
  | DeprecatedField : ValidationWarningType
  | SuboptimalConfiguration : ValidationWarningType
  | MissingOptionalField : ValidationWarningType
  | PotentialIssue : ValidationWarningType
deriving DecidableEq

/-- `ValidationWarning`. -/
structure ValidationWarning where
  field_path : String
  warning_type : ValidationWarningType
  message : String
  recommendation : Option String
deriving DecidableEq

/-- `ValidationReport`. -/
structure ValidationReport where
  is_valid : Bool
  errors : List ValidationError
  warnings : List ValidationWarning
  deprecated_fields : List String
  missing_required_fields : List String
deriving DecidableEq

/-- `ValidationReport::new()`: valid, all lists empty. -/
def ValidationReport.new : ValidationReport := ⟨true, [], [], [], []⟩

/-- `add_error`: records the error and clears `is_valid`. -/
def ValidationReport.add_error (r : ValidationReport) (e : ValidationError) :
    ValidationReport :=
  { r with is_valid := false, errors := r.errors ++ [e] }

/-- `add_warning`: records the warning only. -/
def ValidationReport.add_warning (r : ValidationReport) (w : ValidationWarning) :
    ValidationReport :=
  { r with warnings := r.warnings ++ [w] }

/-- `add_deprecated_field`: records the field only. -/
def ValidationReport.add_deprecated_field (r : ValidationReport) (f : String) :
    ValidationReport :=
  { r with deprecated_fields := r.deprecated_fields ++ [f] }

/-- `add_missing_required_field`: records the field and clears `is_valid`. -/
def ValidationReport.add_missing_required_field (r : ValidationReport)
    (f : String) : ValidationReport :=
  { r with is_valid := false,
           missing_required_fields := r.missing_required_fields ++ [f] }

/-- `FieldType`. -/
inductive FieldType : Type where
  | String : FieldType
  | Integer : FieldType
  | Float : FieldType
  | Boolean : FieldType
  | Array : FieldType
  | Object : FieldType
  | Any : FieldType
deriving DecidableEq

/-- `SchemaDefinition` (`field_types` is a `HashMap`, modelled as an
association list). -/
structure SchemaDefinition where
  version : SchemaVersion
  required_fields : List String
  deprecated_fields : List String
  field_types : List (String × FieldType)
deriving DecidableEq

/-- One mutation of a `ValidationReport`, for reasoning about arbitrary
sequences of report operations. -/
inductive ReportOp : Type where
  | addError : ValidationError → ReportOp
  | addWarning : ValidationWarning → ReportOp
  | addDeprecated : String → ReportOp
  | addMissingRequired : String → ReportOp
deriving DecidableEq

/-- Apply one report operation. -/
def applyReportOp (r : ValidationReport) : ReportOp → ValidationReport
  | .addError e => r.add_error e
  | .addWarning w => r.add_warning w
  | .addDeprecated f => r.add_deprecated_field f
  | .addMissingRequired f => r.add_missing_required_field f

/-- Whether an operation is one of the two that clear `is_valid`. -/
def ReportOp.invalidates : ReportOp → Bool
  | .addError _ => true
  | .addMissingRequired _ => true
  | .addWarning _ => false
  | .addDeprecated _ => false

/-! ### `schema_registry.rs` -/

/-- First-match lookup in an association list (`HashMap::get`). -/
def alookup {α β : Type} [DecidableEq α] : List (α × β) → α → Option β
  | [], _ => none
  | (k, v) :: rest, key => if k = key then some v else alookup rest key

/-- `HashMap::insert`: replace the binding when present, add it otherwise. -/
def ainsert {α β : Type} [DecidableEq α] : List (α × β) → α → β → List (α × β)
  | [], key, val => [(key, val)]
  | (k, v) :: rest, key, val =>
    if k = key then (k, val) :: rest else (k, v) :: ainsert rest key val

theorem alookup_ainsert_self {α β : Type} [DecidableEq α]
    (m : List (α × β)) (k : α) (v : β) : alookup (ainsert m k v) k = some v := by
  induction m with
  | nil => simp [ainsert, alookup]
  | cons p rest ih =>
    obtain ⟨k0, v0⟩ := p
    by_cases h0 : k0 = k <;> simp [ainsert, alookup, h0, ih]

/-- `RegistryError`. -/
inductive RegistryError : Type where
  | SchemaNotFound : SchemaVersion → RegistryError
  | NoTransformationRules : String → String → RegistryError
  | RuleValidationFailed : String → RegistryError
  | SchemaDefinitionError : String → RegistryError
deriving DecidableEq

/-- `Display` of `RegistryError` (the `thiserror` format strings). -/
def RegistryError.toMessage : RegistryError → String
  | .SchemaNotFound v => "Schema version not found: " ++ v.display
  | .NoTransformationRules s t =>
    "No transformation rules found from " ++ s ++ " to " ++ t
  | .RuleValidationFailed m => "Rule validation failed: " ++ m
  | .SchemaDefinitionError m => "Schema definition error: " ++ m

/-- `SchemaRegistry`: three `HashMap`s, modelled as association lists. -/
structure SchemaRegistry where
  schemas : List (SchemaVersion × SchemaDefinition)
  transformation_rules :
    List ((SchemaVersion × SchemaVersion) × List TransformationRule)
  migration_paths : List (SchemaVersion × List SchemaVersion)
deriving DecidableEq

/-- `SchemaRegistry::new()`. -/
def SchemaRegistry.new : SchemaRegistry := ⟨[], [], []⟩

/-- `add_schema`. -/
def SchemaRegistry.add_schema (reg : SchemaRegistry) (schema : SchemaDefinition) :
    SchemaRegistry :=
  { reg with schemas := ainsert reg.schemas schema.version schema }

/-- `validate_rules`: the first rule with an empty `rule_id` or empty
`source_path` produces the error. -/
def validate_rules : List TransformationRule → Option RegistryError
  | [] => none
  | r :: rest =>
    if r.rule_id = "" then
      some (.RuleValidationFailed "Rule ID cannot be empty")
    else if r.source_path = "" then
      some (.RuleValidationFailed
        ("Source path cannot be empty for rule " ++ r.rule_id))
    else validate_rules rest

/-- `add_transformation_rules`: validate, then insert.  The Rust method
mutates `self` and returns `Result<(), _>`; we return the updated registry
together with the optional error. -/
def SchemaRegistry.add_transformation_rules (reg : SchemaRegistry)
    (source target : SchemaVersion) (rules : List TransformationRule) :
    SchemaRegistry × Option RegistryError :=
  match validate_rules rules with
  | some e => (reg, some e)
  | none =>
    ({ reg with transformation_rules :=
         ainsert reg.transformation_rules (source, target) rules }, none)

/-- `get_transformation_rules`. -/
def SchemaRegistry.get_transformation_rules (reg : SchemaRegistry)
    (source target : SchemaVersion) :
    Except RegistryError (List TransformationRule) :=
  match alookup reg.transformation_rules (source, target) with
  | some rules => .ok rules
  | none => .error (.NoTransformationRules source.display target.display)

/-- `field_exists`: dot-path traversal through mappings only. -/
def SchemaRegistry.field_exists (config : Yaml) (field_path : String) : Bool :=
  (getPath config (pathSegs field_path)).isSome

/-- `validate_configuration`: record every absent required field as
missing-required and every present deprecated field as deprecated. -/
def SchemaRegistry.validate_configuration (reg : SchemaRegistry)
    (config : Yaml) (version : SchemaVersion) :
    Except RegistryError ValidationReport :=
  match alookup reg.schemas version with
  | none => .error (.SchemaNotFound version)
  | some schema =>
    let r1 := schema.required_fields.foldl
      (fun rep f =>
        if SchemaRegistry.field_exists config f then rep
        else rep.add_missing_required_field f)
      ValidationReport.new
    let r2 := schema.deprecated_fields.foldl
      (fun rep f =>
        if SchemaRegistry.field_exists config f then rep.add_deprecated_field f
        else rep)
      r1
    .ok r2

/-- `add_migration_path`. -/
def SchemaRegistry.add_migration_path (reg : SchemaRegistry)
    (source : SchemaVersion) (path : List SchemaVersion) : SchemaRegistry :=
  { reg with migration_paths := ainsert reg.migration_paths source path }

/-- `get_migration_path`: same-version is the singleton; a registered path
containing the target is truncated after the target; otherwise direct. -/
def SchemaRegistry.get_migration_path (reg : SchemaRegistry)
    (source target : SchemaVersion) : Option (List SchemaVersion) :=
  if source = target then some [target]
  else
    match alookup reg.migration_paths source with
    | some path =>
      if target ∈ path then
        some (path.take (path.indexOf target + 1))
      else some [target]
    | none => some [target]

/-! ### `transformation_engine.rs`

`SchemaTransformationEngine` owns a `SchemaRegistry` and a
`TransformationReporter`; the reporter is a stateless formatter
(`reporter.rs`) with no influence on transformation results, so the engine
methods below take the registry directly. -/

/-- `TransformationWarningType`. -/
inductive TransformationWarningType : Type where
  | PartialTransformation : TransformationWarningType
  | ConditionalSkipped : TransformationWarningType
  | ValueNotTransformed : TransformationWarningType
  | DeprecatedFieldFound : TransformationWarningType
deriving DecidableEq

/-- `TransformationWarning`. -/
structure TransformationWarning where
  message : String
  field_path : Option String
  warning_type : TransformationWarningType
deriving DecidableEq

/-- `TransformationError` (the `YamlError` payload is its message). -/
inductive TransformationError : Type where
  | VersionDetectionFailed : String → TransformationError
  | NoMigrationPath : String → String → TransformationError
  | RuleApplicationFailed : String → String → TransformationError
  | ValidationFailed : ValidationReport → TransformationError
  | RegistryError : String → TransformationError
  | YamlError : String → TransformationError
deriving DecidableEq

/-- `TransformationResult`. -/
structure TransformationResult where
  transformed_config : Yaml
  applied_transformations : List AppliedTransformation
  validation_report : ValidationReport
  warnings : List TransformationWarning
  source_version : Option SchemaVersion
  target_version : SchemaVersion
deriving DecidableEq

/-- `detect_version`: the placeholder always reports an unknown version. -/
def detect_version (_config : Yaml) :
    Except TransformationError (Option SchemaVersion) :=
  .ok none

/-- `resolve_migration_path`: the same-version case and the general case
both resolve directly to the target. -/
def resolve_migration_path (source target : SchemaVersion) :
    Except TransformationError (List SchemaVersion) :=
  if source = target then .ok [target]
  else .ok [target]

/-- `apply_single_rule`: the placeholder performs no edit and reports no
applied transformation. -/
def apply_single_rule (config : Yaml) (_rule : TransformationRule) :
    Except String (Yaml × Option AppliedTransformation) :=
  .ok (config, none)

/-- The warning recorded when `apply_single_rule` returns `Ok(None)`:
`"Rule {rule_id} was skipped"` at the rule's source path. -/
def skipWarningOf (r : TransformationRule) : TransformationWarning :=
  ⟨"Rule " ++ r.rule_id ++ " was skipped", some r.source_path,
    .ConditionalSkipped⟩

/-- Stable insertion into a list sorted by descending priority.  The
sorted tail consists of originally-later rules, so the inserted rule goes
before every element of priority `≤` its own; the result is the unique
stable descending arrangement computed by
`sort_by(|a, b| b.priority.cmp(&a.priority))`. -/
def insertRuleDesc (r : TransformationRule) :
    List TransformationRule → List TransformationRule
  | [] => [r]
  | x :: xs =>
    if x.priority ≤ r.priority then r :: x :: xs
    else x :: insertRuleDesc r xs

/-- Stable sort by descending priority. -/
def sortRulesDesc : List TransformationRule → List TransformationRule
  | [] => []
  | r :: rest => insertRuleDesc r (sortRulesDesc rest)

/-- The loop body of `apply_transformation_rules` over the sorted rules,
threading the configuration and the accumulated audit lists. -/
def applyRulesGo (config : Yaml) :
    List TransformationRule → List AppliedTransformation →
    List TransformationWarning →
    Except TransformationError
      (Yaml × List AppliedTransformation × List TransformationWarning)
  | [], applied, warnings => .ok (config, applied, warnings)
  | r :: rest, applied, warnings =>
    if r.condition_satisfied config then
      match apply_single_rule config r with
      | .ok (config', some tr) =>
        applyRulesGo config' rest (applied ++ [tr]) warnings
      | .ok (config', none) =>
        applyRulesGo config' rest applied (warnings ++ [skipWarningOf r])
      | .error e => .error (.RuleApplicationFailed r.rule_id e)
    else applyRulesGo config rest applied warnings

/-- `apply_transformation_rules`: sort by descending priority, then apply
each rule whose condition is satisfied. -/
def apply_transformation_rules (config : Yaml)
    (rules : List TransformationRule) :
    Except TransformationError
      (Yaml × List AppliedTransformation × List TransformationWarning) :=
  applyRulesGo config (sortRulesDesc rules) [] []

/-- The migration loop of `transform_with_target_version`: rules are
fetched and applied only while a current version is known. -/
def applyAlongPath (reg : SchemaRegistry) (config : Yaml) :
    List SchemaVersion → Option SchemaVersion →
    List AppliedTransformation → List TransformationWarning →
    Except TransformationError
      (Yaml × List AppliedTransformation × List TransformationWarning ×
        Option SchemaVersion)
  | [], cur, applied, warnings => .ok (config, applied, warnings, cur)
  | hop :: rest, cur, applied, warnings =>
    match cur with
    | some current =>
      match reg.get_transformation_rules current hop with
      | .error e => .error (.RegistryError e.toMessage)
      | .ok rules =>
        match apply_transformation_rules config rules with
        | .error e => .error e
        | .ok (config', newT, newW) =>
          applyAlongPath reg config' rest (some hop) (applied ++ newT)
            (warnings ++ newW)
    | none => applyAlongPath reg config rest (some hop) applied warnings

/-- `transform_with_target_version`. -/
def transform_with_target_version (reg : SchemaRegistry) (config : Yaml)
    (target : SchemaVersion) :
    Except TransformationError TransformationResult :=
  match detect_version config with
  | .error e => .error e
  | .ok source_version =>
    let sameVersion := match source_version with
      | some source => decide (source = target)
      | none => false
    if sameVersion then
      match reg.validate_configuration config target with
      | .error e => .error (.RegistryError e.toMessage)
      | .ok report => .ok ⟨config, [], report, [], source_version, target⟩
    else
      match (match source_version with
             | some source => resolve_migration_path source target
             | none => Except.ok [target]) with
      | .error e => .error e
      | .ok path =>
        match applyAlongPath reg config path source_version [] [] with
        | .error e => .error e
        | .ok (config', applied, warnings, _) =>
          match reg.validate_configuration config' target with
          | .error e => .error (.RegistryError e.toMessage)
          | .ok report =>
            .ok ⟨config', applied, report, warnings, source_version, target⟩

/-! ### Helper lemmas for the engine-side claims -/

theorem validate_rules_eq_none_iff (rules : List TransformationRule) :
    validate_rules rules = none ↔
      ∀ r ∈ rules, ¬r.rule_id = "" ∧ ¬r.source_path = "" := by
  induction rules with
  | nil => simp [validate_rules]
  | cons r rest ih =>
    by_cases h1 : r.rule_id = ""
    · simp [validate_rules, h1]
    · by_cases h2 : r.source_path = ""
      · simp [validate_rules, h1, h2]
      · simp [validate_rules, h1, h2, ih]

theorem applyReportOp_is_valid (r : ValidationReport) (op : ReportOp) :
    (applyReportOp r op).is_valid = (r.is_valid && !op.invalidates) := by
  cases op <;>
    simp [applyReportOp, ReportOp.invalidates, ValidationReport.add_error,
      ValidationReport.add_warning, ValidationReport.add_deprecated_field,
      ValidationReport.add_missing_required_field]

theorem foldl_reportOps_is_valid (ops : List ReportOp) (r : ValidationReport) :
    (ops.foldl applyReportOp r).is_valid =
      (r.is_valid && ops.all (fun op => !op.invalidates)) := by
  induction ops generalizing r with
  | nil => simp
  | cons op rest ih =>
    simp only [List.foldl_cons, ih, applyReportOp_is_valid, List.all_cons,
      Bool.and_assoc]

theorem applyRulesGo_spec (l : List TransformationRule) (config : Yaml)
    (applied : List AppliedTransformation)
    (warnings : List TransformationWarning) :
    applyRulesGo config l applied warnings =
      .ok (config, applied,
        warnings ++
          (l.filter fun r => r.condition_satisfied config).map skipWarningOf) := by
  induction l generalizing warnings with
  | nil => simp [applyRulesGo]
  | cons r rest ih =>
    by_cases h : r.condition_satisfied config
    · simp [applyRulesGo, h, apply_single_rule, ih, List.filter_cons]
    · simp [applyRulesGo, h, ih, List.filter_cons]

/-! ### Claim C2 (corrected)

In `apply_transformation_rules`, a rule whose condition evaluates false is
skipped silently: no warning is recorded for it.  The skipped-transformation
warning naming a rule is recorded exactly for the rules whose condition
evaluates true, because `apply_single_rule` is a stub returning `Ok(None)`;
those rules are not applied either (the tree is unchanged and no applied
transformation is recorded). -/

/-- A configuration in which the path `x` is present and the path `y` is
absent. -/
def cfgC2 : Yaml := .map [("x", .int 1)]

/-- A rule gated on `FieldAbsent("x")`: its condition evaluates false on
`cfgC2`. -/
def ruleCondFalse : TransformationRule :=
  ⟨"r_false", "a", "b", .Move, some ⟨"x", .FieldAbsent, none⟩, 100⟩

/-- A rule gated on `FieldAbsent("y")`: its condition evaluates true on
`cfgC2`. -/
def ruleCondTrue : TransformationRule :=
  ⟨"r_true", "a", "b", .Move, some ⟨"y", .FieldAbsent, none⟩, 50⟩

/-- C2, counterexample: on `cfgC2`, the rule whose condition evaluates
false (`r_false`) produces no skipped-transformation warning at all —
the only warning names `r_true` — and the rule whose condition evaluates
true (`r_true`) is not applied: the tree is unchanged and the applied
list is empty.  This contradicts both halves of the claim. -/
theorem apply_transformation_rules_counterexample :
    apply_transformation_rules cfgC2 [ruleCondFalse, ruleCondTrue] =
      .ok (cfgC2, [], [skipWarningOf ruleCondTrue]) := by
  rfl

/-- C2, amended: `apply_transformation_rules` never fails and never edits
the configuration; it records no applied transformation, and it records
exactly one skipped-transformation warning (naming the rule and its
source path) for each rule, in descending-priority order, whose condition
evaluates true against the tree — rules whose condition evaluates false
are skipped silently, with no warning and no error. -/
theorem apply_transformation_rules_spec (config : Yaml)
    (rules : List TransformationRule) :
    apply_transformation_rules config rules =
      .ok (config, [],
        ((sortRulesDesc rules).filter
            fun r => r.condition_satisfied config).map skipWarningOf) := by
  simp [apply_transformation_rules, applyRulesGo_spec]

/-! ### Claim C6 (corrected)

`FromStr for SchemaVersion` splits on `'.'` and parses every part with
`str::parse::<u32>`, so the leading `v` required by the claim's
`v{u32}.{u32}.{u32}` format makes parsing fail, as does any `-suffix`.
The round-trip holds for the canonical `major.minor.patch` renderings. -/

/-- C6, counterexample: parsing the valid version string `"v1.2.3"` of the
claim's form `v{u32}.{u32}.{u32}` fails (the first part `"v1"` is not a
`u32` numeral), so `format(parse(s)) == s` fails to hold at `s = "v1.2.3"`. -/
theorem schemaVersion_fromStr_v_counterexample :
    SchemaVersion.fromStr "v1.2.3" = none := by
  rfl

/-- C6, amended: for every version string that is the canonical decimal
rendering `"major.minor.patch"` of a `u32` triple — without the `v`
prefix and without a suffix — parsing succeeds and returns exactly the
triple, so rendering the parsed value yields the original string. -/
theorem schemaVersion_roundtrip (v : SchemaVersion) (h1 : v.major < 2 ^ 32)
    (h2 : v.minor < 2 ^ 32) (h3 : v.patch < 2 ^ 32) :
    SchemaVersion.fromStr (SchemaVersion.display v) = some v := by
  obtain ⟨a, b, c⟩ := v
  have hd : (SchemaVersion.display ⟨a, b, c⟩).data =
      natDecimal a ++ '.' :: (natDecimal b ++ '.' :: natDecimal c) := rfl
  have hsplit : splitDots
      (natDecimal a ++ '.' :: (natDecimal b ++ '.' :: natDecimal c)) =
      [natDecimal a, natDecimal b, natDecimal c] := by
    rw [splitDots_no_dot_append _ _ (natDecimal_no_dot a),
        splitDots_no_dot_append _ _ (natDecimal_no_dot b),
        splitDots_no_dot _ (natDecimal_no_dot c)]
  simp only [SchemaVersion.fromStr, hd, hsplit, parseU32_natDecimal a h1,
    parseU32_natDecimal b h2, parseU32_natDecimal c h3]

/-- Witness for the amended C6 at the concrete version `23.2.24`. -/
theorem schemaVersion_roundtrip_witness :
    SchemaVersion.fromStr (SchemaVersion.display ⟨23, 2, 24⟩) =
      some ⟨23, 2, 24⟩ :=
  schemaVersion_roundtrip ⟨23, 2, 24⟩ (by norm_num) (by norm_num) (by norm_num)

/-! ### Claim C7 (confirmed) -/

/-- C7: migration path resolution is direct.  For every pair of versions,
`resolve_migration_path` returns the single-element list `[target]`: the
same-version case returns it explicitly, and the differing case also
resolves directly to the target, so no multi-hop path through intermediate
versions is ever returned. -/
theorem resolve_migration_path_direct (source target : SchemaVersion) :
    resolve_migration_path source target = .ok [target] := by
  by_cases h : source = target <;> simp [resolve_migration_path, h]

/-! ### Claim C8 (confirmed) -/

/-- C8: `add_transformation_rules` fails exactly when some rule has an
empty `rule_id` or an empty `source_path`; on failure the registry is
unchanged (in particular its rule map), and on success
`get_transformation_rules` returns exactly the registered set. -/
theorem add_transformation_rules_spec (reg : SchemaRegistry)
    (source target : SchemaVersion) (rules : List TransformationRule) :
    ((reg.add_transformation_rules source target rules).2.isSome ↔
        ∃ r ∈ rules, r.rule_id = "" ∨ r.source_path = "") ∧
      ((reg.add_transformation_rules source target rules).2.isSome →
        (reg.add_transformation_rules source target rules).1 = reg) ∧
      ((reg.add_transformation_rules source target rules).2 = none →
        (reg.add_transformation_rules source target rules).1.get_transformation_rules
            source target = .ok rules) := by
  cases h : validate_rules rules with
  | none =>
    have hall := (validate_rules_eq_none_iff rules).mp h
    refine ⟨?_, ?_, ?_⟩
    · simp only [SchemaRegistry.add_transformation_rules, h]
      constructor
      · intro hs
        simp at hs
      · rintro ⟨r, hr, hbad⟩
        rcases hbad with hb | hb
        · exact absurd hb (hall r hr).1
        · exact absurd hb (hall r hr).2
    · intro hs
      simp [SchemaRegistry.add_transformation_rules, h] at hs
    · intro _
      simp [SchemaRegistry.add_transformation_rules, h,
        SchemaRegistry.get_transformation_rules, alookup_ainsert_self]
  | some e =>
    have hne : ¬validate_rules rules = none := by simp [h]
    rw [validate_rules_eq_none_iff] at hne
    push_neg at hne
    obtain ⟨r, hr, hbad⟩ := hne
    refine ⟨?_, ?_, ?_⟩
    · simp only [SchemaRegistry.add_transformation_rules, h]
      constructor
      · intro _
        by_cases h1 : r.rule_id = ""
        · exact ⟨r, hr, Or.inl h1⟩
        · exact ⟨r, hr, Or.inr (hbad h1)⟩
      · intro _
        simp
    · intro _
      simp [SchemaRegistry.add_transformation_rules, h]
    · intro hnone
      simp [SchemaRegistry.add_transformation_rules, h] at hnone

/-- A well-formed rule used to witness C8. -/
def ruleC8 : TransformationRule :=
  ⟨"test_rule", "old.path", "new.path", .Move, none, 100⟩

/-- Witness for C8: registering a valid one-rule set into the empty
registry succeeds and `get_transformation_rules` returns exactly it. -/
theorem add_transformation_rules_spec_witness :
    (SchemaRegistry.new.add_transformation_rules ⟨5, 0, 10⟩ ⟨25, 2, 9⟩
          [ruleC8]).1.get_transformation_rules ⟨5, 0, 10⟩ ⟨25, 2, 9⟩ =
      .ok [ruleC8] :=
  (add_transformation_rules_spec SchemaRegistry.new ⟨5, 0, 10⟩ ⟨25, 2, 9⟩
    [ruleC8]).2.2 rfl

/-! ### Claim C9 (confirmed) -/

/-- C9: starting from `ValidationReport::new()`, after any sequence of
report operations `is_valid` is false exactly when some `add_error` or
`add_missing_required_field` occurred; no operation restores validity,
and `add_warning` / `add_deprecated_field` leave `is_valid` unchanged. -/
theorem validationReport_is_valid_spec (ops : List ReportOp) :
    (((ops.foldl applyReportOp ValidationReport.new).is_valid = false) ↔
        ∃ op ∈ ops, op.invalidates = true) ∧
      (∀ (r : ValidationReport) (op : ReportOp), r.is_valid = false →
        (applyReportOp r op).is_valid = false) ∧
      (∀ (r : ValidationReport) (w : ValidationWarning),
        (r.add_warning w).is_valid = r.is_valid) ∧
      (∀ (r : ValidationReport) (f : String),
        (r.add_deprecated_field f).is_valid = r.is_valid) := by
  refine ⟨?_, ?_, ?_, ?_⟩
  · rw [foldl_reportOps_is_valid]
    simp [ValidationReport.new]
  · intro r op h
    rw [applyReportOp_is_valid, h]
    simp
  · intro r w
    simp [ValidationReport.add_warning]
  · intro r f
    simp [ValidationReport.add_deprecated_field]

/-- A concrete validation error used to witness C9. -/
def errC9 : ValidationError :=
  ⟨"image.tag", .MissingRequiredField, "Field is required", none⟩

/-- A concrete validation warning used to witness C9. -/
def warnC9 : ValidationWarning :=
  ⟨"old.field", .DeprecatedField, "Field is deprecated", none⟩

/-- Witness for C9: a warning followed by an error leaves the report
invalid. -/
theorem validationReport_is_valid_spec_witness :
    (([ReportOp.addWarning warnC9, ReportOp.addError errC9]).foldl
        applyReportOp ValidationReport.new).is_valid = false :=
  (validationReport_is_valid_spec
      [ReportOp.addWarning warnC9, ReportOp.addError errC9]).1.mpr
    ⟨ReportOp.addError errC9, by simp, rfl⟩

/-! ### Claim C10 (confirmed) -/

/-- C10: whenever the generalized engine's
`transform_with_target_version` succeeds, the returned result carries the
input configuration unchanged, no applied transformations, no warnings,
and no source version — `detect_version` always reports unknown, the
rule-application loop runs only under a known current version, and
`apply_single_rule` never edits. -/
theorem transform_with_target_version_no_edit (reg : SchemaRegistry)
    (config : Yaml) (target : SchemaVersion) (result : TransformationResult)
    (h : transform_with_target_version reg config target = .ok result) :
    result.transformed_config = config ∧
      result.applied_transformations = [] ∧
      result.warnings = [] ∧
      result.source_version = none := by
  simp only [transform_with_target_version, detect_version,
    applyAlongPath] at h
  cases hv : reg.validate_configuration config target with
  | error e =>
    rw [hv] at h
    cases h
  | ok report =>
    rw [hv] at h
    cases h
    exact ⟨rfl, rfl, rfl, rfl⟩

/-- A schema definition with no constraints, at version `25.2.9`. -/
def schemaC10 : SchemaDefinition := ⟨⟨25, 2, 9⟩, [], [], []⟩

/-- A registry that knows only `schemaC10`. -/
def regC10 : SchemaRegistry := ⟨[(⟨25, 2, 9⟩, schemaC10)], [], []⟩

/-- A concrete input configuration for the C10 witness. -/
def cfgC10 : Yaml := .map [("image", .map [("tag", .str "v25.2.9")])]

/-- The result the engine returns on the C10 witness input. -/
def resC10 : TransformationResult :=
  ⟨cfgC10, [], ValidationReport.new, [], none, ⟨25, 2, 9⟩⟩

/-- Witness for C10 at a concrete registry, configuration and target. -/
theorem transform_with_target_version_no_edit_witness :
    resC10.transformed_config = cfgC10 ∧
      resC10.applied_transformations = [] ∧
      resC10.warnings = [] ∧
      resC10.source_version = none :=
  transform_with_target_version_no_edit regC10 cfgC10 ⟨25, 2, 9⟩ resC10 rfl

/-! ### The merge algorithm of `main.rs` ("merge-keep-first")

For every key of the secondary mapping: insert the secondary value when
the key is absent from the primary; when the entry (either pre-existing or
the freshly inserted clone) and the secondary value are both mappings,
recurse.  Only mapping pairs recurse; in every other shape the primary
value is left as it is. -/

mutual

/-- `merge(val1, val2)` of `main.rs`. -/
def merge : Yaml → Yaml → Yaml
  | .map m1, .map m2 => .map (mergeList m1 m2)
  | v1, _ => v1
termination_by _t1 t2 => sizeOf t2
decreasing_by all_goals (simp_wf; try omega)

/-- The `for (k, v2) in map2` loop of `merge`. -/
def mergeList (m1 : List (String × Yaml)) :
    List (String × Yaml) → List (String × Yaml)
  | [] => m1
  | (k, v2) :: rest => mergeList (mergeStep m1 k v2) rest
termination_by l => sizeOf l
decreasing_by all_goals (simp_wf; try omega)

/-- One loop iteration: `map1.entry(k).or_insert(v2.clone())`, then a
recursive merge when the entry (pre-existing, or the freshly inserted
clone of `v2`) and `v2` are both mappings. -/
def mergeStep (m1 : List (String × Yaml)) (k : String) :
    Yaml → List (String × Yaml)
  | .map vm =>
    match getv m1 k with
    | none => m1 ++ [(k, merge (.map vm) (.map vm))]
    | some e =>
      match e with
      | .map em => insv m1 k (merge (.map em) (.map vm))
      | _ => m1
  | v2 =>
    match getv m1 k with
    | none => m1 ++ [(k, v2)]
    | some _ => m1
termination_by v2 => sizeOf v2 + 1
decreasing_by all_goals (simp_wf; try omega)

end

/-- Whether a node is a mapping. -/
def isMapping : Yaml → Bool
  | .map _ => true
  | _ => false

/-- Whether a node is a scalar leaf (null, boolean, string or number). -/
def isScalar : Yaml → Bool
  | .null => true
  | .bool _ => true
  | .str _ => true
  | .int _ => true
  | .seq _ => false
  | .map _ => false

/-! #### Well-formedness extraction lemmas -/

theorem WF_map_nodup (m : List (String × Yaml)) (h : WF (.map m) = true) :
    (keysOf m).Nodup := by
  simp [WF] at h
  exact h.1

theorem WFPairs_mem (m : List (String × Yaml)) (p : String × Yaml)
    (h : WFPairs m = true) (hp : p ∈ m) : WF p.2 = true := by
  induction m with
  | nil => simp at hp
  | cons q rest ih =>
    obtain ⟨k0, v0⟩ := q
    simp only [WFPairs, Bool.and_eq_true] at h
    rcases List.mem_cons.mp hp with hcase | hcase
    · subst hcase
      exact h.1
    · exact ih h.2 hcase

theorem getv_mem (m : List (String × Yaml)) (k : String) (v : Yaml)
    (h : getv m k = some v) : (k, v) ∈ m := by
  induction m with
  | nil => simp [getv] at h
  | cons p rest ih =>
    obtain ⟨k0, v0⟩ := p
    by_cases h0 : k0 = k
    · simp [getv, h0] at h
      simp [h0, h]
    · simp [getv, h0] at h
      simp [ih h]

theorem WF_getv (m : List (String × Yaml)) (k : String) (v : Yaml)
    (hwf : WF (.map m) = true) (h : getv m k = some v) : WF v = true := by
  have hp : WFPairs m = true := by
    simp [WF] at hwf
    exact hwf.2
  exact WFPairs_mem m (k, v) hp (getv_mem m k v h)

theorem getv_of_mem_nodup (m : List (String × Yaml)) (k : String) (v : Yaml)
    (hnd : (keysOf m).Nodup) (hm : (k, v) ∈ m) : getv m k = some v := by
  induction m with
  | nil => simp at hm
  | cons p rest ih =>
    obtain ⟨k0, v0⟩ := p
    have hnd2 : (k0 :: keysOf rest).Nodup := by simpa [keysOf] using hnd
    obtain ⟨hnotin, hndr⟩ := List.nodup_cons.mp hnd2
    rcases List.mem_cons.mp hm with hcase | hcase
    · injection hcase with h1 h2
      subst h1
      subst h2
      simp [getv]
    · have hk0 : ¬k0 = k := by
        intro h0
        apply hnotin
        subst h0
        exact List.mem_map.mpr ⟨(k0, v), hcase, rfl⟩
      simp [getv, hk0, ih hndr hcase]

/-! #### Merge lemmas -/

theorem getv_mergeStep_ne (m1 : List (String × Yaml)) (k k' : String)
    (v2 : Yaml) (h : k' ≠ k) : getv (mergeStep m1 k v2) k' = getv m1 k' := by
  have h' : ¬k = k' := fun hh => h hh.symm
  cases v2 with
  | map vm =>
    simp only [mergeStep]
    cases hg : getv m1 k with
    | none => simp [getv_append, getv, h']
    | some e => cases e <;> simp [getv_insv_ne _ _ _ _ h]
  | null =>
    simp only [mergeStep]
    cases hg : getv m1 k with
    | none => simp [getv_append, getv, h']
    | some e => rfl
  | bool b =>
    simp only [mergeStep]
    cases hg : getv m1 k with
    | none => simp [getv_append, getv, h']
    | some e => rfl
  | str s =>
    simp only [mergeStep]
    cases hg : getv m1 k with
    | none => simp [getv_append, getv, h']
    | some e => rfl
  | int i =>
    simp only [mergeStep]
    cases hg : getv m1 k with
    | none => simp [getv_append, getv, h']
    | some e => rfl
  | seq l2 =>
    simp only [mergeStep]
    cases hg : getv m1 k with
    | none => simp [getv_append, getv, h']
    | some e => rfl

/-- One merge step leaves the value bound at `k` unchanged when the
secondary value at `k` self-merges to itself (which holds for every
well-formed value). -/
theorem mergeStep_self (m : List (String × Yaml)) (k : String) (v2 : Yaml)
    (hget : getv m k = some v2) (hmerge : merge v2 v2 = v2) :
    mergeStep m k v2 = m := by
  cases v2 with
  | map vm =>
    simp only [mergeStep, hget]
    rw [hmerge]
    exact insv_of_getv_eq m k (.map vm) hget
  | null => simp only [mergeStep, hget]
  | bool b => simp only [mergeStep, hget]
  | str s => simp only [mergeStep, hget]
  | int i => simp only [mergeStep, hget]
  | seq l2 => simp only [mergeStep, hget]

theorem getv_mergeList_not_mem (m1 l : List (String × Yaml)) (k : String)
    (h : ∀ v, getv l k ≠ some v) : getv (mergeList m1 l) k = getv m1 k := by
  induction l generalizing m1 with
  | nil => simp only [mergeList]
  | cons p rest ih =>
    obtain ⟨k2, v2⟩ := p
    simp only [mergeList]
    by_cases hk : k2 = k
    · exact absurd (by simp [getv, hk]) (h v2)
    · rw [ih _ (fun v hv => h v (by simp [getv, hk, hv]))]
      exact getv_mergeStep_ne m1 k2 k v2 (fun hh => hk hh.symm)

/-- `merge(x.clone(), x) = x` on well-formed values: self-merge is the
identity. -/
theorem merge_self_bounded :
    ∀ n, ∀ v : Yaml, sizeOf v < n → WF v = true → merge v v = v := by
  intro n
  induction n with
  | zero => intro v hv; omega
  | succ n ih =>
    intro v hv hwf
    cases v with
    | map m =>
      simp only [merge]
      have hnd := WF_map_nodup m hwf
      have hpairs : WFPairs m = true := by
        simp [WF] at hwf
        exact hwf.2
      suffices hsuff : ∀ l, (∀ p ∈ l, p ∈ m) → mergeList m l = m by
        rw [hsuff m (fun p hp => hp)]
      intro l
      induction l with
      | nil => intro _; simp only [mergeList]
      | cons p rest ihl =>
        intro hsub
        obtain ⟨k, v2⟩ := p
        have hmem : (k, v2) ∈ m := hsub (k, v2) (by simp)
        have hget : getv m k = some v2 := getv_of_mem_nodup m k v2 hnd hmem
        have hsize : sizeOf v2 < n := by
          have h1 : sizeOf (k, v2) < sizeOf m := List.sizeOf_lt_of_mem hmem
          have h2 : sizeOf (Yaml.map m) = 1 + sizeOf m := by simp
          have h3 : sizeOf (k, v2) = 1 + sizeOf k + sizeOf v2 := by simp
          omega
        have hwf2 : WF v2 = true := WFPairs_mem m (k, v2) hpairs hmem
        have hmerge : merge v2 v2 = v2 := ih v2 hsize hwf2
        simp only [mergeList]
        rw [mergeStep_self m k v2 hget hmerge]
        exact ihl (fun p hp => hsub p (by simp [hp]))
    | null => simp only [merge]
    | bool b => simp only [merge]
    | str s => simp only [merge]
    | int i => simp only [merge]
    | seq l => simp only [merge]

theorem merge_self (v : Yaml) (hwf : WF v = true) : merge v v = v :=
  merge_self_bounded (sizeOf v + 1) v (by omega) hwf

/-- Scalar leaves of the primary survive a merge step chain: the inner
list lemma, parameterized by the recursion hypothesis on secondary
subtrees. -/
theorem mergeList_scalar_aux (l : List (String × Yaml))
    (hrec : ∀ e v2, (∃ k, (k, v2) ∈ l) → ∀ p w, getPath e p = some w →
      isScalar w = true → getPath (merge e v2) p = some w) :
    ∀ m1 k e rest w, getv m1 k = some e → getPath e rest = some w →
      isScalar w = true →
      ∃ e', getv (mergeList m1 l) k = some e' ∧ getPath e' rest = some w := by
  induction l with
  | nil =>
    intro m1 k e rest w he hp _
    exact ⟨e, by simp only [mergeList]; exact he, hp⟩
  | cons q l' ih =>
    intro m1 k e rest w he hp hs
    obtain ⟨k2, v2⟩ := q
    have hrec' : ∀ e v2, (∃ k, (k, v2) ∈ l') → ∀ p w, getPath e p = some w →
        isScalar w = true → getPath (merge e v2) p = some w := by
      intro e0 v0 hex p0 w0 hp0 hs0
      obtain ⟨k0, hk0⟩ := hex
      exact hrec e0 v0 ⟨k0, by simp [hk0]⟩ p0 w0 hp0 hs0
    simp only [mergeList]
    by_cases hk : k2 = k
    · subst hk
      cases v2 with
      | map vm =>
        simp only [mergeStep, he]
        cases e with
        | map em =>
          have hnew : getPath (merge (.map em) (.map vm)) rest = some w :=
            hrec (.map em) (.map vm) ⟨k2, by simp⟩ rest w hp hs
          exact ih hrec' _ k2 _ rest w (getv_insv_self m1 k2 _) hnew hs
        | null => exact ih hrec' _ k2 _ rest w he hp hs
        | bool b => exact ih hrec' _ k2 _ rest w he hp hs
        | str s => exact ih hrec' _ k2 _ rest w he hp hs
        | int i => exact ih hrec' _ k2 _ rest w he hp hs
        | seq l2 => exact ih hrec' _ k2 _ rest w he hp hs
      | null =>
        simp only [mergeStep, he]
        exact ih hrec' _ k2 _ rest w he hp hs
      | bool b =>
        simp only [mergeStep, he]
        exact ih hrec' _ k2 _ rest w he hp hs
      | str s =>
        simp only [mergeStep, he]
        exact ih hrec' _ k2 _ rest w he hp hs
      | int i =>
        simp only [mergeStep, he]
        exact ih hrec' _ k2 _ rest w he hp hs
      | seq l2 =>
        simp only [mergeStep, he]
        exact ih hrec' _ k2 _ rest w he hp hs
    · have he' : getv (mergeStep m1 k2 v2) k = some e := by
        rw [getv_mergeStep_ne m1 k2 k v2 (fun hh => hk hh.symm)]
        exact he
      exact ih hrec' _ k e rest w he' hp hs

/-- Every scalar leaf of the primary is unchanged in the merge result. -/
theorem merge_preserves_scalar_bounded :
    ∀ n, ∀ t1 t2 : Yaml, sizeOf t2 < n → ∀ p v, getPath t1 p = some v →
      isScalar v = true → getPath (merge t1 t2) p = some v := by
  intro n
  induction n with
  | zero => intro t1 t2 h2; omega
  | succ n ih =>
    intro t1 t2 h2 p v hp hs
    cases t1 with
    | map m1 =>
      cases t2 with
      | map m2 =>
        simp only [merge]
        cases p with
        | nil =>
          simp [getPath] at hp
          rw [← hp] at hs
          simp [isScalar] at hs
        | cons k rest =>
          simp only [getPath] at hp
          cases he : getv m1 k with
          | none => rw [he] at hp; cases hp
          | some e =>
            rw [he] at hp
            have hrec : ∀ e0 v2, (∃ k0, (k0, v2) ∈ m2) → ∀ p0 w,
                getPath e0 p0 = some w → isScalar w = true →
                getPath (merge e0 v2) p0 = some w := by
              intro e0 v2 hex p0 w hp0 hs0
              obtain ⟨k0, hk0⟩ := hex
              have hsize : sizeOf v2 < n := by
                have h1 : sizeOf (k0, v2) < sizeOf m2 :=
                  List.sizeOf_lt_of_mem hk0
                have h3 : sizeOf (k0, v2) = 1 + sizeOf k0 + sizeOf v2 := by
                  simp
                have h4 : sizeOf (Yaml.map m2) = 1 + sizeOf m2 := by simp
                omega
              exact ih e0 v2 hsize p0 w hp0 hs0
            obtain ⟨e', hge, hpe⟩ :=
              mergeList_scalar_aux m2 hrec m1 k e rest v he hp hs
            simp only [getPath, hge, hpe]
      | null => simp only [merge]; exact hp
      | bool b => simp only [merge]; exact hp
      | str s => simp only [merge]; exact hp
      | int i => simp only [merge]; exact hp
      | seq l => simp only [merge]; exact hp
    | null => cases t2 <;> simp only [merge] <;> exact hp
    | bool b => cases t2 <;> simp only [merge] <;> exact hp
    | str s => cases t2 <;> simp only [merge] <;> exact hp
    | int i => cases t2 <;> simp only [merge] <;> exact hp
    | seq l => cases t2 <;> simp only [merge] <;> exact hp

/-- Keys absent from the primary and present in the (well-formed)
secondary end up bound to the secondary's value. -/
theorem mergeList_absent_secondary (l : List (String × Yaml)) :
    ∀ m1 k v2, getv m1 k = none → getv l k = some v2 →
      (keysOf l).Nodup → merge v2 v2 = v2 →
      getv (mergeList m1 l) k = some v2 := by
  induction l with
  | nil => intro m1 k v2 _ h2; simp [getv] at h2
  | cons q rest ih =>
    intro m1 k v2 h1 h2 hnd hself
    obtain ⟨k2, u⟩ := q
    simp only [mergeList]
    have hnd2 : (k2 :: keysOf rest).Nodup := by simpa [keysOf] using hnd
    obtain ⟨hnotin, hndr⟩ := List.nodup_cons.mp hnd2
    by_cases hk : k2 = k
    · subst hk
      have hu : u = v2 := by simpa [getv] using h2
      rw [hu]
      have hstep : getv (mergeStep m1 k2 v2) k2 = some v2 := by
        cases v2 with
        | map vm =>
          simp only [mergeStep, h1]
          simp [getv_append, h1, getv, hself]
        | null =>
          simp only [mergeStep, h1]
          simp [getv_append, h1, getv]
        | bool b =>
          simp only [mergeStep, h1]
          simp [getv_append, h1, getv]
        | str s =>
          simp only [mergeStep, h1]
          simp [getv_append, h1, getv]
        | int i =>
          simp only [mergeStep, h1]
          simp [getv_append, h1, getv]
        | seq l2 =>
          simp only [mergeStep, h1]
          simp [getv_append, h1, getv]
      have hnotin' : ∀ v, getv rest k2 ≠ some v := by
        intro v hv
        exact hnotin (List.mem_map.mpr ⟨(k2, v), getv_mem rest k2 v hv, rfl⟩)
      rw [getv_mergeList_not_mem _ rest k2 hnotin']
      exact hstep
    · have h2' : getv rest k = some v2 := by simpa [getv, hk] using h2
      have h1' : getv (mergeStep m1 k2 u) k = none := by
        rw [getv_mergeStep_ne m1 k2 k u (fun hh => hk hh.symm)]
        exact h1
      exact ih _ k v2 h1' h2' hndr hself

/-- When a key is present in both and either value is not a mapping, the
primary's value is kept. -/
theorem mergeList_keep_first (l : List (String × Yaml)) :
    ∀ m1 k v1 v2, getv m1 k = some v1 → getv l k = some v2 →
      (keysOf l).Nodup → (isMapping v1 = false ∨ isMapping v2 = false) →
      getv (mergeList m1 l) k = some v1 := by
  induction l with
  | nil => intro m1 k v1 v2 _ h2; simp [getv] at h2
  | cons q rest ih =>
    intro m1 k v1 v2 h1 h2 hnd hnm
    obtain ⟨k2, u⟩ := q
    simp only [mergeList]
    have hnd2 : (k2 :: keysOf rest).Nodup := by simpa [keysOf] using hnd
    obtain ⟨hnotin, hndr⟩ := List.nodup_cons.mp hnd2
    by_cases hk : k2 = k
    · subst hk
      have hu : u = v2 := by simpa [getv] using h2
      rw [hu]
      have hstep : mergeStep m1 k2 v2 = m1 := by
        cases v2 with
        | map vm =>
          cases v1 with
          | map mm => simp [isMapping] at hnm
          | null => simp only [mergeStep, h1]
          | bool b => simp only [mergeStep, h1]
          | str s => simp only [mergeStep, h1]
          | int i => simp only [mergeStep, h1]
          | seq l2 => simp only [mergeStep, h1]
        | null => simp only [mergeStep, h1]
        | bool b => simp only [mergeStep, h1]
        | str s => simp only [mergeStep, h1]
        | int i => simp only [mergeStep, h1]
        | seq l2 => simp only [mergeStep, h1]
      have hnotin' : ∀ v, getv rest k2 ≠ some v := by
        intro v hv
        exact hnotin (List.mem_map.mpr ⟨(k2, v), getv_mem rest k2 v hv, rfl⟩)
      rw [hstep, getv_mergeList_not_mem _ rest k2 hnotin']
      exact h1
    · have h2' : getv rest k = some v2 := by simpa [getv, hk] using h2
      have h1' : getv (mergeStep m1 k2 u) k = some v1 := by
        rw [getv_mergeStep_ne m1 k2 k u (fun hh => hk hh.symm)]
        exact h1
      exact ih _ k v1 v2 h1' h2' hndr hnm

/-! ### Claim C1 (confirmed) -/

/-- C1: merge precedence of `merge(primary, secondary)` for well-formed
(duplicate-key-free, as every `serde_yaml` mapping is) secondary trees:
every scalar leaf of the primary is unchanged at its path in the result;
every mapping key present only in the secondary appears in the result
with the secondary's value unchanged; and a key present in both whose
values are not both mappings keeps the primary's value unconditionally. -/
theorem merge_precedence (t1 t2 : Yaml) (hwf2 : WF t2 = true) :
    (∀ p v, getPath t1 p = some v → isScalar v = true →
      getPath (merge t1 t2) p = some v) ∧
    (∀ k v2, isMapping t1 = true → getY t1 k = none → getY t2 k = some v2 →
      getY (merge t1 t2) k = some v2) ∧
    (∀ k v1 v2, getY t1 k = some v1 → getY t2 k = some v2 →
      (isMapping v1 = false ∨ isMapping v2 = false) →
      getY (merge t1 t2) k = some v1) := by
  refine ⟨?_, ?_, ?_⟩
  · intro p v hp hs
    exact merge_preserves_scalar_bounded (sizeOf t2 + 1) t1 t2 (by omega) p v
      hp hs
  · intro k v2 hmap h1 h2
    cases t1 with
    | map m1 =>
      cases t2 with
      | map m2 =>
        simp only [getY] at h1 h2 ⊢
        simp only [merge]
        have hself : merge v2 v2 = v2 :=
          merge_self v2 (WF_getv m2 k v2 hwf2 h2)
        exact mergeList_absent_secondary m2 m1 k v2 h1 h2
          (WF_map_nodup m2 hwf2) hself
      | null => simp [getY] at h2
      | bool b => simp [getY] at h2
      | str s => simp [getY] at h2
      | int i => simp [getY] at h2
      | seq l => simp [getY] at h2
    | null => simp [isMapping] at hmap
    | bool b => simp [isMapping] at hmap
    | str s => simp [isMapping] at hmap
    | int i => simp [isMapping] at hmap
    | seq l => simp [isMapping] at hmap
  · intro k v1 v2 h1 h2 hnm
    cases t1 with
    | map m1 =>
      cases t2 with
      | map m2 =>
        simp only [getY] at h1 h2 ⊢
        simp only [merge]
        exact mergeList_keep_first m2 m1 k v1 v2 h1 h2
          (WF_map_nodup m2 hwf2) hnm
      | null => simp [getY] at h2
      | bool b => simp [getY] at h2
      | str s => simp [getY] at h2
      | int i => simp [getY] at h2
      | seq l => simp [getY] at h2
    | null => simp [getY] at h1
    | bool b => simp [getY] at h1
    | str s => simp [getY] at h1
    | int i => simp [getY] at h1
    | seq l => simp [getY] at h1

/-- The primary tree of the C1 witness: `image.tag` and `storage.size`
are operator-supplied scalars. -/
def primaryC1 : Yaml :=
  .map [("image", .map [("tag", .str "v23.2.24")]),
        ("storage", .map [("size", .str "10Gi")])]

/-- The secondary (reference defaults) tree of the C1 witness. -/
def secondaryC1 : Yaml :=
  .map [("image", .map [("tag", .str "v25.2.9"),
                        ("repository", .str "docker.redpanda.com")]),
        ("storage", .str "overridden"),
        ("console", .map [("enabled", .bool true)])]

/-- Witness for C1: the primary scalar `image.tag` survives, the
secondary-only key `console` is inserted unchanged, and the `storage` key
present in both (secondary value not a mapping) keeps the primary value. -/
theorem merge_precedence_witness :
    getPath (merge primaryC1 secondaryC1) ["image", "tag"] =
        some (.str "v23.2.24") ∧
      getY (merge primaryC1 secondaryC1) "console" =
        some (.map [("enabled", .bool true)]) ∧
      getY (merge primaryC1 secondaryC1) "storage" =
        some (.map [("size", .str "10Gi")]) := by
  have h := merge_precedence primaryC1 secondaryC1 (by decide)
  refine ⟨?_, ?_, ?_⟩
  · exact h.1 ["image", "tag"] (.str "v23.2.24") (by decide) (by decide)
  · exact h.2.1 "console" (.map [("enabled", .bool true)]) (by decide)
      (by decide) (by decide)
  · exact h.2.2 "storage" (.map [("size", .str "10Gi")]) (.str "overridden")
      (by decide) (by decide) (by decide)

/-! ### `clean_empty_cloud_storage` of `main.rs`

When `storage.tiered.config.cloud_storage_enabled` is not `true`, every
`cloud_storage_*` key of the config mapping is removed, and
`storage.tiered.credentialsSecretRef` is removed as well. -/

/-- The cloud storage keys removed when tiered storage is disabled
(`keys_to_remove` in `clean_empty_cloud_storage`). -/
def cloudStorageKeys : List String :=
  ["cloud_storage_access_key", "cloud_storage_api_endpoint",
   "cloud_storage_azure_container", "cloud_storage_azure_shared_key",
   "cloud_storage_azure_storage_account", "cloud_storage_bucket",
   "cloud_storage_cache_size", "cloud_storage_credentials_source",
   "cloud_storage_enable_remote_read", "cloud_storage_enable_remote_write",
   "cloud_storage_region", "cloud_storage_secret_key"]

/-- Remove each key of `keys` in turn. -/
def remAll (m : List (String × Yaml)) (keys : List String) :
    List (String × Yaml) :=
  keys.foldl remv m

/-- `config.get("cloud_storage_enabled").and_then(as_bool).unwrap_or(false)`. -/
def cloudStorageEnabled (config : List (String × Yaml)) : Bool :=
  ((getv config "cloud_storage_enabled").bind asBool).getD false

/-- The body applied to `storage.tiered` by `clean_empty_cloud_storage`:
strip the `cloud_storage_*` keys from a disabled config, then re-read the
config and drop `credentialsSecretRef` when still disabled. -/
def tieredCleanFn (tm : List (String × Yaml)) : List (String × Yaml) :=
  let tm1 := modMap tm "config" (fun cm =>
    if cloudStorageEnabled cm then cm else remAll cm cloudStorageKeys)
  match getv tm1 "config" with
  | some (.map cm) =>
    if cloudStorageEnabled cm then tm1
    else remv tm1 "credentialsSecretRef"
  | _ => tm1

/-- `clean_empty_cloud_storage` of `main.rs`. -/
def clean_empty_cloud_storage (t : Yaml) : Yaml :=
  match t with
  | .map m =>
    .map (modMap m "storage" (fun sm => modMap sm "tiered" tieredCleanFn))
  | other => other

/-! #### Lemmas about `remAll` and `modMap` -/

theorem getv_remAll_preserve_none (keys : List String)
    (m : List (String × Yaml)) (k : String) (h : getv m k = none) :
    getv (remAll m keys) k = none := by
  induction keys generalizing m with
  | nil => exact h
  | cons k0 ks ih =>
    simp only [remAll, List.foldl_cons] at ih ⊢
    by_cases h0 : k = k0
    · subst h0
      exact ih _ (getv_remv_self m k)
    · exact ih _ (by rw [getv_remv_ne m k0 k h0]; exact h)

theorem getv_remAll_mem (keys : List String) (m : List (String × Yaml))
    (k : String) (h : k ∈ keys) : getv (remAll m keys) k = none := by
  induction keys generalizing m with
  | nil => simp at h
  | cons k0 ks ih =>
    simp only [remAll, List.foldl_cons] at ih ⊢
    rcases List.mem_cons.mp h with hcase | hcase
    · subst hcase
      exact getv_remAll_preserve_none ks _ k (getv_remv_self m k)
    · exact ih _ hcase

theorem getv_remAll_not_mem (keys : List String) (m : List (String × Yaml))
    (k : String) (h : ¬k ∈ keys) : getv (remAll m keys) k = getv m k := by
  induction keys generalizing m with
  | nil => rfl
  | cons k0 ks ih =>
    simp only [remAll, List.foldl_cons] at ih ⊢
    have hk0 : ¬k = k0 := fun hh => h (by simp [hh])
    rw [ih _ (fun hh => h (by simp [hh])), getv_remv_ne m k0 k hk0]

theorem getv_modMap_map (m : List (String × Yaml)) (k : String)
    (f : List (String × Yaml) → List (String × Yaml))
    (x : List (String × Yaml)) (h : getv m k = some (.map x)) :
    getv (modMap m k f) k = some (.map (f x)) := by
  simp [modMap, getv_modv_self, h]

theorem getv_modMap_ne (m : List (String × Yaml)) (k k' : String)
    (f : List (String × Yaml) → List (String × Yaml)) (h : k' ≠ k) :
    getv (modMap m k f) k' = getv m k' :=
  getv_modv_ne m k k' _ h

/-! ### Claim C3 (confirmed) -/

/-- C3: for every tree whose `storage.tiered.config` mapping carries
`cloud_storage_enabled: false`, `clean_empty_cloud_storage` removes the
whole `cloud_storage_*` key set (bucket, region, access/secret keys,
endpoint, cache size, credentials source, remote read/write flags, Azure
fields) from that config mapping; in particular, on the tree of the
scenario, `cloud_storage_bucket` and `cloud_storage_region` are absent
afterwards. -/
theorem clean_empty_cloud_storage_removes (t : Yaml)
    (cm : List (String × Yaml))
    (hpath : getPath t ["storage", "tiered", "config"] = some (.map cm))
    (hdis : getv cm "cloud_storage_enabled" = some (.bool false)) :
    ∀ key ∈ cloudStorageKeys,
      getPath (clean_empty_cloud_storage t)
        ["storage", "tiered", "config", key] = none := by
  intro key hkey
  cases t with
  | map m =>
    cases hs : getv m "storage" with
    | none => simp [getPath, hs] at hpath
    | some sv =>
      cases sv with
      | map sm =>
        cases ht : getv sm "tiered" with
        | none => simp [getPath, hs, ht] at hpath
        | some tv =>
          cases tv with
          | map tm =>
            cases hc : getv tm "config" with
            | none => simp [getPath, hs, ht, hc] at hpath
            | some cv =>
              have hcv : cv = .map cm := by
                simpa [getPath, hs, ht, hc] using hpath
              subst hcv
              have hen : cloudStorageEnabled cm = false := by
                simp [cloudStorageEnabled, hdis, asBool]
              have henKey : ¬("cloud_storage_enabled" ∈ cloudStorageKeys) := by
                decide
              have hen' :
                  cloudStorageEnabled (remAll cm cloudStorageKeys) = false := by
                simp [cloudStorageEnabled,
                  getv_remAll_not_mem cloudStorageKeys cm _ henKey, hdis,
                  asBool]
              have h_tm1 : getv (modMap tm "config"
                  (fun x => if cloudStorageEnabled x then x
                            else remAll x cloudStorageKeys)) "config" =
                  some (.map (remAll cm cloudStorageKeys)) := by
                rw [getv_modMap_map tm "config" _ cm hc, hen]
                simp
              have htc : tieredCleanFn tm =
                  remv (modMap tm "config" (fun x =>
                    if cloudStorageEnabled x then x
                    else remAll x cloudStorageKeys)) "credentialsSecretRef" := by
                simp only [tieredCleanFn]
                rw [h_tm1]
                simp [hen']
              simp only [clean_empty_cloud_storage, getPath,
                getv_modMap_map m "storage" _ sm hs,
                getv_modMap_map sm "tiered" _ tm ht, htc]
              rw [getv_remv_ne _ _ _ (by decide), h_tm1]
              simp [getPath, getv_remAll_mem cloudStorageKeys cm key hkey]
          | null => simp [getPath, hs, ht] at hpath
          | bool b => simp [getPath, hs, ht] at hpath
          | str s => simp [getPath, hs, ht] at hpath
          | int i => simp [getPath, hs, ht] at hpath
          | seq l => simp [getPath, hs, ht] at hpath
      | null => simp [getPath, hs] at hpath
      | bool b => simp [getPath, hs] at hpath
      | str s => simp [getPath, hs] at hpath
      | int i => simp [getPath, hs] at hpath
      | seq l => simp [getPath, hs] at hpath
  | null => simp [getPath] at hpath
  | bool b => simp [getPath] at hpath
  | str s => simp [getPath] at hpath
  | int i => simp [getPath] at hpath
  | seq l => simp [getPath] at hpath

/-- The scenario input of C3. -/
def scenC3 : Yaml :=
  .map [("storage", .map [("tiered", .map [("config", .map
    [("cloud_storage_enabled", .bool false),
     ("cloud_storage_bucket", .str ""),
     ("cloud_storage_region", .str "")])])])]

/-- Witness for C3: on the scenario tree, `cloud_storage_bucket` and
`cloud_storage_region` are absent after the cleanup. -/
theorem clean_empty_cloud_storage_removes_witness :
    getPath (clean_empty_cloud_storage scenC3)
        ["storage", "tiered", "config", "cloud_storage_bucket"] = none ∧
      getPath (clean_empty_cloud_storage scenC3)
        ["storage", "tiered", "config", "cloud_storage_region"] = none := by
  have h := clean_empty_cloud_storage_removes scenC3
    [("cloud_storage_enabled", .bool false),
     ("cloud_storage_bucket", .str ""),
     ("cloud_storage_region", .str "")] (by decide) (by decide)
  exact ⟨h "cloud_storage_bucket" (by decide),
    h "cloud_storage_region" (by decide)⟩

/-! ### `pin_versions` of `main.rs`

The function reads the existing `image.tag` (non-empty string), else pins
the CLI-supplied Redpanda version, else fails; when the console is
enabled it does the same for `console.image.tag`, auto-fetching the
version when no pin is supplied.  The network fetch of `appVersion` is an
excluded I/O collaborator, so its outcome is passed in as the `fetched`
argument; the Rust function mutates `val` and returns `Result<(), String>`,
modelled as the pair of the updated tree and the optional error. -/

/-- `.filter(|s| !s.is_empty())` on an optional string. -/
def nonEmptyStr : Option String → Option String
  | some s => if s = "" then none else some s
  | none => none

/-- `val.get("image").and_then(get "tag").and_then(as_str)`, non-empty. -/
def imageTag (val : Yaml) : Option String :=
  nonEmptyStr (((getY val "image").bind (fun i => getY i "tag")).bind asStr)

/-- `val.get("console").and_then(get "enabled").and_then(as_bool)`,
defaulting to disabled. -/
def consoleEnabledY (val : Yaml) : Bool :=
  (((getY val "console").bind (fun c => getY c "enabled")).bind asBool).getD
    false

/-- The existing non-empty `console.image.tag` string, if any. -/
def consoleTag (val : Yaml) : Option String :=
  nonEmptyStr ((((getY val "console").bind (fun c => getY c "image")).bind
    (fun i => getY i "tag")).bind asStr)

/-- Insert `image.tag` at the root: `entry("image").or_insert(mapping)`,
then insert the tag when the entry is a mapping. -/
def setImageTag (val : Yaml) (version : String) : Yaml :=
  match val with
  | .map root =>
    .map (modMap (orInsv root "image" (.map [])) "image"
      (fun im => insv im "tag" (.str version)))
  | other => other

/-- Insert `console.image.tag` through the nested `entry`/`or_insert`
chain. -/
def setConsoleTag (val : Yaml) (version : String) : Yaml :=
  match val with
  | .map root =>
    .map (modMap (orInsv root "console" (.map [])) "console" (fun cm =>
      modMap (orInsv cm "image" (.map [])) "image"
        (fun im => insv im "tag" (.str version))))
  | other => other

/-- The error text of `validate_version_format` (quotes elided). -/
def errFmt (s : String) : String :=
  "Invalid version format " ++ s ++ ". Expected: vX.Y.Z (e.g., v23.2.24)"

/-- The console half of `pin_versions`, entered after the Redpanda tag
was settled. -/
def pinConsole (val : Yaml) (cv : Option String)
    (fetched : Except String String) : Yaml × Option String :=
  if consoleEnabledY val then
    match consoleTag val with
    | some s => if validFormat s then (val, none) else (val, some (errFmt s))
    | none =>
      match cv with
      | some v =>
        if validFormat v then (setConsoleTag val v, none)
        else (val, some (errFmt v))
      | none =>
        match fetched with
        | .ok v => (setConsoleTag val v, none)
        | .error _ => (val, none)
  else (val, none)

/-- `pin_versions` of `main.rs`. -/
def pin_versions (val : Yaml) (redpanda_version_arg cv : Option String)
    (fetched : Except String String) : Yaml × Option String :=
  match imageTag val with
  | some s =>
    if validFormat s then pinConsole val cv fetched
    else (val, some (errFmt s))
  | none =>
    match redpanda_version_arg with
    | some s =>
      if validFormat s then pinConsole (setImageTag val s) cv fetched
      else (val, some (errFmt s))
    | none =>
      (val, some ("image.tag is missing in input values.yaml. " ++
        "Please provide --redpanda-version flag (e.g., --redpanda-version v23.2.24)"))

/-! #### `setImageTag` touches only the root `image` entry -/

theorem getY_setImageTag_ne (val : Yaml) (r : String) (k : String)
    (h : k ≠ "image") : getY (setImageTag val r) k = getY val k := by
  cases val with
  | map root =>
    simp only [setImageTag, getY]
    rw [getv_modMap_ne _ _ _ _ h, getv_orInsv_ne _ _ _ _ h]
  | null => rfl
  | bool b => rfl
  | str s => rfl
  | int i => rfl
  | seq l => rfl

theorem consoleEnabledY_setImageTag (val : Yaml) (r : String) :
    consoleEnabledY (setImageTag val r) = consoleEnabledY val := by
  simp [consoleEnabledY, getY_setImageTag_ne val r "console" (by decide)]

theorem consoleTag_setImageTag (val : Yaml) (r : String) :
    consoleTag (setImageTag val r) = consoleTag val := by
  simp [consoleTag, getY_setImageTag_ne val r "console" (by decide)]

/-! ### Claim C5 (corrected) -/

/-- The C5 counterexample input: console enabled with a malformed
existing `console.image.tag`, and no `image.tag`. -/
def valC5 : Yaml :=
  .map [("console", .map [("enabled", .bool true),
                          ("image", .map [("tag", .str "latest")])])]

/-- C5, counterexample: with a valid Redpanda CLI pin and the malformed
`console.image.tag` above, `pin_versions` returns an error but the tree
is not left unchanged — the Redpanda pin `image.tag = "v1.2.3"` has
already been written when the console version is rejected. -/
theorem pin_versions_counterexample :
    ((pin_versions valC5 (some "v1.2.3") none (.error "offline")).2).isSome =
        true ∧
      getPath (pin_versions valC5 (some "v1.2.3") none
          (.error "offline")).1 ["image", "tag"] = some (.str "v1.2.3") ∧
      getPath valC5 ["image", "tag"] = none ∧
      (pin_versions valC5 (some "v1.2.3") none (.error "offline")).1 ≠
        valC5 := by
  refine ⟨by decide, by decide, by decide, by decide⟩

/-- C5, amended: every malformed version string `pin_versions` encounters
is rejected with an error and is itself never written into the tree: a
malformed existing `image.tag` or malformed supplied Redpanda pin aborts
before any mutation, leaving the tree completely unchanged; a malformed
existing `console.image.tag` (console enabled) also produces an error and
leaves the console subtree unchanged — but it is reached only after the
Redpanda pin stage, whose `image.tag` insertion is not rolled back, so in
that case the tree as a whole is not necessarily unchanged; and a
malformed supplied console pin (console enabled, no existing
`console.image.tag`) is likewise rejected without being written — the
tree is returned exactly as the Redpanda stage left it, i.e. unchanged
when a valid `image.tag` already existed, and carrying only the valid
CLI Redpanda pin otherwise. -/
theorem pin_versions_error_spec :
    (∀ (val : Yaml) (rv cv : Option String) (f : Except String String)
        (s : String), imageTag val = some s → validFormat s = false →
        pin_versions val rv cv f = (val, some (errFmt s))) ∧
      (∀ (val : Yaml) (cv : Option String) (f : Except String String)
        (s : String), imageTag val = none → validFormat s = false →
        pin_versions val (some s) cv f = (val, some (errFmt s))) ∧
      (∀ (val : Yaml) (rv cv : Option String) (f : Except String String)
        (s : String), consoleEnabledY val = true → consoleTag val = some s →
        validFormat s = false →
        ((pin_versions val rv cv f).2).isSome = true ∧
          getY (pin_versions val rv cv f).1 "console" = getY val "console") ∧
      (∀ (val : Yaml) (rv : Option String) (f : Except String String)
        (v : String), consoleEnabledY val = true → consoleTag val = none →
        validFormat v = false →
        (∀ s0, imageTag val = some s0 → validFormat s0 = true →
          pin_versions val rv (some v) f = (val, some (errFmt v))) ∧
        (∀ r, imageTag val = none → rv = some r → validFormat r = true →
          pin_versions val rv (some v) f =
            (setImageTag val r, some (errFmt v)))) := by
  refine ⟨?_, ?_, ?_, ?_⟩
  · intro val rv cv f s hs hbad
    simp [pin_versions, hs, hbad]
  · intro val cv f s hs hbad
    simp [pin_versions, hs, hbad]
  · intro val rv cv f s hen htag hbad
    cases hs : imageTag val with
    | some s0 =>
      by_cases hv0 : validFormat s0 = true
      · simp only [pin_versions, hs, hv0, if_true]
        simp [pinConsole, hen, htag, hbad]
      · have hv0' : validFormat s0 = false := by
          cases hvv : validFormat s0
          · rfl
          · exact absurd hvv hv0
        simp [pin_versions, hs, hv0']
    | none =>
      cases rv with
      | some r =>
        by_cases hvr : validFormat r = true
        · simp only [pin_versions, hs, hvr, if_true]
          have hen' : consoleEnabledY (setImageTag val r) = true := by
            rw [consoleEnabledY_setImageTag]
            exact hen
          have htag' : consoleTag (setImageTag val r) = some s := by
            rw [consoleTag_setImageTag]
            exact htag
          simp [pinConsole, hen', htag', hbad,
            getY_setImageTag_ne val r "console" (by decide)]
        · have hvr' : validFormat r = false := by
            cases hvv : validFormat r
            · rfl
            · exact absurd hvv hvr
          simp [pin_versions, hs, hvr']
      | none =>
        simp [pin_versions, hs]
  · intro val rv f v hen hnone hbad
    constructor
    · intro s0 hs0 hval0
      simp only [pin_versions, hs0, hval0, if_true]
      simp [pinConsole, hen, hnone, hbad]
    · intro r hnone2 hrv hvalr
      subst hrv
      simp only [pin_versions, hnone2, hvalr, if_true]
      have hen' : consoleEnabledY (setImageTag val r) = true := by
        rw [consoleEnabledY_setImageTag]
        exact hen
      have hnone' : consoleTag (setImageTag val r) = none := by
        rw [consoleTag_setImageTag]
        exact hnone
      simp [pinConsole, hen', hnone', hbad]

/-- The C5 witness tree for the supplied-console-pin case: console
enabled, no tags anywhere. -/
def valC5w : Yaml := .map [("console", .map [("enabled", .bool true)])]

/-- Witness for the amended C5: a malformed Redpanda CLI pin on a tree
without `image.tag` is rejected with the tree unchanged, and a malformed
supplied console pin is rejected with only the valid Redpanda pin
written. -/
theorem pin_versions_error_spec_witness :
    pin_versions (.map []) (some "latest") none (.error "offline") =
        (.map [], some (errFmt "latest")) ∧
      pin_versions valC5w (some "v1.2.3") (some "latest")
          (.error "offline") =
        (setImageTag valC5w "v1.2.3", some (errFmt "latest")) :=
  ⟨pin_versions_error_spec.2.1 (.map []) none (.error "offline") "latest"
      rfl (by decide),
    (pin_versions_error_spec.2.2.2 valC5w (some "v1.2.3") (.error "offline")
        "latest" (by decide) (by decide) (by decide)).2 "v1.2.3"
      (by decide) rfl (by decide)⟩

/-! ### Additional mapping-operation lemmas for the restructuring passes -/

theorem insv_insv_same (m : List (String × Yaml)) (k : String) (v w : Yaml) :
    insv (insv m k v) k w = insv m k w := by
  induction m with
  | nil => simp [insv]
  | cons p rest ih =>
    obtain ⟨k0, v0⟩ := p
    by_cases h0 : k0 = k <;> simp [insv, h0, ih]

theorem remv_remv (m : List (String × Yaml)) (k : String) :
    remv (remv m k) k = remv m k :=
  remv_of_getv_none _ _ (getv_remv_self m k)

theorem modv_congr (m : List (String × Yaml)) (k : String)
    (f g : Yaml → Yaml) (h : ∀ v, f v = g v) : modv m k f = modv m k g := by
  induction m with
  | nil => simp [modv]
  | cons p rest ih =>
    obtain ⟨k0, v0⟩ := p
    by_cases h0 : k0 = k <;> simp [modv, h0, h, ih]

theorem modMap_congr (m : List (String × Yaml)) (k : String)
    (f g : List (String × Yaml) → List (String × Yaml))
    (h : ∀ x, f x = g x) : modMap m k f = modMap m k g := by
  apply modv_congr
  intro v
  cases v <;> simp [h]

theorem modMap_modMap (m : List (String × Yaml)) (k : String)
    (f g : List (String × Yaml) → List (String × Yaml)) :
    modMap (modMap m k g) k f = modMap m k (fun x => f (g x)) := by
  simp only [modMap, modv_modv_same]
  apply modv_congr
  intro v
  cases v <;> rfl

theorem modMap_of_getv_none (m : List (String × Yaml)) (k : String)
    (f : List (String × Yaml) → List (String × Yaml))
    (h : getv m k = none) : modMap m k f = m :=
  modv_of_getv_none m k _ h

theorem modMap_id_of_fix (m : List (String × Yaml)) (k : String)
    (f : List (String × Yaml) → List (String × Yaml))
    (h : ∀ x, getv m k = some (.map x) → f x = x) : modMap m k f = m := by
  apply modv_id_of_fix
  intro v hv
  cases v with
  | map x => simp [h x hv]
  | null => rfl
  | bool b => rfl
  | str s => rfl
  | int i => rfl
  | seq l => rfl

theorem modMap_modMap_idem_of (m : List (String × Yaml)) (k : String)
    (f : List (String × Yaml) → List (String × Yaml))
    (h : ∀ x, f (f x) = f x) : modMap (modMap m k f) k f = modMap m k f := by
  rw [modMap_modMap]
  exact modMap_congr m k _ f h

theorem remAll_of_absent (keys : List String) (m : List (String × Yaml))
    (h : ∀ k ∈ keys, getv m k = none) : remAll m keys = m := by
  induction keys with
  | nil => rfl
  | cons k0 ks ih =>
    simp only [remAll, List.foldl_cons] at ih ⊢
    rw [remv_of_getv_none m k0 (h k0 (by simp))]
    exact ih (fun k hk => h k (by simp [hk]))

theorem remAll_remAll (m : List (String × Yaml)) (keys : List String) :
    remAll (remAll m keys) keys = remAll m keys :=
  remAll_of_absent keys _ (fun k hk => getv_remAll_mem keys m k hk)

theorem isSome_getv_insv (m : List (String × Yaml)) (k k' : String) (v : Yaml)
    (h : (getv m k).isSome) : (getv (insv m k' v) k).isSome := by
  by_cases hk : k = k'
  · subst hk
    simp [getv_insv_self]
  · rw [getv_insv_ne m k' k v hk]
    exact h

theorem isSome_getv_orInsv (m : List (String × Yaml)) (k k' : String)
    (v : Yaml) (h : (getv m k).isSome) : (getv (orInsv m k' v) k).isSome := by
  by_cases hk : k = k'
  · subst hk
    simp [getv_orInsv_self]
  · rw [getv_orInsv_ne m k' k v hk]
    exact h

theorem isSome_getv_modv (m : List (String × Yaml)) (k k' : String)
    (f : Yaml → Yaml) (h : (getv m k).isSome) :
    (getv (modv m k' f) k).isSome := by
  by_cases hk : k = k'
  · subst hk
    rw [getv_modv_self]
    cases hg : getv m k
    · rw [hg] at h
      simp at h
    · simp
  · rw [getv_modv_ne m k' k f hk]
    exact h

theorem getv_eq_none_iff (m : List (String × Yaml)) (k : String) :
    getv m k = none ↔ ∀ p ∈ m, p.1 ≠ k := by
  induction m with
  | nil => simp [getv]
  | cons p rest ih =>
    obtain ⟨k0, v0⟩ := p
    by_cases h0 : k0 = k <;> simp [getv, h0, ih]

theorem getv_insAll_none (a l : List (String × Yaml)) (k : String)
    (ha : getv a k = none) (hl : getv l k = none) :
    getv (insAll a l) k = none := by
  induction l generalizing a with
  | nil => exact ha
  | cons p rest ih =>
    obtain ⟨k0, v0⟩ := p
    have hk0 : ¬k0 = k := by
      intro h0
      simp [getv, h0] at hl
    simp only [insAll, List.foldl_cons] at ih ⊢
    refine ih _ ?_ (by simpa [getv, hk0] using hl)
    rw [getv_insv_ne a k0 k v0 (fun hh => hk0 hh.symm)]
    exact ha

theorem insAll_nil_of_nodup (l : List (String × Yaml))
    (h : (keysOf l).Nodup) : insAll [] l = l := by
  suffices hgen : ∀ a, (∀ p ∈ l, getv a p.1 = none) → insAll a l = a ++ l by
    simpa using hgen [] (fun p _ => rfl)
  induction l with
  | nil => intro a _; simp [insAll]
  | cons p rest ih =>
    intro a ha
    obtain ⟨k0, v0⟩ := p
    have hnd2 : (k0 :: keysOf rest).Nodup := by simpa [keysOf] using h
    obtain ⟨hnotin, hndr⟩ := List.nodup_cons.mp hnd2
    have ha0 : getv a k0 = none := ha (k0, v0) (by simp)
    have hins : insv a k0 v0 = a ++ [(k0, v0)] := by
      induction a with
      | nil => simp [insv]
      | cons q qs ihq =>
        obtain ⟨kq, vq⟩ := q
        by_cases hq : kq = k0
        · simp [getv, hq] at ha0
        · simp [getv, hq] at ha0
          simp [insv, hq, ihq (fun p hp => by
            have := ha p hp
            simpa [getv, show ¬kq = p.1 from fun hh =>
              (by simp [getv, hh.symm] at this)] using this) ha0]
    simp only [insAll, List.foldl_cons] at ih ⊢
    rw [hins, ih hndr]
    · simp
    · intro p hp
      rw [getv_append]
      have hp1 : getv a p.1 = none := ha p (by simp [hp])
      have hp2 : getv [(k0, v0)] p.1 = none := by
        have : ¬k0 = p.1 := by
          intro hh
          exact hnotin (List.mem_map.mpr ⟨p, hp, hh.symm⟩)
        simp [getv, this]
      simp [hp1, hp2]

/-! ### `migrate_external_config` of `main.rs`

When `external.service.domain` exists (old structure), the domain value is
copied up to `external.domain`; nothing is removed here (removal of
`external.service.domain` belongs to `clean_deprecated_fields`). -/

/-- The body applied to the `external` mapping. -/
def externalMigFn (em : List (String × Yaml)) : List (String × Yaml) :=
  match getv em "service" with
  | some (.map svc) =>
    match getv svc "domain" with
    | some dv => insv em "domain" dv
    | none => em
  | _ => em

/-- `migrate_external_config` of `main.rs`. -/
def migrate_external_config (t : Yaml) : Yaml :=
  match t with
  | .map root => .map (modMap root "external" externalMigFn)
  | other => other

theorem externalMigFn_idem (em : List (String × Yaml)) :
    externalMigFn (externalMigFn em) = externalMigFn em := by
  cases hsvc : getv em "service" with
  | none => simp [externalMigFn, hsvc]
  | some sv =>
    cases sv with
    | map svc =>
      cases hdom : getv svc "domain" with
      | none => simp [externalMigFn, hsvc, hdom]
      | some dv =>
        have h1 : externalMigFn em = insv em "domain" dv := by
          simp [externalMigFn, hsvc, hdom]
        rw [h1]
        have hsvc' : getv (insv em "domain" dv) "service" = some (.map svc) := by
          rw [getv_insv_ne em "domain" "service" dv (by decide)]
          exact hsvc
        simp [externalMigFn, hsvc', hdom, insv_insv_same]
    | null => simp [externalMigFn, hsvc]
    | bool b => simp [externalMigFn, hsvc]
    | str s => simp [externalMigFn, hsvc]
    | int i => simp [externalMigFn, hsvc]
    | seq l => simp [externalMigFn, hsvc]

theorem migrate_external_config_idem (t : Yaml) :
    migrate_external_config (migrate_external_config t) =
      migrate_external_config t := by
  cases t with
  | map root =>
    simp only [migrate_external_config]
    rw [modMap_modMap]
    exact congrArg Yaml.map
      (modMap_congr root "external" _ _ externalMigFn_idem)
  | null => rfl
  | bool b => rfl
  | str s => rfl
  | int i => rfl
  | seq l => rfl

/-! ### Idempotence of `clean_empty_cloud_storage` -/

theorem cloudStorageEnabled_remAll (cm : List (String × Yaml)) :
    cloudStorageEnabled (remAll cm cloudStorageKeys) = cloudStorageEnabled cm := by
  unfold cloudStorageEnabled
  rw [getv_remAll_not_mem _ _ _ (by decide)]

theorem tieredCleanFn_idem (tm : List (String × Yaml)) :
    tieredCleanFn (tieredCleanFn tm) = tieredCleanFn tm := by
  cases hc : getv tm "config" with
  | none =>
    have h1 : tieredCleanFn tm = tm := by
      have hmod : modMap tm "config" (fun cm =>
          if cloudStorageEnabled cm then cm
          else remAll cm cloudStorageKeys) = tm :=
        modMap_of_getv_none tm "config" _ hc
      simp only [tieredCleanFn, hmod, hc]
    rw [h1]
    exact h1
  | some cv =>
    cases cv with
    | map cm =>
      by_cases hen : cloudStorageEnabled cm = true
      · have hmod : modMap tm "config" (fun cm =>
            if cloudStorageEnabled cm then cm
            else remAll cm cloudStorageKeys) = tm := by
          apply modMap_id_of_fix
          intro x hx
          rw [hc] at hx
          injection hx with hx1
          injection hx1 with hx2
          rw [← hx2, hen]
          simp
        have h1 : tieredCleanFn tm = tm := by
          simp only [tieredCleanFn, hmod, hc, hen]
          simp
        rw [h1]
        exact h1
      · have hen' : cloudStorageEnabled cm = false := by
          cases hcc : cloudStorageEnabled cm
          · rfl
          · exact absurd hcc hen
        have htm1 : getv (modMap tm "config" (fun x =>
            if cloudStorageEnabled x then x
            else remAll x cloudStorageKeys)) "config" =
            some (.map (remAll cm cloudStorageKeys)) := by
          rw [getv_modMap_map tm "config" _ cm hc, hen']
          simp
        have henR : cloudStorageEnabled (remAll cm cloudStorageKeys) = false := by
          rw [cloudStorageEnabled_remAll]
          exact hen'
        have h1 : tieredCleanFn tm =
            remv (modMap tm "config" (fun x =>
              if cloudStorageEnabled x then x
              else remAll x cloudStorageKeys)) "credentialsSecretRef" := by
          simp only [tieredCleanFn, htm1, henR]
          simp
        rw [h1]
        have hc2 : getv (remv (modMap tm "config" (fun x =>
            if cloudStorageEnabled x then x
            else remAll x cloudStorageKeys)) "credentialsSecretRef") "config" =
            some (.map (remAll cm cloudStorageKeys)) := by
          rw [getv_remv_ne _ _ _ (by decide)]
          exact htm1
        have hmod2 : modMap (remv (modMap tm "config" (fun x =>
            if cloudStorageEnabled x then x
            else remAll x cloudStorageKeys)) "credentialsSecretRef") "config"
            (fun x => if cloudStorageEnabled x then x
              else remAll x cloudStorageKeys) =
            remv (modMap tm "config" (fun x =>
              if cloudStorageEnabled x then x
              else remAll x cloudStorageKeys)) "credentialsSecretRef" := by
          apply modMap_id_of_fix
          intro x hx
          rw [hc2] at hx
          injection hx with hx1
          injection hx1 with hx2
          rw [← hx2, henR]
          simp [remAll_remAll]
        simp only [tieredCleanFn, hmod2, hc2, henR]
        simp [remv_remv]
    | null =>
      have h1 : tieredCleanFn tm = tm := by
        have hmod : modMap tm "config" (fun cm =>
            if cloudStorageEnabled cm then cm
            else remAll cm cloudStorageKeys) = tm := by
          apply modMap_id_of_fix
          intro x hx
          rw [hc] at hx
          cases hx
        simp only [tieredCleanFn, hmod, hc]
      rw [h1]
      exact h1
    | bool b =>
      have h1 : tieredCleanFn tm = tm := by
        have hmod : modMap tm "config" (fun cm =>
            if cloudStorageEnabled cm then cm
            else remAll cm cloudStorageKeys) = tm := by
          apply modMap_id_of_fix
          intro x hx
          rw [hc] at hx
          cases hx
        simp only [tieredCleanFn, hmod, hc]
      rw [h1]
      exact h1
    | str s =>
      have h1 : tieredCleanFn tm = tm := by
        have hmod : modMap tm "config" (fun cm =>
            if cloudStorageEnabled cm then cm
            else remAll cm cloudStorageKeys) = tm := by
          apply modMap_id_of_fix
          intro x hx
          rw [hc] at hx
          cases hx
        simp only [tieredCleanFn, hmod, hc]
      rw [h1]
      exact h1
    | int i =>
      have h1 : tieredCleanFn tm = tm := by
        have hmod : modMap tm "config" (fun cm =>
            if cloudStorageEnabled cm then cm
            else remAll cm cloudStorageKeys) = tm := by
          apply modMap_id_of_fix
          intro x hx
          rw [hc] at hx
          cases hx
        simp only [tieredCleanFn, hmod, hc]
      rw [h1]
      exact h1
    | seq l =>
      have h1 : tieredCleanFn tm = tm := by
        have hmod : modMap tm "config" (fun cm =>
            if cloudStorageEnabled cm then cm
            else remAll cm cloudStorageKeys) = tm := by
          apply modMap_id_of_fix
          intro x hx
          rw [hc] at hx
          cases hx
        simp only [tieredCleanFn, hmod, hc]
      rw [h1]
      exact h1

/-! ### `migrate_console_v2_to_v3` of `main.rs`

When `console.console.config` (v2 structure) exists, a v3 config is
synthesized (kafka basics and sasl, schemaRegistry hoisted to top level
with credentials wrapped in `authentication.basic`, redpanda adminApi
likewise) and, when non-empty, replaces `console.config` while
`console.console` is removed. -/

/-- `if let Some(v) = src.get(key) then dst.insert(key, v)`. -/
def pushIfPresent (dst src : List (String × Yaml)) (key : String) :
    List (String × Yaml) :=
  match getv src key with
  | some v => insv dst key v
  | none => dst

/-- `dst.insert(key, v)` when the optional value is present. -/
def insOpt (m : List (String × Yaml)) (k : String) :
    Option Yaml → List (String × Yaml)
  | some v => insv m k v
  | none => m

/-- `(getv m k).isSome` (`contains_key`). -/
def containsKey (m : List (String × Yaml)) (k : String) : Bool :=
  (getv m k).isSome

/-- The v3 sasl block: enabled/mechanism with defaults, credentials
preserved when present. -/
def buildSaslV3 (s2 : List (String × Yaml)) : List (String × Yaml) :=
  pushIfPresent (pushIfPresent
    (insv (insv [] "enabled" ((getv s2 "enabled").getD (.bool false)))
      "mechanism" ((getv s2 "mechanism").getD (.str "SCRAM-SHA-256")))
    s2 "username") s2 "password"

/-- `authentication: {basic: {username, password}}`, defaulting missing
credentials to the empty string. -/
def buildAuthBasic (src : List (String × Yaml)) : List (String × Yaml) :=
  [("basic", .map [("username", (getv src "username").getD (.str "")),
                   ("password", (getv src "password").getD (.str ""))])]

/-- The v3 shape shared by the hoisted `schemaRegistry` and
`redpanda.adminApi`: enabled/urls with defaults, optional
`authentication.basic`, optional tls. -/
def buildApiV3 (s2 : List (String × Yaml)) : List (String × Yaml) :=
  pushIfPresent
    (if containsKey s2 "username" || containsKey s2 "password" then
      insv (insv (insv [] "enabled" ((getv s2 "enabled").getD (.bool false)))
          "urls" ((getv s2 "urls").getD (.seq [])))
        "authentication" (.map (buildAuthBasic s2))
    else
      insv (insv [] "enabled" ((getv s2 "enabled").getD (.bool false)))
        "urls" ((getv s2 "urls").getD (.seq [])))
    s2 "tls"

/-- The v3 config mapping built from a v2 `console.console.config`
mapping. -/
def buildV3Config (v2m : List (String × Yaml)) : List (String × Yaml) :=
  let afterKafka : List (String × Yaml) :=
    match getv v2m "kafka" with
    | some (.map k2) =>
      let k3a := pushIfPresent (pushIfPresent [] k2 "brokers") k2 "tls"
      let k3 :=
        match getv k2 "sasl" with
        | some (.map s2) => insv k3a "sasl" (.map (buildSaslV3 s2))
        | _ => k3a
      let withSr :=
        match getv k2 "schemaRegistry" with
        | some (.map sr2) => insv [] "schemaRegistry" (.map (buildApiV3 sr2))
        | _ => []
      if k3.isEmpty then withSr else insv withSr "kafka" (.map k3)
    | _ => []
  match getv v2m "redpanda" with
  | some (.map r2) =>
    match getv r2 "adminApi" with
    | some (.map a2) =>
      insv afterKafka "redpanda" (.map [("adminApi", .map (buildApiV3 a2))])
    | _ => afterKafka
  | _ => afterKafka

/-- The body applied to the `console` mapping. -/
def consoleMigFn (cm : List (String × Yaml)) : List (String × Yaml) :=
  match getv cm "console" with
  | some (.map inner) =>
    match getv inner "config" with
    | some v2cfg =>
      let v3 := match v2cfg with
                | .map v2m => buildV3Config v2m
                | _ => []
      if v3.isEmpty then cm
      else remv (insv cm "config" (.map v3)) "console"
    | none => cm
  | _ => cm

/-- `migrate_console_v2_to_v3` of `main.rs`. -/
def migrate_console_v2_to_v3 (t : Yaml) : Yaml :=
  match t with
  | .map root => .map (modMap root "console" consoleMigFn)
  | other => other

set_option maxRecDepth 4000 in
theorem consoleMigFn_idem (cm : List (String × Yaml)) :
    consoleMigFn (consoleMigFn cm) = consoleMigFn cm := by
  cases hco : getv cm "console" with
  | none => simp [consoleMigFn, hco]
  | some inv =>
    cases inv with
    | map inner =>
      cases hcfg : getv inner "config" with
      | none => simp [consoleMigFn, hco, hcfg]
      | some v2cfg =>
        obtain ⟨v3, hv3⟩ : ∃ v3, (match v2cfg with
            | Yaml.map v2m => buildV3Config v2m
            | _ => ([] : List (String × Yaml))) = v3 := ⟨_, rfl⟩
        have hmig : consoleMigFn cm =
            if v3.isEmpty then cm
            else remv (insv cm "config" (.map v3)) "console" := by
          simp only [consoleMigFn, hco, hcfg, hv3]
        rw [hmig]
        by_cases hempty : v3.isEmpty
        · rw [if_pos hempty, hmig, if_pos hempty]
        · rw [if_neg hempty]
          have hnone : getv (remv (insv cm "config" (.map v3)) "console")
              "console" = none := getv_remv_self _ "console"
          simp only [consoleMigFn, hnone]
    | null => simp [consoleMigFn, hco]
    | bool b => simp [consoleMigFn, hco]
    | str s => simp [consoleMigFn, hco]
    | int i => simp [consoleMigFn, hco]
    | seq l => simp [consoleMigFn, hco]

theorem migrate_console_v2_to_v3_idem (t : Yaml) :
    migrate_console_v2_to_v3 (migrate_console_v2_to_v3 t) =
      migrate_console_v2_to_v3 t := by
  cases t with
  | map root =>
    simp only [migrate_console_v2_to_v3]
    rw [modMap_modMap]
    exact congrArg Yaml.map (modMap_congr root "console" _ _ consoleMigFn_idem)
  | null => rfl
  | bool b => rfl
  | str s => rfl
  | int i => rfl
  | seq l => rfl

theorem clean_empty_cloud_storage_idem (t : Yaml) :
    clean_empty_cloud_storage (clean_empty_cloud_storage t) =
      clean_empty_cloud_storage t := by
  cases t with
  | map m =>
    simp only [clean_empty_cloud_storage]
    rw [modMap_modMap]
    refine congrArg Yaml.map (modMap_congr m "storage" _ _ (fun sm => ?_))
    rw [modMap_modMap]
    exact modMap_congr sm "tiered" _ _ tieredCleanFn_idem
  | null => rfl
  | bool b => rfl
  | str s => rfl
  | int i => rfl
  | seq l => rfl

/-! ### `clean_deprecated_fields` of `main.rs`

Nine root-level deprecated keys are removed, then `image.pullPolicy`,
a 16-key set under `statefulset` (plus nested `initContainers` /
`sideCars` cleanups), `listeners.http.kafkaEndpoint` and
`listeners.schemaRegistry.kafkaEndpoint`, `external.service.domain`,
and an empty `enterprise.licenseSecretRef` mapping. -/

def rootDeprecatedKeys : List String :=
  ["COMPUTED VALUES", "tolerations", "nodeSelector", "affinity",
   "post_upgrade_job", "imagePullSecrets", "post_install_job",
   "connectors", "podManagementPolicy"]

/-- `image_map.remove("pullPolicy")`. -/
def imgCleanFn (im : List (String × Yaml)) : List (String × Yaml) :=
  remv im "pullPolicy"

/-- Removal of `extraVolumeMounts` and `resources` (configurator and
setDataDirOwnership cleanups share this body). -/
def cfgMountsCleanFn (cm : List (String × Yaml)) : List (String × Yaml) :=
  remAll cm ["extraVolumeMounts", "resources"]

def initDeprecatedKeys : List String :=
  ["tuning", "extraInitContainers", "setTieredStorageCacheDirOwnership"]

/-- Body applied to `statefulset.initContainers`. -/
def initCleanFn (im : List (String × Yaml)) : List (String × Yaml) :=
  modMap (modMap (remAll im initDeprecatedKeys)
    "configurator" cfgMountsCleanFn)
    "setDataDirOwnership" cfgMountsCleanFn

/-- Removal of `extraVolumeMounts`, `resources`, `securityContext` from
`sideCars.configWatcher`. -/
def watcherCleanFn (cw : List (String × Yaml)) : List (String × Yaml) :=
  remAll cw ["extraVolumeMounts", "resources", "securityContext"]

/-- Body applied to `statefulset.sideCars`. -/
def sideCleanFn (sm : List (String × Yaml)) : List (String × Yaml) :=
  modMap sm "configWatcher" watcherCleanFn

def stsDeprecatedKeys : List String :=
  ["securityContext", "tolerations", "nodeSelector", "priorityClassName",
   "startupProbe", "livenessProbe", "readinessProbe", "annotations",
   "topologySpreadConstraints", "extraVolumes", "extraVolumeMounts",
   "podAffinity", "podAntiAffinity", "nodeAffinity",
   "terminationGracePeriodSeconds", "podManagementPolicy"]

/-- Body applied to the `statefulset` mapping. -/
def stsCleanFn (sm : List (String × Yaml)) : List (String × Yaml) :=
  modMap (modMap (remAll sm stsDeprecatedKeys)
    "initContainers" initCleanFn)
    "sideCars" sideCleanFn

/-- `http_map.remove("kafkaEndpoint")` (shared with `schemaRegistry`). -/
def httpCleanFn (hm : List (String × Yaml)) : List (String × Yaml) :=
  remv hm "kafkaEndpoint"

/-- Body applied to the `listeners` mapping. -/
def lisCleanFn (lm : List (String × Yaml)) : List (String × Yaml) :=
  modMap (modMap lm "http" httpCleanFn) "schemaRegistry" httpCleanFn

/-- `service_map.remove("domain")`. -/
def svcDomainCleanFn (svm : List (String × Yaml)) : List (String × Yaml) :=
  remv svm "domain"

/-- Body applied to the `external` mapping. -/
def extCleanFn (em : List (String × Yaml)) : List (String × Yaml) :=
  modMap em "service" svcDomainCleanFn

/-- Body applied to the `enterprise` mapping: drop `licenseSecretRef`
when it is an empty mapping. -/
def entCleanFn (em : List (String × Yaml)) : List (String × Yaml) :=
  match getv em "licenseSecretRef" with
  | some (.map lr) => if lr.isEmpty then remv em "licenseSecretRef" else em
  | _ => em

/-- The whole pass body on the root mapping. -/
def cleanRootFn (m : List (String × Yaml)) : List (String × Yaml) :=
  modMap (modMap (modMap (modMap (modMap
    (remAll m rootDeprecatedKeys)
    "image" imgCleanFn)
    "statefulset" stsCleanFn)
    "listeners" lisCleanFn)
    "external" extCleanFn)
    "enterprise" entCleanFn

/-- `clean_deprecated_fields` of `main.rs`. -/
def clean_deprecated_fields (t : Yaml) : Yaml :=
  match t with
  | .map m => .map (cleanRootFn m)
  | other => other

/-! Idempotence machinery for `clean_deprecated_fields`. -/

theorem getv_modv_none (m : List (String × Yaml)) (k' k : String)
    (f : Yaml → Yaml) (h : getv m k = none) : getv (modv m k' f) k = none := by
  by_cases hk : k = k'
  · subst hk
    rw [getv_modv_self, h]
    rfl
  · rw [getv_modv_ne m k' k f hk]
    exact h

theorem getv_modMap_none (m : List (String × Yaml)) (k' k : String)
    (f : List (String × Yaml) → List (String × Yaml))
    (h : getv m k = none) : getv (modMap m k' f) k = none := by
  simp only [modMap]
  exact getv_modv_none m k' k _ h

/-- If the value at `k` in `X` agrees with the value at `k` after a
`modMap k f` with idempotent `f`, then `modMap X k f` is the identity. -/
theorem modMap_id_of_getv_modMap (X m : List (String × Yaml)) (k : String)
    (f : List (String × Yaml) → List (String × Yaml))
    (hf : ∀ x, f (f x) = f x)
    (h : getv X k = getv (modMap m k f) k) : modMap X k f = X := by
  apply modMap_id_of_fix
  intro x hx
  rw [h] at hx
  simp only [modMap, getv_modv_self] at hx
  cases hm : getv m k with
  | none =>
    rw [hm] at hx
    simp at hx
  | some v =>
    rw [hm] at hx
    cases v with
    | map a =>
      simp at hx
      rw [← hx, hf]
    | null => simp at hx
    | bool b => simp at hx
    | str s => simp at hx
    | int i => simp at hx
    | seq l => simp at hx

theorem imgCleanFn_idem (im : List (String × Yaml)) :
    imgCleanFn (imgCleanFn im) = imgCleanFn im := by
  simp only [imgCleanFn]
  exact remv_remv im "pullPolicy"

theorem cfgMountsCleanFn_idem (cm : List (String × Yaml)) :
    cfgMountsCleanFn (cfgMountsCleanFn cm) = cfgMountsCleanFn cm := by
  simp only [cfgMountsCleanFn]
  exact remAll_remAll cm _

theorem watcherCleanFn_idem (cw : List (String × Yaml)) :
    watcherCleanFn (watcherCleanFn cw) = watcherCleanFn cw := by
  simp only [watcherCleanFn]
  exact remAll_remAll cw _

theorem httpCleanFn_idem (hm : List (String × Yaml)) :
    httpCleanFn (httpCleanFn hm) = httpCleanFn hm := by
  simp only [httpCleanFn]
  exact remv_remv hm "kafkaEndpoint"

theorem svcDomainCleanFn_idem (svm : List (String × Yaml)) :
    svcDomainCleanFn (svcDomainCleanFn svm) = svcDomainCleanFn svm := by
  simp only [svcDomainCleanFn]
  exact remv_remv svm "domain"

theorem sideCleanFn_idem (sm : List (String × Yaml)) :
    sideCleanFn (sideCleanFn sm) = sideCleanFn sm := by
  simp only [sideCleanFn]
  exact modMap_modMap_idem_of sm "configWatcher" watcherCleanFn
    watcherCleanFn_idem

theorem extCleanFn_idem (em : List (String × Yaml)) :
    extCleanFn (extCleanFn em) = extCleanFn em := by
  simp only [extCleanFn]
  exact modMap_modMap_idem_of em "service" svcDomainCleanFn
    svcDomainCleanFn_idem

theorem entCleanFn_idem (em : List (String × Yaml)) :
    entCleanFn (entCleanFn em) = entCleanFn em := by
  cases hlr : getv em "licenseSecretRef" with
  | none => simp [entCleanFn, hlr]
  | some v =>
    cases v with
    | map lr =>
      by_cases hemp : lr.isEmpty
      · have h1 : entCleanFn em = remv em "licenseSecretRef" := by
          simp [entCleanFn, hlr, hemp]
        rw [h1]
        have h2 : getv (remv em "licenseSecretRef") "licenseSecretRef" =
            none := getv_remv_self em "licenseSecretRef"
        simp [entCleanFn, h2]
      · simp [entCleanFn, hlr, hemp]
    | null => simp [entCleanFn, hlr]
    | bool b => simp [entCleanFn, hlr]
    | str s => simp [entCleanFn, hlr]
    | int i => simp [entCleanFn, hlr]
    | seq l => simp [entCleanFn, hlr]

theorem initCleanFn_idem (im : List (String × Yaml)) :
    initCleanFn (initCleanFn im) = initCleanFn im := by
  have h1 : remAll (initCleanFn im) initDeprecatedKeys = initCleanFn im := by
    apply remAll_of_absent
    intro k hk
    simp only [initCleanFn]
    apply getv_modMap_none
    apply getv_modMap_none
    exact getv_remAll_mem _ _ _ hk
  have h2 : modMap (initCleanFn im) "configurator" cfgMountsCleanFn =
      initCleanFn im := by
    apply modMap_id_of_getv_modMap (initCleanFn im)
      (remAll im initDeprecatedKeys) "configurator" cfgMountsCleanFn
      cfgMountsCleanFn_idem
    simp only [initCleanFn]
    exact getv_modMap_ne _ "setDataDirOwnership" "configurator"
      cfgMountsCleanFn (by decide)
  have h3 : modMap (initCleanFn im) "setDataDirOwnership" cfgMountsCleanFn =
      initCleanFn im := by
    apply modMap_id_of_getv_modMap (initCleanFn im)
      (modMap (remAll im initDeprecatedKeys) "configurator" cfgMountsCleanFn)
      "setDataDirOwnership" cfgMountsCleanFn cfgMountsCleanFn_idem
    simp only [initCleanFn]
  calc initCleanFn (initCleanFn im)
      = modMap (modMap (remAll (initCleanFn im) initDeprecatedKeys)
          "configurator" cfgMountsCleanFn)
          "setDataDirOwnership" cfgMountsCleanFn := rfl
    _ = initCleanFn im := by rw [h1, h2, h3]

theorem stsCleanFn_idem (sm : List (String × Yaml)) :
    stsCleanFn (stsCleanFn sm) = stsCleanFn sm := by
  have h1 : remAll (stsCleanFn sm) stsDeprecatedKeys = stsCleanFn sm := by
    apply remAll_of_absent
    intro k hk
    simp only [stsCleanFn]
    apply getv_modMap_none
    apply getv_modMap_none
    exact getv_remAll_mem _ _ _ hk
  have h2 : modMap (stsCleanFn sm) "initContainers" initCleanFn =
      stsCleanFn sm := by
    apply modMap_id_of_getv_modMap (stsCleanFn sm)
      (remAll sm stsDeprecatedKeys) "initContainers" initCleanFn
      initCleanFn_idem
    simp only [stsCleanFn]
    exact getv_modMap_ne _ "sideCars" "initContainers" sideCleanFn (by decide)
  have h3 : modMap (stsCleanFn sm) "sideCars" sideCleanFn = stsCleanFn sm := by
    apply modMap_id_of_getv_modMap (stsCleanFn sm)
      (modMap (remAll sm stsDeprecatedKeys) "initContainers" initCleanFn)
      "sideCars" sideCleanFn sideCleanFn_idem
    simp only [stsCleanFn]
  calc stsCleanFn (stsCleanFn sm)
      = modMap (modMap (remAll (stsCleanFn sm) stsDeprecatedKeys)
          "initContainers" initCleanFn) "sideCars" sideCleanFn := rfl
    _ = stsCleanFn sm := by rw [h1, h2, h3]

theorem lisCleanFn_idem (lm : List (String × Yaml)) :
    lisCleanFn (lisCleanFn lm) = lisCleanFn lm := by
  have h2 : modMap (lisCleanFn lm) "http" httpCleanFn = lisCleanFn lm := by
    apply modMap_id_of_getv_modMap (lisCleanFn lm) lm "http" httpCleanFn
      httpCleanFn_idem
    simp only [lisCleanFn]
    exact getv_modMap_ne _ "schemaRegistry" "http" httpCleanFn (by decide)
  have h3 : modMap (lisCleanFn lm) "schemaRegistry" httpCleanFn =
      lisCleanFn lm := by
    apply modMap_id_of_getv_modMap (lisCleanFn lm)
      (modMap lm "http" httpCleanFn) "schemaRegistry" httpCleanFn
      httpCleanFn_idem
    simp only [lisCleanFn]
  calc lisCleanFn (lisCleanFn lm)
      = modMap (modMap (lisCleanFn lm) "http" httpCleanFn)
          "schemaRegistry" httpCleanFn := rfl
    _ = modMap (lisCleanFn lm) "schemaRegistry" httpCleanFn := by rw [h2]
    _ = lisCleanFn lm := h3

theorem cleanRootFn_idem (m : List (String × Yaml)) :
    cleanRootFn (cleanRootFn m) = cleanRootFn m := by
  have h1 : remAll (cleanRootFn m) rootDeprecatedKeys = cleanRootFn m := by
    apply remAll_of_absent
    intro k hk
    simp only [cleanRootFn]
    apply getv_modMap_none
    apply getv_modMap_none
    apply getv_modMap_none
    apply getv_modMap_none
    apply getv_modMap_none
    exact getv_remAll_mem _ _ _ hk
  have h2 : modMap (cleanRootFn m) "image" imgCleanFn = cleanRootFn m := by
    apply modMap_id_of_getv_modMap (cleanRootFn m)
      (remAll m rootDeprecatedKeys) "image" imgCleanFn imgCleanFn_idem
    simp only [cleanRootFn]
    rw [getv_modMap_ne _ "enterprise" "image" entCleanFn (by decide),
        getv_modMap_ne _ "external" "image" extCleanFn (by decide),
        getv_modMap_ne _ "listeners" "image" lisCleanFn (by decide),
        getv_modMap_ne _ "statefulset" "image" stsCleanFn (by decide)]
  have h3 : modMap (cleanRootFn m) "statefulset" stsCleanFn =
      cleanRootFn m := by
    apply modMap_id_of_getv_modMap (cleanRootFn m)
      (modMap (remAll m rootDeprecatedKeys) "image" imgCleanFn)
      "statefulset" stsCleanFn stsCleanFn_idem
    simp only [cleanRootFn]
    rw [getv_modMap_ne _ "enterprise" "statefulset" entCleanFn (by decide),
        getv_modMap_ne _ "external" "statefulset" extCleanFn (by decide),
        getv_modMap_ne _ "listeners" "statefulset" lisCleanFn (by decide)]
  have h4 : modMap (cleanRootFn m) "listeners" lisCleanFn =
      cleanRootFn m := by
    apply modMap_id_of_getv_modMap (cleanRootFn m)
      (modMap (modMap (remAll m rootDeprecatedKeys) "image" imgCleanFn)
        "statefulset" stsCleanFn)
      "listeners" lisCleanFn lisCleanFn_idem
    simp only [cleanRootFn]
    rw [getv_modMap_ne _ "enterprise" "listeners" entCleanFn (by decide),
        getv_modMap_ne _ "external" "listeners" extCleanFn (by decide)]
  have h5 : modMap (cleanRootFn m) "external" extCleanFn =
      cleanRootFn m := by
    apply modMap_id_of_getv_modMap (cleanRootFn m)
      (modMap (modMap (modMap (remAll m rootDeprecatedKeys)
        "image" imgCleanFn) "statefulset" stsCleanFn) "listeners" lisCleanFn)
      "external" extCleanFn extCleanFn_idem
    simp only [cleanRootFn]
    rw [getv_modMap_ne _ "enterprise" "external" entCleanFn (by decide)]
  have h6 : modMap (cleanRootFn m) "enterprise" entCleanFn =
      cleanRootFn m := by
    apply modMap_id_of_getv_modMap (cleanRootFn m)
      (modMap (modMap (modMap (modMap (remAll m rootDeprecatedKeys)
        "image" imgCleanFn) "statefulset" stsCleanFn) "listeners" lisCleanFn)
        "external" extCleanFn)
      "enterprise" entCleanFn entCleanFn_idem
    simp only [cleanRootFn]
  calc cleanRootFn (cleanRootFn m)
      = modMap (modMap (modMap (modMap (modMap
          (remAll (cleanRootFn m) rootDeprecatedKeys)
          "image" imgCleanFn)
          "statefulset" stsCleanFn)
          "listeners" lisCleanFn)
          "external" extCleanFn)
          "enterprise" entCleanFn := rfl
    _ = cleanRootFn m := by rw [h1, h2, h3, h4, h5, h6]

theorem clean_deprecated_fields_idem (t : Yaml) :
    clean_deprecated_fields (clean_deprecated_fields t) =
      clean_deprecated_fields t := by
  cases t with
  | map m =>
    simp only [clean_deprecated_fields]
    rw [cleanRootFn_idem]
  | null => rfl
  | bool b => rfl
  | str s => rfl
  | int i => rfl
  | seq l => rfl

/-! ### `map_statefulset_to_podtemplate` of `main.rs`

Extraction reads the original tree: root-level `nodeSelector` /
`tolerations` / `affinity` (skipped when an empty mapping resp. empty
sequence) and ten `statefulset.*` fields; `podAntiAffinity` is converted
to the standard Kubernetes shape when it is a mapping carrying
`topologyKey`, and `topologySpreadConstraints` items gain a default
`labelSelector`.  The write phase fills `podTemplate.spec` (root fields
via `or_insert`, statefulset fields via `insert`), and
`statefulset.annotations` is merged into
`statefulset.podTemplate.annotations`. -/

def notEmptyMap : Yaml → Bool
  | .map m => !m.isEmpty
  | _ => true

def notEmptySeq : Yaml → Bool
  | .seq s => !s.isEmpty
  | _ => true

def defaultLabelSelector : Yaml :=
  .map [("matchLabels", .map
    [("app.kubernetes.io/name", .str "redpanda"),
     ("app.kubernetes.io/component", .str "redpanda-statefulset")])]

/-- v5 `podAntiAffinity` conversion: defined only for a mapping carrying
`topologyKey`. -/
def convAntiAffinity : Yaml → Option Yaml
  | .map am =>
    match getv am "topologyKey" with
    | some tk => some (.map
        [("requiredDuringSchedulingIgnoredDuringExecution",
          .seq [.map [("topologyKey", tk),
                      ("labelSelector", defaultLabelSelector)]])])
    | none => none
  | _ => none

structure StsExtract where
  rootNs : Option Yaml
  rootTol : Option Yaml
  rootAff : Option Yaml
  ns : Option Yaml
  tol : Option Yaml
  podAff : Option Yaml
  podAntiAff : Option Yaml
  nodeAff : Option Yaml
  secCtx : Option Yaml
  prioCN : Option Yaml
  tsc : Option Yaml
  tgp : Option Yaml
  ann : Option Yaml

/-- `map.get(key)` filtered through a non-emptiness guard. -/
def getIfB (m : List (String × Yaml)) (k : String) (p : Yaml → Bool) :
    Option Yaml :=
  match getv m k with
  | some v => if p v then some v else none
  | none => none

/-- The `statefulset` mapping of the root (empty when absent or not a
mapping, matching the `if let Some(Value::Mapping(..))` guard). -/
def stsOf (m : List (String × Yaml)) : List (String × Yaml) :=
  match getv m "statefulset" with
  | some (.map sm) => sm
  | _ => []

def extractSts (m : List (String × Yaml)) : StsExtract :=
  { rootNs := getIfB m "nodeSelector" notEmptyMap,
    rootTol := getIfB m "tolerations" notEmptySeq,
    rootAff := getIfB m "affinity" notEmptyMap,
    ns := getIfB (stsOf m) "nodeSelector" notEmptyMap,
    tol := getIfB (stsOf m) "tolerations" notEmptySeq,
    podAff := getIfB (stsOf m) "podAffinity" notEmptyMap,
    podAntiAff :=
      match getIfB (stsOf m) "podAntiAffinity" notEmptyMap with
      | some v => convAntiAffinity v
      | none => none,
    nodeAff := getIfB (stsOf m) "nodeAffinity" notEmptyMap,
    secCtx := getv (stsOf m) "securityContext",
    prioCN := getv (stsOf m) "priorityClassName",
    tsc := getv (stsOf m) "topologySpreadConstraints",
    tgp := getv (stsOf m) "terminationGracePeriodSeconds",
    ann := getIfB (stsOf m) "annotations" notEmptyMap }

/-- The guard on the podTemplate write phase (annotations excluded). -/
def anyMigrate (e : StsExtract) : Bool :=
  e.rootNs.isSome || e.rootTol.isSome || e.rootAff.isSome || e.ns.isSome ||
  e.tol.isSome || e.podAff.isSome || e.podAntiAff.isSome ||
  e.nodeAff.isSome || e.secCtx.isSome || e.prioCN.isSome ||
  e.tsc.isSome || e.tgp.isSome

/-- Add the default `labelSelector` to a constraint mapping lacking one. -/
def addLabelSelector : Yaml → Yaml
  | .map cm =>
    if containsKey cm "labelSelector" then .map cm
    else .map (insv cm "labelSelector" defaultLabelSelector)
  | other => other

/-- `topologySpreadConstraints` conversion (identity on non-sequences). -/
def convTsc : Yaml → Yaml
  | .seq cs => .seq (cs.map addLabelSelector)
  | other => other

/-- `spec_map.entry(k).or_insert(v)` guarded by an extracted option. -/
def orInsOpt (m : List (String × Yaml)) (k : String) :
    Option Yaml → List (String × Yaml)
  | some v => orInsv m k v
  | none => m

/-- `spec_map.insert(k, v)` guarded by an extracted option. -/
def insvOpt (m : List (String × Yaml)) (k : String) :
    Option Yaml → List (String × Yaml)
  | some v => insv m k v
  | none => m

/-- Insert into `spec.affinity.<k2>` through `entry("affinity")`. -/
def insAffOpt (m : List (String × Yaml)) (k2 : String) :
    Option Yaml → List (String × Yaml)
  | some v => modMap (orInsv m "affinity" (.map [])) "affinity"
      (fun am => insv am k2 v)
  | none => m

/-- The twelve writes on `podTemplate.spec`, in source order. -/
def writeSpec (e : StsExtract) (s : List (String × Yaml)) :
    List (String × Yaml) :=
  insvOpt (insvOpt (insvOpt (insvOpt (insAffOpt (insAffOpt (insAffOpt
    (insvOpt (insvOpt (orInsOpt (orInsOpt (orInsOpt s
      "nodeSelector" e.rootNs)
      "tolerations" e.rootTol)
      "affinity" e.rootAff)
      "nodeSelector" e.ns)
      "tolerations" e.tol)
      "podAffinity" e.podAff)
      "podAntiAffinity" e.podAntiAff)
      "nodeAffinity" e.nodeAff)
      "securityContext" e.secCtx)
      "priorityClassName" e.prioCN)
      "topologySpreadConstraints" (e.tsc.map convTsc))
      "terminationGracePeriodSeconds" e.tgp

/-- Body applied to the `podTemplate` mapping. -/
def podFn (e : StsExtract) (ptm : List (String × Yaml)) :
    List (String × Yaml) :=
  modMap (orInsv ptm "spec" (.map [])) "spec" (writeSpec e)

/-- The podTemplate write phase on the root mapping. -/
def writePod (e : StsExtract) (m : List (String × Yaml)) :
    List (String × Yaml) :=
  if anyMigrate e then
    modMap (orInsv m "podTemplate" (.map [])) "podTemplate" (podFn e)
  else m

/-- `for (key, value) in new { existing.entry(key).or_insert(value) }`. -/
def orInsAll (ex l : List (String × Yaml)) : List (String × Yaml) :=
  l.foldl (fun acc p => orInsv acc p.1 p.2) ex

/-- Annotation merge into the statefulset `podTemplate` mapping. -/
def writeAnnIntoPt (ann : Yaml) (ptm : List (String × Yaml)) :
    List (String × Yaml) :=
  match getv ptm "annotations" with
  | some (.map ex) =>
    match ann with
    | .map annm => insv ptm "annotations" (.map (orInsAll ex annm))
    | _ => ptm
  | _ => insv ptm "annotations" ann

/-- Body applied to the `statefulset` mapping in the annotations phase. -/
def stsAnnFn (ann : Yaml) (stsm : List (String × Yaml)) :
    List (String × Yaml) :=
  modMap (orInsv stsm "podTemplate" (.map [])) "podTemplate"
    (writeAnnIntoPt ann)

/-- The `statefulset.annotations` migration phase. -/
def writeAnn (e : StsExtract) (m : List (String × Yaml)) :
    List (String × Yaml) :=
  match e.ann with
  | some ann => modMap m "statefulset" (stsAnnFn ann)
  | none => m

/-- `map_statefulset_to_podtemplate` of `main.rs`. -/
def map_statefulset_to_podtemplate (t : Yaml) : Yaml :=
  match t with
  | .map m => .map (writeAnn (extractSts m) (writePod (extractSts m) m))
  | other => other

/-! Basic lemmas for the write combinators. -/

theorem insv_id_of_getv (m : List (String × Yaml)) (k : String) (v : Yaml)
    (h : getv m k = some v) : insv m k v = m := by
  induction m with
  | nil => simp [getv] at h
  | cons p rest ih =>
    obtain ⟨k0, v0⟩ := p
    by_cases h0 : k0 = k
    · simp [getv, h0] at h
      simp [insv, h0, h]
    · simp [getv, h0] at h
      simp [insv, h0, ih h]

theorem orInsv_of_isSome (m : List (String × Yaml)) (k : String) (v : Yaml)
    (h : (getv m k).isSome) : orInsv m k v = m := by
  cases hg : getv m k with
  | none => rw [hg] at h; simp at h
  | some w => exact orInsv_of_getv_some m k v w hg

theorem isSome_getv_of_mem (m : List (String × Yaml)) (k : String) (v : Yaml)
    (h : (k, v) ∈ m) : (getv m k).isSome := by
  induction m with
  | nil => simp at h
  | cons p rest ih =>
    rcases List.mem_cons.mp h with hc | hc
    · subst hc
      simp [getv]
    · obtain ⟨k0, v0⟩ := p
      by_cases h0 : k0 = k
      · simp [getv, h0]
      · simp [getv, h0]
        exact ih hc

theorem isSome_getv_modMap (m : List (String × Yaml)) (k k' : String)
    (f : List (String × Yaml) → List (String × Yaml))
    (h : (getv m k).isSome) : (getv (modMap m k' f) k).isSome := by
  simp only [modMap]
  exact isSome_getv_modv m k k' _ h

theorem getv_orInsOpt_ne (m : List (String × Yaml)) (k k' : String)
    (o : Option Yaml) (h : k' ≠ k) : getv (orInsOpt m k o) k' = getv m k' := by
  cases o with
  | none => rfl
  | some v => exact getv_orInsv_ne m k k' v h

theorem getv_insvOpt_ne (m : List (String × Yaml)) (k k' : String)
    (o : Option Yaml) (h : k' ≠ k) : getv (insvOpt m k o) k' = getv m k' := by
  cases o with
  | none => rfl
  | some v => exact getv_insv_ne m k k' v h

theorem getv_insAffOpt_ne (m : List (String × Yaml)) (k2 k' : String)
    (o : Option Yaml) (h : k' ≠ "affinity") :
    getv (insAffOpt m k2 o) k' = getv m k' := by
  cases o with
  | none => rfl
  | some v =>
    simp only [insAffOpt]
    rw [getv_modMap_ne _ "affinity" k' _ h, getv_orInsv_ne m "affinity" k' _ h]

theorem isSome_getv_orInsOpt (m : List (String × Yaml)) (k k' : String)
    (o : Option Yaml) (h : (getv m k).isSome) :
    (getv (orInsOpt m k' o) k).isSome := by
  cases o with
  | none => exact h
  | some v => exact isSome_getv_orInsv m k k' v h

theorem isSome_getv_insvOpt (m : List (String × Yaml)) (k k' : String)
    (o : Option Yaml) (h : (getv m k).isSome) :
    (getv (insvOpt m k' o) k).isSome := by
  cases o with
  | none => exact h
  | some v => exact isSome_getv_insv m k k' v h

theorem isSome_getv_insAffOpt (m : List (String × Yaml)) (k : String)
    (k2 : String) (o : Option Yaml) (h : (getv m k).isSome) :
    (getv (insAffOpt m k2 o) k).isSome := by
  cases o with
  | none => exact h
  | some v =>
    simp only [insAffOpt]
    apply isSome_getv_modMap
    exact isSome_getv_orInsv m k "affinity" _ h

/-! The affinity-binding invariant tracked through the spec writes. -/

def affFactO (o : Option Yaml) (k2 : String) (v : Yaml) : Prop :=
  o.isSome ∧ ∀ am, o = some (.map am) → getv am k2 = some v

theorem affFactO_getv_insAffOpt_self (m : List (String × Yaml)) (k2 : String)
    (v : Yaml) : affFactO (getv (insAffOpt m k2 (some v)) "affinity") k2 v := by
  constructor
  · simp only [insAffOpt]
    apply isSome_getv_modMap
    rw [getv_orInsv_self]
    rfl
  · intro am ham
    simp only [insAffOpt, modMap, getv_modv_self] at ham
    cases hu : getv (orInsv m "affinity" (.map [])) "affinity" with
    | none => rw [hu] at ham; simp at ham
    | some u0 =>
      rw [hu] at ham
      cases u0 with
      | map am0 =>
        simp at ham
        rw [← ham]
        exact getv_insv_self am0 k2 v
      | null => simp at ham
      | bool b => simp at ham
      | str s => simp at ham
      | int i => simp at ham
      | seq l => simp at ham

theorem affFactO_insAffOpt_other (m : List (String × Yaml)) (k2 k3 : String)
    (v : Yaml) (o : Option Yaml) (hne : k2 ≠ k3)
    (h : affFactO (getv m "affinity") k2 v) :
    affFactO (getv (insAffOpt m k3 o) "affinity") k2 v := by
  cases o with
  | none => exact h
  | some w =>
    obtain ⟨h1, h2⟩ := h
    have horIns : orInsv m "affinity" (.map []) = m := orInsv_of_isSome _ _ _ h1
    simp only [insAffOpt, horIns]
    constructor
    · exact isSome_getv_modMap _ _ _ _ h1
    · intro am ham
      simp only [modMap, getv_modv_self] at ham
      cases hu : getv m "affinity" with
      | none => rw [hu] at ham; simp at ham
      | some u0 =>
        rw [hu] at ham
        cases u0 with
        | map am0 =>
          simp at ham
          rw [← ham, getv_insv_ne am0 k3 k2 w hne]
          exact h2 am0 hu
        | null => simp at ham
        | bool b => simp at ham
        | str s => simp at ham
        | int i => simp at ham
        | seq l => simp at ham

theorem affFactO_insvOpt (m : List (String × Yaml)) (k k2 : String)
    (v : Yaml) (o : Option Yaml) (hk : ("affinity" : String) ≠ k)
    (h : affFactO (getv m "affinity") k2 v) :
    affFactO (getv (insvOpt m k o) "affinity") k2 v := by
  rw [getv_insvOpt_ne m k "affinity" o hk]
  exact h

theorem insAffOpt_id_of_affFactO (s : List (String × Yaml)) (k2 : String)
    (v : Yaml) (h : affFactO (getv s "affinity") k2 v) :
    insAffOpt s k2 (some v) = s := by
  obtain ⟨h1, h2⟩ := h
  simp only [insAffOpt]
  rw [orInsv_of_isSome _ _ _ h1]
  apply modMap_id_of_fix
  intro am ham
  exact insv_id_of_getv am k2 v (h2 am ham)

/-! Per-key facts about the result of `writeSpec`. -/

theorem writeSpec_ns_isSome (e : StsExtract) (s : List (String × Yaml))
    (h : e.rootNs.isSome) : (getv (writeSpec e s) "nodeSelector").isSome := by
  simp only [writeSpec]
  apply isSome_getv_insvOpt
  apply isSome_getv_insvOpt
  apply isSome_getv_insvOpt
  apply isSome_getv_insvOpt
  apply isSome_getv_insAffOpt
  apply isSome_getv_insAffOpt
  apply isSome_getv_insAffOpt
  apply isSome_getv_insvOpt
  apply isSome_getv_insvOpt
  apply isSome_getv_orInsOpt
  apply isSome_getv_orInsOpt
  cases hr : e.rootNs with
  | none => rw [hr] at h; simp at h
  | some v =>
    simp only [orInsOpt]
    rw [getv_orInsv_self]
    rfl

theorem writeSpec_tol_isSome (e : StsExtract) (s : List (String × Yaml))
    (h : e.rootTol.isSome) : (getv (writeSpec e s) "tolerations").isSome := by
  simp only [writeSpec]
  apply isSome_getv_insvOpt
  apply isSome_getv_insvOpt
  apply isSome_getv_insvOpt
  apply isSome_getv_insvOpt
  apply isSome_getv_insAffOpt
  apply isSome_getv_insAffOpt
  apply isSome_getv_insAffOpt
  apply isSome_getv_insvOpt
  apply isSome_getv_insvOpt
  apply isSome_getv_orInsOpt
  cases hr : e.rootTol with
  | none => rw [hr] at h; simp at h
  | some v =>
    simp only [orInsOpt]
    rw [getv_orInsv_self]
    rfl

theorem writeSpec_aff_isSome (e : StsExtract) (s : List (String × Yaml))
    (h : e.rootAff.isSome) : (getv (writeSpec e s) "affinity").isSome := by
  simp only [writeSpec]
  apply isSome_getv_insvOpt
  apply isSome_getv_insvOpt
  apply isSome_getv_insvOpt
  apply isSome_getv_insvOpt
  apply isSome_getv_insAffOpt
  apply isSome_getv_insAffOpt
  apply isSome_getv_insAffOpt
  apply isSome_getv_insvOpt
  apply isSome_getv_insvOpt
  cases hr : e.rootAff with
  | none => rw [hr] at h; simp at h
  | some v =>
    simp only [orInsOpt]
    rw [getv_orInsv_self]
    rfl

theorem writeSpec_ns_eq (e : StsExtract) (s : List (String × Yaml))
    (v : Yaml) (h : e.ns = some v) :
    getv (writeSpec e s) "nodeSelector" = some v := by
  simp only [writeSpec]
  rw [getv_insvOpt_ne _ "terminationGracePeriodSeconds" "nodeSelector" _
        (by decide),
      getv_insvOpt_ne _ "topologySpreadConstraints" "nodeSelector" _
        (by decide),
      getv_insvOpt_ne _ "priorityClassName" "nodeSelector" _ (by decide),
      getv_insvOpt_ne _ "securityContext" "nodeSelector" _ (by decide),
      getv_insAffOpt_ne _ "nodeAffinity" "nodeSelector" _ (by decide),
      getv_insAffOpt_ne _ "podAntiAffinity" "nodeSelector" _ (by decide),
      getv_insAffOpt_ne _ "podAffinity" "nodeSelector" _ (by decide),
      getv_insvOpt_ne _ "tolerations" "nodeSelector" _ (by decide),
      h]
  simp only [insvOpt]
  exact getv_insv_self _ _ _

theorem writeSpec_tol_eq (e : StsExtract) (s : List (String × Yaml))
    (v : Yaml) (h : e.tol = some v) :
    getv (writeSpec e s) "tolerations" = some v := by
  simp only [writeSpec]
  rw [getv_insvOpt_ne _ "terminationGracePeriodSeconds" "tolerations" _
        (by decide),
      getv_insvOpt_ne _ "topologySpreadConstraints" "tolerations" _
        (by decide),
      getv_insvOpt_ne _ "priorityClassName" "tolerations" _ (by decide),
      getv_insvOpt_ne _ "securityContext" "tolerations" _ (by decide),
      getv_insAffOpt_ne _ "nodeAffinity" "tolerations" _ (by decide),
      getv_insAffOpt_ne _ "podAntiAffinity" "tolerations" _ (by decide),
      getv_insAffOpt_ne _ "podAffinity" "tolerations" _ (by decide),
      h]
  simp only [insvOpt]
  exact getv_insv_self _ _ _

theorem writeSpec_sec_eq (e : StsExtract) (s : List (String × Yaml))
    (v : Yaml) (h : e.secCtx = some v) :
    getv (writeSpec e s) "securityContext" = some v := by
  simp only [writeSpec]
  rw [getv_insvOpt_ne _ "terminationGracePeriodSeconds" "securityContext" _
        (by decide),
      getv_insvOpt_ne _ "topologySpreadConstraints" "securityContext" _
        (by decide),
      getv_insvOpt_ne _ "priorityClassName" "securityContext" _ (by decide),
      h]
  simp only [insvOpt]
  exact getv_insv_self _ _ _

theorem writeSpec_prio_eq (e : StsExtract) (s : List (String × Yaml))
    (v : Yaml) (h : e.prioCN = some v) :
    getv (writeSpec e s) "priorityClassName" = some v := by
  simp only [writeSpec]
  rw [getv_insvOpt_ne _ "terminationGracePeriodSeconds" "priorityClassName" _
        (by decide),
      getv_insvOpt_ne _ "topologySpreadConstraints" "priorityClassName" _
        (by decide),
      h]
  simp only [insvOpt]
  exact getv_insv_self _ _ _

theorem writeSpec_tsc_eq (e : StsExtract) (s : List (String × Yaml))
    (v : Yaml) (h : e.tsc = some v) :
    getv (writeSpec e s) "topologySpreadConstraints" =
      some (convTsc v) := by
  simp only [writeSpec]
  rw [getv_insvOpt_ne _ "terminationGracePeriodSeconds"
        "topologySpreadConstraints" _ (by decide),
      h]
  simp only [Option.map_some, insvOpt]
  exact getv_insv_self _ _ _

theorem writeSpec_tgp_eq (e : StsExtract) (s : List (String × Yaml))
    (v : Yaml) (h : e.tgp = some v) :
    getv (writeSpec e s) "terminationGracePeriodSeconds" = some v := by
  simp only [writeSpec]
  rw [h]
  simp only [insvOpt]
  exact getv_insv_self _ _ _

theorem writeSpec_podAff_fact (e : StsExtract) (s : List (String × Yaml))
    (v : Yaml) (h : e.podAff = some v) :
    affFactO (getv (writeSpec e s) "affinity") "podAffinity" v := by
  simp only [writeSpec]
  refine affFactO_insvOpt _ _ _ _ _ (by decide) ?_
  refine affFactO_insvOpt _ _ _ _ _ (by decide) ?_
  refine affFactO_insvOpt _ _ _ _ _ (by decide) ?_
  refine affFactO_insvOpt _ _ _ _ _ (by decide) ?_
  refine affFactO_insAffOpt_other _ _ _ _ _ (by decide) ?_
  refine affFactO_insAffOpt_other _ _ _ _ _ (by decide) ?_
  rw [h]
  exact affFactO_getv_insAffOpt_self _ _ _

theorem writeSpec_podAntiAff_fact (e : StsExtract) (s : List (String × Yaml))
    (v : Yaml) (h : e.podAntiAff = some v) :
    affFactO (getv (writeSpec e s) "affinity") "podAntiAffinity" v := by
  simp only [writeSpec]
  refine affFactO_insvOpt _ _ _ _ _ (by decide) ?_
  refine affFactO_insvOpt _ _ _ _ _ (by decide) ?_
  refine affFactO_insvOpt _ _ _ _ _ (by decide) ?_
  refine affFactO_insvOpt _ _ _ _ _ (by decide) ?_
  refine affFactO_insAffOpt_other _ _ _ _ _ (by decide) ?_
  rw [h]
  exact affFactO_getv_insAffOpt_self _ _ _

theorem writeSpec_nodeAff_fact (e : StsExtract) (s : List (String × Yaml))
    (v : Yaml) (h : e.nodeAff = some v) :
    affFactO (getv (writeSpec e s) "affinity") "nodeAffinity" v := by
  simp only [writeSpec]
  refine affFactO_insvOpt _ _ _ _ _ (by decide) ?_
  refine affFactO_insvOpt _ _ _ _ _ (by decide) ?_
  refine affFactO_insvOpt _ _ _ _ _ (by decide) ?_
  refine affFactO_insvOpt _ _ _ _ _ (by decide) ?_
  rw [h]
  exact affFactO_getv_insAffOpt_self _ _ _

/-! Idempotence of `writeSpec`, then of both write phases. -/

theorem writeSpec_idem (e : StsExtract) (s : List (String × Yaml)) :
    writeSpec e (writeSpec e s) = writeSpec e s := by
  have ha : orInsOpt (writeSpec e s) "nodeSelector" e.rootNs =
      writeSpec e s := by
    cases hr : e.rootNs with
    | none => rfl
    | some v =>
      simp only [orInsOpt]
      exact orInsv_of_isSome _ _ _ (writeSpec_ns_isSome e s (by rw [hr]; rfl))
  have hb : orInsOpt (writeSpec e s) "tolerations" e.rootTol =
      writeSpec e s := by
    cases hr : e.rootTol with
    | none => rfl
    | some v =>
      simp only [orInsOpt]
      exact orInsv_of_isSome _ _ _ (writeSpec_tol_isSome e s (by rw [hr]; rfl))
  have hc : orInsOpt (writeSpec e s) "affinity" e.rootAff =
      writeSpec e s := by
    cases hr : e.rootAff with
    | none => rfl
    | some v =>
      simp only [orInsOpt]
      exact orInsv_of_isSome _ _ _ (writeSpec_aff_isSome e s (by rw [hr]; rfl))
  have hd : insvOpt (writeSpec e s) "nodeSelector" e.ns = writeSpec e s := by
    cases hr : e.ns with
    | none => rfl
    | some v =>
      simp only [insvOpt]
      exact insv_id_of_getv _ _ _ (writeSpec_ns_eq e s v hr)
  have he : insvOpt (writeSpec e s) "tolerations" e.tol = writeSpec e s := by
    cases hr : e.tol with
    | none => rfl
    | some v =>
      simp only [insvOpt]
      exact insv_id_of_getv _ _ _ (writeSpec_tol_eq e s v hr)
  have hf : insAffOpt (writeSpec e s) "podAffinity" e.podAff =
      writeSpec e s := by
    cases hr : e.podAff with
    | none => rfl
    | some v =>
      exact insAffOpt_id_of_affFactO _ _ _ (writeSpec_podAff_fact e s v hr)
  have hg : insAffOpt (writeSpec e s) "podAntiAffinity" e.podAntiAff =
      writeSpec e s := by
    cases hr : e.podAntiAff with
    | none => rfl
    | some v =>
      exact insAffOpt_id_of_affFactO _ _ _ (writeSpec_podAntiAff_fact e s v hr)
  have hh : insAffOpt (writeSpec e s) "nodeAffinity" e.nodeAff =
      writeSpec e s := by
    cases hr : e.nodeAff with
    | none => rfl
    | some v =>
      exact insAffOpt_id_of_affFactO _ _ _ (writeSpec_nodeAff_fact e s v hr)
  have hi : insvOpt (writeSpec e s) "securityContext" e.secCtx =
      writeSpec e s := by
    cases hr : e.secCtx with
    | none => rfl
    | some v =>
      simp only [insvOpt]
      exact insv_id_of_getv _ _ _ (writeSpec_sec_eq e s v hr)
  have hj : insvOpt (writeSpec e s) "priorityClassName" e.prioCN =
      writeSpec e s := by
    cases hr : e.prioCN with
    | none => rfl
    | some v =>
      simp only [insvOpt]
      exact insv_id_of_getv _ _ _ (writeSpec_prio_eq e s v hr)
  have hk : insvOpt (writeSpec e s) "topologySpreadConstraints"
      (e.tsc.map convTsc) = writeSpec e s := by
    cases hr : e.tsc with
    | none => rfl
    | some v =>
      simp only [Option.map_some, insvOpt]
      exact insv_id_of_getv _ _ _ (writeSpec_tsc_eq e s v hr)
  have hl : insvOpt (writeSpec e s) "terminationGracePeriodSeconds" e.tgp =
      writeSpec e s := by
    cases hr : e.tgp with
    | none => rfl
    | some v =>
      simp only [insvOpt]
      exact insv_id_of_getv _ _ _ (writeSpec_tgp_eq e s v hr)
  calc writeSpec e (writeSpec e s)
      = insvOpt (insvOpt (insvOpt (insvOpt (insAffOpt (insAffOpt (insAffOpt
          (insvOpt (insvOpt (orInsOpt (orInsOpt (orInsOpt (writeSpec e s)
            "nodeSelector" e.rootNs)
            "tolerations" e.rootTol)
            "affinity" e.rootAff)
            "nodeSelector" e.ns)
            "tolerations" e.tol)
            "podAffinity" e.podAff)
            "podAntiAffinity" e.podAntiAff)
            "nodeAffinity" e.nodeAff)
            "securityContext" e.secCtx)
            "priorityClassName" e.prioCN)
            "topologySpreadConstraints" (e.tsc.map convTsc))
            "terminationGracePeriodSeconds" e.tgp := rfl
    _ = writeSpec e s := by
        rw [ha, hb, hc, hd, he, hf, hg, hh, hi, hj, hk, hl]

theorem podFn_idem (e : StsExtract) (ptm : List (String × Yaml)) :
    podFn e (podFn e ptm) = podFn e ptm := by
  have h1 : (getv (podFn e ptm) "spec").isSome := by
    simp only [podFn]
    apply isSome_getv_modMap
    rw [getv_orInsv_self]
    rfl
  calc podFn e (podFn e ptm)
      = modMap (orInsv (podFn e ptm) "spec" (.map [])) "spec"
          (writeSpec e) := rfl
    _ = modMap (podFn e ptm) "spec" (writeSpec e) := by
        rw [orInsv_of_isSome _ _ _ h1]
    _ = podFn e ptm := by
        apply modMap_id_of_getv_modMap (podFn e ptm)
          (orInsv ptm "spec" (.map [])) "spec" (writeSpec e) (writeSpec_idem e)
        rfl

/-! Stability of the extraction and of the annotation phase. -/

theorem getv_writePod_ne (e : StsExtract) (m : List (String × Yaml))
    (k : String) (h : ¬k = "podTemplate") :
    getv (writePod e m) k = getv m k := by
  cases hmig : anyMigrate e
  · simp [writePod, hmig]
  · simp only [writePod, hmig, if_true]
    rw [getv_modMap_ne _ "podTemplate" k _ h,
        getv_orInsv_ne m "podTemplate" k _ h]

theorem getv_writeAnn_ne (e : StsExtract) (m : List (String × Yaml))
    (k : String) (h : ¬k = "statefulset") :
    getv (writeAnn e m) k = getv m k := by
  cases hann : e.ann with
  | none => simp only [writeAnn, hann]
  | some ann =>
    simp only [writeAnn, hann]
    exact getv_modMap_ne _ "statefulset" k _ h

theorem stsOf_writePod (e : StsExtract) (m : List (String × Yaml)) :
    stsOf (writePod e m) = stsOf m := by
  simp only [stsOf]
  rw [getv_writePod_ne e m "statefulset" (by decide)]

theorem getv_modMap_self (m : List (String × Yaml)) (k : String)
    (f : List (String × Yaml) → List (String × Yaml)) :
    getv (modMap m k f) k = Option.map (fun v => match v with
      | Yaml.map x => Yaml.map (f x)
      | other => other) (getv m k) := by
  simp [modMap, getv_modv_self]

theorem getv_stsOf_writeAnn (e : StsExtract) (m : List (String × Yaml))
    (k : String) (hk : ¬k = "podTemplate") :
    getv (stsOf (writeAnn e m)) k = getv (stsOf m) k := by
  cases hann : e.ann with
  | none => simp only [writeAnn, hann]
  | some ann =>
    simp only [writeAnn, hann, stsOf, getv_modMap_self]
    cases hs : getv m "statefulset" with
    | none => rfl
    | some sv =>
      cases sv with
      | map sm =>
        show getv (stsAnnFn ann sm) k = getv sm k
        simp only [stsAnnFn]
        rw [getv_modMap_ne _ "podTemplate" k _ hk,
            getv_orInsv_ne sm "podTemplate" k _ hk]
      | null => rfl
      | bool b => rfl
      | str s => rfl
      | int i => rfl
      | seq l => rfl

theorem extractSts_congr (m1 m : List (String × Yaml))
    (hg : ∀ k, ¬k = "statefulset" → ¬k = "podTemplate" →
      getv m1 k = getv m k)
    (hs : ∀ k, ¬k = "podTemplate" → getv (stsOf m1) k = getv (stsOf m) k) :
    extractSts m1 = extractSts m := by
  simp only [extractSts, getIfB]
  rw [hg "nodeSelector" (by decide) (by decide),
      hg "tolerations" (by decide) (by decide),
      hg "affinity" (by decide) (by decide),
      hs "nodeSelector" (by decide),
      hs "tolerations" (by decide),
      hs "podAffinity" (by decide),
      hs "podAntiAffinity" (by decide),
      hs "nodeAffinity" (by decide),
      hs "securityContext" (by decide),
      hs "priorityClassName" (by decide),
      hs "topologySpreadConstraints" (by decide),
      hs "terminationGracePeriodSeconds" (by decide),
      hs "annotations" (by decide)]

theorem extractSts_stable (m : List (String × Yaml)) :
    extractSts (writeAnn (extractSts m) (writePod (extractSts m) m)) =
      extractSts m :=
  extractSts_congr _ m
    (fun k h1 h2 => by
      rw [getv_writeAnn_ne _ _ _ h1, getv_writePod_ne _ _ _ h2])
    (fun k hk => by
      rw [getv_stsOf_writeAnn _ _ _ hk, stsOf_writePod])

/-! Idempotence of the annotation merge. -/

theorem isSome_getv_orInsAll (ex l : List (String × Yaml)) (k : String)
    (h : (getv ex k).isSome) : (getv (orInsAll ex l) k).isSome := by
  induction l generalizing ex with
  | nil => exact h
  | cons p rest ih =>
    simp only [orInsAll, List.foldl_cons]
    exact ih _ (isSome_getv_orInsv _ _ _ _ h)

theorem isSome_getv_orInsAll_mem (ex l : List (String × Yaml))
    (p : String × Yaml) (h : p ∈ l) :
    (getv (orInsAll ex l) p.1).isSome := by
  induction l generalizing ex with
  | nil => simp at h
  | cons q rest ih =>
    simp only [orInsAll, List.foldl_cons]
    rcases List.mem_cons.mp h with hc | hc
    · subst hc
      apply isSome_getv_orInsAll
      rw [getv_orInsv_self]
      rfl
    · exact ih _ hc

theorem orInsAll_id_of_present (ex l : List (String × Yaml))
    (h : ∀ p ∈ l, (getv ex p.1).isSome) : orInsAll ex l = ex := by
  induction l generalizing ex with
  | nil => rfl
  | cons q rest ih =>
    simp only [orInsAll, List.foldl_cons]
    rw [orInsv_of_isSome _ _ _ (h q (by simp))]
    exact ih _ (fun p hp => h p (by simp [hp]))

theorem orInsAll_absorb (ex l : List (String × Yaml)) :
    orInsAll (orInsAll ex l) l = orInsAll ex l :=
  orInsAll_id_of_present _ _ (fun p hp => isSome_getv_orInsAll_mem ex l p hp)

theorem orInsAll_self (l : List (String × Yaml)) : orInsAll l l = l :=
  orInsAll_id_of_present _ _ (fun p hp => isSome_getv_of_mem _ _ p.2 hp)

theorem writeAnnIntoPt_idem (ann : Yaml) (ptm : List (String × Yaml)) :
    writeAnnIntoPt ann (writeAnnIntoPt ann ptm) = writeAnnIntoPt ann ptm := by
  cases hga : getv ptm "annotations" with
  | some av =>
    cases av with
    | map ex =>
      cases ann with
      | map annm =>
        have h1 : writeAnnIntoPt (.map annm) ptm =
            insv ptm "annotations" (.map (orInsAll ex annm)) := by
          simp [writeAnnIntoPt, hga]
        rw [h1]
        have h2 : getv (insv ptm "annotations" (.map (orInsAll ex annm)))
            "annotations" = some (.map (orInsAll ex annm)) :=
          getv_insv_self _ _ _
        simp only [writeAnnIntoPt, h2, orInsAll_absorb, insv_insv_same]
      | null =>
        have h1 : writeAnnIntoPt .null ptm = ptm := by
          simp [writeAnnIntoPt, hga]
        rw [h1, h1]
      | bool b =>
        have h1 : writeAnnIntoPt (.bool b) ptm = ptm := by
          simp [writeAnnIntoPt, hga]
        rw [h1, h1]
      | str s =>
        have h1 : writeAnnIntoPt (.str s) ptm = ptm := by
          simp [writeAnnIntoPt, hga]
        rw [h1, h1]
      | int i =>
        have h1 : writeAnnIntoPt (.int i) ptm = ptm := by
          simp [writeAnnIntoPt, hga]
        rw [h1, h1]
      | seq l =>
        have h1 : writeAnnIntoPt (.seq l) ptm = ptm := by
          simp [writeAnnIntoPt, hga]
        rw [h1, h1]
    | null =>
      have h1 : writeAnnIntoPt ann ptm = insv ptm "annotations" ann := by
        simp [writeAnnIntoPt, hga]
      rw [h1]
      have h2 : getv (insv ptm "annotations" ann) "annotations" = some ann :=
        getv_insv_self _ _ _
      cases ann with
      | map annm =>
        simp only [writeAnnIntoPt, h2, orInsAll_self, insv_insv_same]
      | null => simp only [writeAnnIntoPt, h2, insv_insv_same]
      | bool b => simp only [writeAnnIntoPt, h2, insv_insv_same]
      | str s => simp only [writeAnnIntoPt, h2, insv_insv_same]
      | int i => simp only [writeAnnIntoPt, h2, insv_insv_same]
      | seq l2 => simp only [writeAnnIntoPt, h2, insv_insv_same]
    | bool b0 =>
      have h1 : writeAnnIntoPt ann ptm = insv ptm "annotations" ann := by
        simp [writeAnnIntoPt, hga]
      rw [h1]
      have h2 : getv (insv ptm "annotations" ann) "annotations" = some ann :=
        getv_insv_self _ _ _
      cases ann with
      | map annm =>
        simp only [writeAnnIntoPt, h2, orInsAll_self, insv_insv_same]
      | null => simp only [writeAnnIntoPt, h2, insv_insv_same]
      | bool b => simp only [writeAnnIntoPt, h2, insv_insv_same]
      | str s => simp only [writeAnnIntoPt, h2, insv_insv_same]
      | int i => simp only [writeAnnIntoPt, h2, insv_insv_same]
      | seq l2 => simp only [writeAnnIntoPt, h2, insv_insv_same]
    | str s0 =>
      have h1 : writeAnnIntoPt ann ptm = insv ptm "annotations" ann := by
        simp [writeAnnIntoPt, hga]
      rw [h1]
      have h2 : getv (insv ptm "annotations" ann) "annotations" = some ann :=
        getv_insv_self _ _ _
      cases ann with
      | map annm =>
        simp only [writeAnnIntoPt, h2, orInsAll_self, insv_insv_same]
      | null => simp only [writeAnnIntoPt, h2, insv_insv_same]
      | bool b => simp only [writeAnnIntoPt, h2, insv_insv_same]
      | str s => simp only [writeAnnIntoPt, h2, insv_insv_same]
      | int i => simp only [writeAnnIntoPt, h2, insv_insv_same]
      | seq l2 => simp only [writeAnnIntoPt, h2, insv_insv_same]
    | int i0 =>
      have h1 : writeAnnIntoPt ann ptm = insv ptm "annotations" ann := by
        simp [writeAnnIntoPt, hga]
      rw [h1]
      have h2 : getv (insv ptm "annotations" ann) "annotations" = some ann :=
        getv_insv_self _ _ _
      cases ann with
      | map annm =>
        simp only [writeAnnIntoPt, h2, orInsAll_self, insv_insv_same]
      | null => simp only [writeAnnIntoPt, h2, insv_insv_same]
      | bool b => simp only [writeAnnIntoPt, h2, insv_insv_same]
      | str s => simp only [writeAnnIntoPt, h2, insv_insv_same]
      | int i => simp only [writeAnnIntoPt, h2, insv_insv_same]
      | seq l2 => simp only [writeAnnIntoPt, h2, insv_insv_same]
    | seq l0 =>
      have h1 : writeAnnIntoPt ann ptm = insv ptm "annotations" ann := by
        simp [writeAnnIntoPt, hga]
      rw [h1]
      have h2 : getv (insv ptm "annotations" ann) "annotations" = some ann :=
        getv_insv_self _ _ _
      cases ann with
      | map annm =>
        simp only [writeAnnIntoPt, h2, orInsAll_self, insv_insv_same]
      | null => simp only [writeAnnIntoPt, h2, insv_insv_same]
      | bool b => simp only [writeAnnIntoPt, h2, insv_insv_same]
      | str s => simp only [writeAnnIntoPt, h2, insv_insv_same]
      | int i => simp only [writeAnnIntoPt, h2, insv_insv_same]
      | seq l2 => simp only [writeAnnIntoPt, h2, insv_insv_same]
  | none =>
    have h1 : writeAnnIntoPt ann ptm = insv ptm "annotations" ann := by
      simp [writeAnnIntoPt, hga]
    rw [h1]
    have h2 : getv (insv ptm "annotations" ann) "annotations" = some ann :=
      getv_insv_self _ _ _
    cases ann with
    | map annm =>
      simp only [writeAnnIntoPt, h2, orInsAll_self, insv_insv_same]
    | null => simp only [writeAnnIntoPt, h2, insv_insv_same]
    | bool b => simp only [writeAnnIntoPt, h2, insv_insv_same]
    | str s => simp only [writeAnnIntoPt, h2, insv_insv_same]
    | int i => simp only [writeAnnIntoPt, h2, insv_insv_same]
    | seq l2 => simp only [writeAnnIntoPt, h2, insv_insv_same]

theorem stsAnnFn_idem (ann : Yaml) (stsm : List (String × Yaml)) :
    stsAnnFn ann (stsAnnFn ann stsm) = stsAnnFn ann stsm := by
  have h1 : (getv (stsAnnFn ann stsm) "podTemplate").isSome := by
    simp only [stsAnnFn]
    apply isSome_getv_modMap
    rw [getv_orInsv_self]
    rfl
  calc stsAnnFn ann (stsAnnFn ann stsm)
      = modMap (orInsv (stsAnnFn ann stsm) "podTemplate" (.map []))
          "podTemplate" (writeAnnIntoPt ann) := rfl
    _ = modMap (stsAnnFn ann stsm) "podTemplate" (writeAnnIntoPt ann) := by
        rw [orInsv_of_isSome _ _ _ h1]
    _ = stsAnnFn ann stsm := by
        apply modMap_id_of_getv_modMap (stsAnnFn ann stsm)
          (orInsv stsm "podTemplate" (.map [])) "podTemplate"
          (writeAnnIntoPt ann) (writeAnnIntoPt_idem ann)
        rfl

theorem writeAnn_writeAnn (e : StsExtract) (m : List (String × Yaml)) :
    writeAnn e (writeAnn e m) = writeAnn e m := by
  cases hann : e.ann with
  | none => simp only [writeAnn, hann]
  | some ann =>
    simp only [writeAnn, hann]
    exact modMap_modMap_idem_of m "statefulset" (stsAnnFn ann)
      (stsAnnFn_idem ann)

theorem writePod_writeAnn (e : StsExtract) (m : List (String × Yaml)) :
    writePod e (writeAnn e (writePod e m)) = writeAnn e (writePod e m) := by
  cases hmig : anyMigrate e
  · simp [writePod, hmig]
  · have hps : (getv (writeAnn e (writePod e m)) "podTemplate").isSome := by
      rw [getv_writeAnn_ne e _ "podTemplate" (by decide)]
      simp only [writePod, hmig, if_true]
      apply isSome_getv_modMap
      rw [getv_orInsv_self]
      rfl
    calc writePod e (writeAnn e (writePod e m))
        = modMap (orInsv (writeAnn e (writePod e m)) "podTemplate" (.map []))
            "podTemplate" (podFn e) := by
          simp [writePod, hmig]
      _ = modMap (writeAnn e (writePod e m)) "podTemplate" (podFn e) := by
          rw [orInsv_of_isSome _ _ _ hps]
      _ = writeAnn e (writePod e m) := by
          apply modMap_id_of_getv_modMap _
            (orInsv m "podTemplate" (.map [])) "podTemplate" (podFn e)
            (podFn_idem e)
          rw [getv_writeAnn_ne e _ "podTemplate" (by decide)]
          simp [writePod, hmig]

theorem map_statefulset_to_podtemplate_idem (t : Yaml) :
    map_statefulset_to_podtemplate (map_statefulset_to_podtemplate t) =
      map_statefulset_to_podtemplate t := by
  cases t with
  | map m =>
    simp only [map_statefulset_to_podtemplate]
    rw [extractSts_stable, writePod_writeAnn, writeAnn_writeAnn]
  | null => rfl
  | bool b => rfl
  | str s => rfl
  | int i => rfl
  | seq l => rfl

/-! ### `rename_nested_keys` of `main.rs`

The pass recurses into every mapping value first (sequences are not
entered), then applies six local rewrites to the current mapping:
resource-format conversion, the `tieredConfig` move, the two
`tieredStorage*` renames, the `license_secret_ref` move, and the
`license_key` move. -/

/-- `resources.cpu.cores` extraction. -/
def cpuOf (rm : List (String × Yaml)) : Option Yaml :=
  match getv rm "cpu" with
  | some (.map cm) => getv cm "cores"
  | _ => none

/-- `resources.memory.container.max` extraction. -/
def memOf (rm : List (String × Yaml)) : Option Yaml :=
  match getv rm "memory" with
  | some (.map mm) =>
    match getv mm "container" with
    | some (.map ctm) => getv ctm "max"
    | _ => none
  | _ => none

/-- The requests mapping built from the extracted values (the limits
mapping is built identically). -/
def reqMap (rm : List (String × Yaml)) : List (String × Yaml) :=
  (match cpuOf rm with
   | some c => [("cpu", c)]
   | none => []) ++
  (match memOf rm with
   | some mv => [("memory", mv)]
   | none => [])

/-- Resource-format conversion: add matching `requests` / `limits` when
`resources.cpu.cores` or `resources.memory.container.max` is present. -/
def step1 (m : List (String × Yaml)) : List (String × Yaml) :=
  match getv m "resources" with
  | some (.map rm) =>
    if (cpuOf rm).isSome || (memOf rm).isSome then
      modMap m "resources" (fun rm2 =>
        insv (insv rm2 "requests" (.map (reqMap rm))) "limits"
          (.map (reqMap rm)))
    else m
  | _ => m

/-- `tieredConfig` keys move to `tiered.config` (a non-mapping
`tieredConfig` is removed and dropped). -/
def step2 (m : List (String × Yaml)) : List (String × Yaml) :=
  match getv m "tieredConfig" with
  | none => m
  | some (.map tcm) =>
    match getv (remv m "tieredConfig") "tiered" with
    | some (.map _) =>
      modMap (remv m "tieredConfig") "tiered" (fun tm =>
        modMap (orInsv tm "config" (.map [])) "config"
          (fun cfg => insAll cfg tcm))
    | _ =>
      insv (remv m "tieredConfig") "tiered"
        (.map [("config", .map (insAll [] tcm))])
  | some _ => remv m "tieredConfig"

/-- `tieredStorageHostPath` → `tiered.hostPath` (dropped when `tiered`
is absent or not a mapping). -/
def step3 (m : List (String × Yaml)) : List (String × Yaml) :=
  match getv m "tieredStorageHostPath" with
  | some v =>
    modMap (remv m "tieredStorageHostPath") "tiered"
      (fun tm => insv tm "hostPath" v)
  | none => m

/-- `tieredStoragePersistentVolume` → `tiered.persistentVolume`. -/
def step4 (m : List (String × Yaml)) : List (String × Yaml) :=
  match getv m "tieredStoragePersistentVolume" with
  | some v =>
    modMap (remv m "tieredStoragePersistentVolume") "tiered"
      (fun tm => insv tm "persistentVolume" v)
  | none => m

/-- The `secret_name` → `name` and `secret_key` → `key` renames applied
inside the removed `license_secret_ref` mapping. -/
def renameLsr (lsm : List (String × Yaml)) : List (String × Yaml) :=
  let l1 := match getv lsm "secret_name" with
    | some sn => insv (remv lsm "secret_name") "name" sn
    | none => lsm
  match getv l1 "secret_key" with
  | some sk => insv (remv l1 "secret_key") "key" sk
  | none => l1

/-- `license_secret_ref` → `enterprise.licenseSecretRef` with the inner
renames (a non-mapping value is removed and dropped). -/
def step5 (m : List (String × Yaml)) : List (String × Yaml) :=
  match getv m "license_secret_ref" with
  | some (.map lsm) =>
    modMap (orInsv (remv m "license_secret_ref") "enterprise" (.map []))
      "enterprise" (fun em => insv em "licenseSecretRef" (.map (renameLsr lsm)))
  | some _ => remv m "license_secret_ref"
  | none => m

/-- `license_key` → `enterprise.license`. -/
def step6 (m : List (String × Yaml)) : List (String × Yaml) :=
  match getv m "license_key" with
  | some lk =>
    modMap (orInsv (remv m "license_key") "enterprise" (.map []))
      "enterprise" (fun em => insv em "license" lk)
  | none => m

/-- The local (single-level) part of `rename_nested_keys`. -/
def localRename (m : List (String × Yaml)) : List (String × Yaml) :=
  step6 (step5 (step4 (step3 (step2 (step1 m)))))

mutual

/-- `rename_nested_keys` of `main.rs`: recurse into mapping values,
then rewrite the current mapping. -/
def rename_nested_keys : Yaml → Yaml
  | .map m => .map (localRename (renamePairs m))
  | other => other
termination_by t => sizeOf t
decreasing_by all_goals (simp_wf; try omega)

/-- The `for (_, v) in map.iter_mut { rename_nested_keys(v) }` loop. -/
def renamePairs : List (String × Yaml) → List (String × Yaml)
  | [] => []
  | (k, v) :: rest => (k, rename_nested_keys v) :: renamePairs rest
termination_by l => sizeOf l
decreasing_by all_goals (simp_wf; try omega)

end

mutual

/-- A tree is processed when every mapping reachable through mapping
values has pairwise-distinct keys and is fixed by `localRename`. -/
def Proc : Yaml → Prop
  | .map m => (keysOf m).Nodup ∧ localRename m = m ∧ ProcPairs m
  | _ => True
termination_by t => sizeOf t
decreasing_by all_goals (simp_wf; try omega)

/-- `Proc` for every value of an entry list. -/
def ProcPairs : List (String × Yaml) → Prop
  | [] => True
  | (_, v) :: rest => Proc v ∧ ProcPairs rest
termination_by l => sizeOf l
decreasing_by all_goals (simp_wf; try omega)

end

/-! Membership and key-distinctness preservation for the map operations. -/

theorem mem_insv (m : List (String × Yaml)) (k : String) (v : Yaml)
    (q : String × Yaml) (h : q ∈ insv m k v) : q ∈ m ∨ q = (k, v) := by
  induction m with
  | nil =>
    simp [insv] at h
    exact Or.inr h
  | cons p rest ih =>
    obtain ⟨k0, v0⟩ := p
    by_cases h0 : k0 = k
    · simp [insv, h0] at h
      rcases h with h | h
      · exact Or.inr (by simp [h, h0])
      · exact Or.inl (by simp [h])
    · simp [insv, h0] at h
      rcases h with h | h
      · exact Or.inl (by simp [h])
      · rcases ih h with h2 | h2
        · exact Or.inl (by simp [h2])
        · exact Or.inr h2

theorem mem_remv (m : List (String × Yaml)) (k : String)
    (q : String × Yaml) (h : q ∈ remv m k) : q ∈ m := by
  induction m with
  | nil => simp [remv] at h
  | cons p rest ih =>
    obtain ⟨k0, v0⟩ := p
    by_cases h0 : k0 = k
    · simp [remv, h0] at h
      exact List.mem_cons_of_mem _ (ih h)
    · simp [remv, h0] at h
      rcases h with h | h
      · exact List.mem_cons.mpr (Or.inl (by simp [h]))
      · exact List.mem_cons_of_mem _ (ih h)

theorem mem_orInsv (m : List (String × Yaml)) (k : String) (v : Yaml)
    (q : String × Yaml) (h : q ∈ orInsv m k v) : q ∈ m ∨ q = (k, v) := by
  simp only [orInsv] at h
  cases hg : getv m k with
  | some w =>
    rw [hg] at h
    exact Or.inl h
  | none =>
    rw [hg] at h
    rcases List.mem_append.mp h with h2 | h2
    · exact Or.inl h2
    · simp at h2
      exact Or.inr (by simp [h2])

theorem mem_insAll (a l : List (String × Yaml)) (q : String × Yaml)
    (h : q ∈ insAll a l) : q ∈ a ∨ q ∈ l := by
  induction l generalizing a with
  | nil => exact Or.inl h
  | cons p rest ih =>
    simp only [insAll, List.foldl_cons] at h
    rcases ih _ h with h2 | h2
    · rcases mem_insv _ _ _ _ h2 with h3 | h3
      · exact Or.inl h3
      · exact Or.inr (by simp [h3])
    · exact Or.inr (by simp [h2])

theorem keysOf_modv (m : List (String × Yaml)) (k : String) (f : Yaml → Yaml) :
    keysOf (modv m k f) = keysOf m := by
  induction m with
  | nil => rfl
  | cons p rest ih =>
    obtain ⟨k0, v0⟩ := p
    by_cases h0 : k0 = k
    · simp [modv, keysOf, h0]
    · simp only [modv, h0, if_false, keysOf, List.map_cons]
      simpa [keysOf] using ih

theorem keysOf_renamePairs (m : List (String × Yaml)) :
    keysOf (renamePairs m) = keysOf m := by
  induction m with
  | nil => simp [renamePairs]
  | cons p rest ih =>
    obtain ⟨k0, v0⟩ := p
    simp only [renamePairs, keysOf, List.map_cons]
    simpa [keysOf] using ih

theorem mem_keys_insv (m : List (String × Yaml)) (k : String) (v : Yaml)
    (k' : String) (h : k' ∈ keysOf (insv m k v)) :
    k' ∈ keysOf m ∨ k' = k := by
  simp only [keysOf, List.mem_map] at h
  obtain ⟨q, hq, hk⟩ := h
  rcases mem_insv _ _ _ _ hq with h2 | h2
  · exact Or.inl (List.mem_map.mpr ⟨q, h2, hk⟩)
  · subst h2
    exact Or.inr hk.symm

theorem nodup_insv (m : List (String × Yaml)) (k : String) (v : Yaml)
    (h : (keysOf m).Nodup) : (keysOf (insv m k v)).Nodup := by
  induction m with
  | nil => simp [insv, keysOf]
  | cons p rest ih =>
    obtain ⟨k0, v0⟩ := p
    have h2 : (k0 :: keysOf rest).Nodup := by simpa [keysOf] using h
    obtain ⟨hnot, hrest⟩ := List.nodup_cons.mp h2
    by_cases h0 : k0 = k
    · simpa [insv, h0, keysOf] using h2
    · have := ih hrest
      simp only [insv, h0, if_false, keysOf, List.map_cons]
      refine List.nodup_cons.mpr ⟨?_, by simpa [keysOf] using this⟩
      intro hmem
      rcases mem_keys_insv rest k v k0 (by simpa [keysOf] using hmem)
        with h3 | h3
      · exact hnot h3
      · exact h0 h3

theorem mem_keys_remv (m : List (String × Yaml)) (k : String) (k' : String)
    (h : k' ∈ keysOf (remv m k)) : k' ∈ keysOf m := by
  simp only [keysOf, List.mem_map] at h ⊢
  obtain ⟨q, hq, hk⟩ := h
  exact ⟨q, mem_remv _ _ _ hq, hk⟩

theorem nodup_remv (m : List (String × Yaml)) (k : String)
    (h : (keysOf m).Nodup) : (keysOf (remv m k)).Nodup := by
  induction m with
  | nil => simp [remv, keysOf]
  | cons p rest ih =>
    obtain ⟨k0, v0⟩ := p
    have h2 : (k0 :: keysOf rest).Nodup := by simpa [keysOf] using h
    obtain ⟨hnot, hrest⟩ := List.nodup_cons.mp h2
    by_cases h0 : k0 = k
    · simpa [remv, h0] using ih hrest
    · simp only [remv, h0, if_false, keysOf, List.map_cons]
      refine List.nodup_cons.mpr ⟨?_, by simpa [keysOf] using ih hrest⟩
      intro hmem
      exact hnot (mem_keys_remv rest k k0 (by simpa [keysOf] using hmem))

theorem nodup_orInsv (m : List (String × Yaml)) (k : String) (v : Yaml)
    (h : (keysOf m).Nodup) : (keysOf (orInsv m k v)).Nodup := by
  simp only [orInsv]
  cases hg : getv m k with
  | some w => exact h
  | none =>
    have hnot : ¬k ∈ keysOf m := by
      intro hmem
      simp only [keysOf, List.mem_map] at hmem
      obtain ⟨q, hq, hk⟩ := hmem
      have := getv_eq_none_iff m k |>.mp hg q hq
      exact this hk
    simp only [keysOf, List.map_append, List.map_cons, List.map_nil]
    rw [List.nodup_append]
    refine ⟨h, List.nodup_singleton k, ?_⟩
    intro a ha hb
    simp at hb
    subst hb
    exact hnot ha

theorem nodup_insAll (a l : List (String × Yaml))
    (h : (keysOf a).Nodup) : (keysOf (insAll a l)).Nodup := by
  induction l generalizing a with
  | nil => exact h
  | cons p rest ih =>
    simp only [insAll, List.foldl_cons]
    exact ih _ (nodup_insv a p.1 p.2 h)

/-! `Proc` preservation for the map operations. -/

theorem ProcPairs_mem (m : List (String × Yaml)) (k : String) (v : Yaml)
    (hp : ProcPairs m) (h : (k, v) ∈ m) : Proc v := by
  induction m with
  | nil => simp at h
  | cons p rest ih =>
    obtain ⟨k0, v0⟩ := p
    simp only [ProcPairs] at hp
    rcases List.mem_cons.mp h with hc | hc
    · cases hc
      exact hp.1
    · exact ih hp.2 hc

theorem ProcPairs_getv (m : List (String × Yaml)) (k : String) (v : Yaml)
    (hp : ProcPairs m) (h : getv m k = some v) : Proc v :=
  ProcPairs_mem m k v hp (getv_mem m k v h)

theorem ProcPairs_insv (m : List (String × Yaml)) (k : String) (v : Yaml)
    (hp : ProcPairs m) (hv : Proc v) : ProcPairs (insv m k v) := by
  induction m with
  | nil =>
    simp only [insv, ProcPairs]
    exact ⟨hv, trivial⟩
  | cons p rest ih =>
    obtain ⟨k0, v0⟩ := p
    simp only [ProcPairs] at hp
    by_cases h0 : k0 = k
    · simp only [insv, h0, if_true, ProcPairs]
      exact ⟨hv, hp.2⟩
    · simp only [insv, h0, if_false, ProcPairs]
      exact ⟨hp.1, ih hp.2⟩

theorem ProcPairs_remv (m : List (String × Yaml)) (k : String)
    (hp : ProcPairs m) : ProcPairs (remv m k) := by
  induction m with
  | nil => simpa [remv] using hp
  | cons p rest ih =>
    obtain ⟨k0, v0⟩ := p
    simp only [ProcPairs] at hp
    by_cases h0 : k0 = k
    · simp only [remv, h0, if_true]
      exact ih hp.2
    · simp only [remv, h0, if_false, ProcPairs]
      exact ⟨hp.1, ih hp.2⟩

theorem ProcPairs_orInsv (m : List (String × Yaml)) (k : String) (v : Yaml)
    (hp : ProcPairs m) (hv : Proc v) : ProcPairs (orInsv m k v) := by
  simp only [orInsv]
  cases hg : getv m k with
  | some w => exact hp
  | none =>
    induction m with
    | nil =>
      simp only [List.nil_append, ProcPairs]
      exact ⟨hv, trivial⟩
    | cons p rest ih =>
      obtain ⟨k0, v0⟩ := p
      simp only [ProcPairs] at hp
      simp only [List.cons_append, ProcPairs]
      refine ⟨hp.1, ih hp.2 ?_⟩
      simp only [getv] at hg
      by_cases h0 : k0 = k
      · simp [h0] at hg
      · simpa [h0] using hg

theorem ProcPairs_modv (m : List (String × Yaml)) (k : String)
    (f : Yaml → Yaml) (hp : ProcPairs m)
    (hf : ∀ v, getv m k = some v → Proc (f v)) : ProcPairs (modv m k f) := by
  induction m with
  | nil => simpa [modv] using hp
  | cons p rest ih =>
    obtain ⟨k0, v0⟩ := p
    simp only [ProcPairs] at hp
    by_cases h0 : k0 = k
    · simp only [modv, h0, if_true, ProcPairs]
      exact ⟨hf v0 (by simp [getv, h0]), hp.2⟩
    · simp only [modv, h0, if_false, ProcPairs]
      refine ⟨hp.1, ih hp.2 ?_⟩
      intro v hv
      exact hf v (by simpa [getv, h0] using hv)

theorem ProcPairs_modMap (m : List (String × Yaml)) (k : String)
    (f : List (String × Yaml) → List (String × Yaml)) (hp : ProcPairs m)
    (hf : ∀ x, getv m k = some (.map x) → Proc (.map (f x))) :
    ProcPairs (modMap m k f) := by
  apply ProcPairs_modv m k _ hp
  intro v hv
  cases v with
  | map x => exact hf x hv
  | null => exact ProcPairs_getv m k _ hp hv
  | bool b => exact ProcPairs_getv m k _ hp hv
  | str s => exact ProcPairs_getv m k _ hp hv
  | int i => exact ProcPairs_getv m k _ hp hv
  | seq l => exact ProcPairs_getv m k _ hp hv

theorem ProcPairs_insAll (a l : List (String × Yaml))
    (ha : ProcPairs a) (hl : ProcPairs l) : ProcPairs (insAll a l) := by
  induction l generalizing a with
  | nil => exact ha
  | cons p rest ih =>
    obtain ⟨k0, v0⟩ := p
    simp only [ProcPairs] at hl
    simp only [insAll, List.foldl_cons]
    exact ih _ (ProcPairs_insv a k0 v0 ha hl.1) hl.2

/-! Key tracking through the six local rewrites. -/

def moveKeys : List String :=
  ["tieredConfig", "tieredStorageHostPath", "tieredStoragePersistentVolume",
   "license_secret_ref", "license_key"]

/-- None of the five moved keys is present. -/
def NoMove (m : List (String × Yaml)) : Prop :=
  ∀ k ∈ moveKeys, getv m k = none

theorem getv_step1_ne (m : List (String × Yaml)) (k : String)
    (h : ¬k = "resources") : getv (step1 m) k = getv m k := by
  cases hr : getv m "resources" with
  | none =>
    have hstep : step1 m = m := by simp [step1, hr]
    rw [hstep]
  | some rv =>
    cases rv with
    | map rm =>
      cases ht : (cpuOf rm).isSome || (memOf rm).isSome
      · have hstep : step1 m = m := by simp [step1, hr, ht]
        rw [hstep]
      · have hstep : step1 m = modMap m "resources" (fun rm2 =>
            insv (insv rm2 "requests" (.map (reqMap rm))) "limits"
              (.map (reqMap rm))) := by
          simp [step1, hr, ht]
        rw [hstep]
        exact getv_modMap_ne m "resources" k _ h
    | null =>
      have hstep : step1 m = m := by simp [step1, hr]
      rw [hstep]
    | bool b =>
      have hstep : step1 m = m := by simp [step1, hr]
      rw [hstep]
    | str s =>
      have hstep : step1 m = m := by simp [step1, hr]
      rw [hstep]
    | int i =>
      have hstep : step1 m = m := by simp [step1, hr]
      rw [hstep]
    | seq l =>
      have hstep : step1 m = m := by simp [step1, hr]
      rw [hstep]

theorem getv_step2_ne (m : List (String × Yaml)) (k : String)
    (h1 : ¬k = "tieredConfig") (h2 : ¬k = "tiered") :
    getv (step2 m) k = getv m k := by
  simp only [step2]
  cases hr : getv m "tieredConfig" with
  | none => rfl
  | some v =>
    cases v with
    | map tcm =>
      cases hti : getv (remv m "tieredConfig") "tiered" with
      | some tv =>
        cases tv with
        | map tm =>
          rw [getv_modMap_ne _ "tiered" k _ h2,
              getv_remv_ne m "tieredConfig" k h1]
        | null =>
          rw [getv_insv_ne _ "tiered" k _ h2,
              getv_remv_ne m "tieredConfig" k h1]
        | bool b =>
          rw [getv_insv_ne _ "tiered" k _ h2,
              getv_remv_ne m "tieredConfig" k h1]
        | str s =>
          rw [getv_insv_ne _ "tiered" k _ h2,
              getv_remv_ne m "tieredConfig" k h1]
        | int i =>
          rw [getv_insv_ne _ "tiered" k _ h2,
              getv_remv_ne m "tieredConfig" k h1]
        | seq l =>
          rw [getv_insv_ne _ "tiered" k _ h2,
              getv_remv_ne m "tieredConfig" k h1]
      | none =>
        rw [getv_insv_ne _ "tiered" k _ h2,
            getv_remv_ne m "tieredConfig" k h1]
    | null => exact getv_remv_ne m "tieredConfig" k h1
    | bool b => exact getv_remv_ne m "tieredConfig" k h1
    | str s => exact getv_remv_ne m "tieredConfig" k h1
    | int i => exact getv_remv_ne m "tieredConfig" k h1
    | seq l => exact getv_remv_ne m "tieredConfig" k h1

theorem getv_step3_ne (m : List (String × Yaml)) (k : String)
    (h1 : ¬k = "tieredStorageHostPath") (h2 : ¬k = "tiered") :
    getv (step3 m) k = getv m k := by
  simp only [step3]
  cases hr : getv m "tieredStorageHostPath" with
  | none => rfl
  | some v =>
    rw [getv_modMap_ne _ "tiered" k _ h2,
        getv_remv_ne m "tieredStorageHostPath" k h1]

theorem getv_step4_ne (m : List (String × Yaml)) (k : String)
    (h1 : ¬k = "tieredStoragePersistentVolume") (h2 : ¬k = "tiered") :
    getv (step4 m) k = getv m k := by
  simp only [step4]
  cases hr : getv m "tieredStoragePersistentVolume" with
  | none => rfl
  | some v =>
    rw [getv_modMap_ne _ "tiered" k _ h2,
        getv_remv_ne m "tieredStoragePersistentVolume" k h1]

theorem getv_step5_ne (m : List (String × Yaml)) (k : String)
    (h1 : ¬k = "license_secret_ref") (h2 : ¬k = "enterprise") :
    getv (step5 m) k = getv m k := by
  simp only [step5]
  cases hr : getv m "license_secret_ref" with
  | none => rfl
  | some v =>
    cases v with
    | map lsm =>
      rw [getv_modMap_ne _ "enterprise" k _ h2,
          getv_orInsv_ne _ "enterprise" k _ h2,
          getv_remv_ne m "license_secret_ref" k h1]
    | null => exact getv_remv_ne m "license_secret_ref" k h1
    | bool b => exact getv_remv_ne m "license_secret_ref" k h1
    | str s => exact getv_remv_ne m "license_secret_ref" k h1
    | int i => exact getv_remv_ne m "license_secret_ref" k h1
    | seq l => exact getv_remv_ne m "license_secret_ref" k h1

theorem getv_step6_ne (m : List (String × Yaml)) (k : String)
    (h1 : ¬k = "license_key") (h2 : ¬k = "enterprise") :
    getv (step6 m) k = getv m k := by
  simp only [step6]
  cases hr : getv m "license_key" with
  | none => rfl
  | some v =>
    rw [getv_modMap_ne _ "enterprise" k _ h2,
        getv_orInsv_ne _ "enterprise" k _ h2,
        getv_remv_ne m "license_key" k h1]

theorem getv_step2_key (m : List (String × Yaml)) :
    getv (step2 m) "tieredConfig" = none := by
  simp only [step2]
  cases hr : getv m "tieredConfig" with
  | none => exact hr
  | some v =>
    cases v with
    | map tcm =>
      cases hti : getv (remv m "tieredConfig") "tiered" with
      | some tv =>
        cases tv with
        | map tm =>
          rw [getv_modMap_ne _ "tiered" _ _ (by decide)]
          exact getv_remv_self m _
        | null =>
          rw [getv_insv_ne _ "tiered" _ _ (by decide)]
          exact getv_remv_self m _
        | bool b =>
          rw [getv_insv_ne _ "tiered" _ _ (by decide)]
          exact getv_remv_self m _
        | str s =>
          rw [getv_insv_ne _ "tiered" _ _ (by decide)]
          exact getv_remv_self m _
        | int i =>
          rw [getv_insv_ne _ "tiered" _ _ (by decide)]
          exact getv_remv_self m _
        | seq l =>
          rw [getv_insv_ne _ "tiered" _ _ (by decide)]
          exact getv_remv_self m _
      | none =>
        rw [getv_insv_ne _ "tiered" _ _ (by decide)]
        exact getv_remv_self m _
    | null => exact getv_remv_self m _
    | bool b => exact getv_remv_self m _
    | str s => exact getv_remv_self m _
    | int i => exact getv_remv_self m _
    | seq l => exact getv_remv_self m _

theorem getv_step3_key (m : List (String × Yaml)) :
    getv (step3 m) "tieredStorageHostPath" = none := by
  simp only [step3]
  cases hr : getv m "tieredStorageHostPath" with
  | none => exact hr
  | some v =>
    rw [getv_modMap_ne _ "tiered" _ _ (by decide)]
    exact getv_remv_self m _

theorem getv_step4_key (m : List (String × Yaml)) :
    getv (step4 m) "tieredStoragePersistentVolume" = none := by
  simp only [step4]
  cases hr : getv m "tieredStoragePersistentVolume" with
  | none => exact hr
  | some v =>
    rw [getv_modMap_ne _ "tiered" _ _ (by decide)]
    exact getv_remv_self m _

theorem getv_step5_key (m : List (String × Yaml)) :
    getv (step5 m) "license_secret_ref" = none := by
  simp only [step5]
  cases hr : getv m "license_secret_ref" with
  | none => exact hr
  | some v =>
    cases v with
    | map lsm =>
      rw [getv_modMap_ne _ "enterprise" _ _ (by decide),
          getv_orInsv_ne _ "enterprise" _ _ (by decide)]
      exact getv_remv_self m _
    | null => exact getv_remv_self m _
    | bool b => exact getv_remv_self m _
    | str s => exact getv_remv_self m _
    | int i => exact getv_remv_self m _
    | seq l => exact getv_remv_self m _

theorem getv_step6_key (m : List (String × Yaml)) :
    getv (step6 m) "license_key" = none := by
  simp only [step6]
  cases hr : getv m "license_key" with
  | none => exact hr
  | some v =>
    rw [getv_modMap_ne _ "enterprise" _ _ (by decide),
        getv_orInsv_ne _ "enterprise" _ _ (by decide)]
    exact getv_remv_self m _

/-- Every output of `localRename` is free of the five moved keys. -/
theorem noMove_localRename (m : List (String × Yaml)) :
    NoMove (localRename m) := by
  intro k hk
  simp only [moveKeys, List.mem_cons, List.not_mem_nil, or_false] at hk
  rcases hk with rfl | rfl | rfl | rfl | rfl
  · simp only [localRename]
    rw [getv_step6_ne _ _ (by decide) (by decide),
        getv_step5_ne _ _ (by decide) (by decide),
        getv_step4_ne _ _ (by decide) (by decide),
        getv_step3_ne _ _ (by decide) (by decide)]
    exact getv_step2_key _
  · simp only [localRename]
    rw [getv_step6_ne _ _ (by decide) (by decide),
        getv_step5_ne _ _ (by decide) (by decide),
        getv_step4_ne _ _ (by decide) (by decide)]
    exact getv_step3_key _
  · simp only [localRename]
    rw [getv_step6_ne _ _ (by decide) (by decide),
        getv_step5_ne _ _ (by decide) (by decide)]
    exact getv_step4_key _
  · simp only [localRename]
    rw [getv_step6_ne _ _ (by decide) (by decide)]
    exact getv_step5_key _
  · simp only [localRename]
    exact getv_step6_key _

theorem step2_id_of_none (m : List (String × Yaml))
    (h : getv m "tieredConfig" = none) : step2 m = m := by
  simp [step2, h]

theorem step3_id_of_none (m : List (String × Yaml))
    (h : getv m "tieredStorageHostPath" = none) : step3 m = m := by
  simp [step3, h]

theorem step4_id_of_none (m : List (String × Yaml))
    (h : getv m "tieredStoragePersistentVolume" = none) : step4 m = m := by
  simp [step4, h]

theorem step5_id_of_none (m : List (String × Yaml))
    (h : getv m "license_secret_ref" = none) : step5 m = m := by
  simp [step5, h]

theorem step6_id_of_none (m : List (String × Yaml))
    (h : getv m "license_key" = none) : step6 m = m := by
  simp [step6, h]

theorem localRename_id_of (m : List (String × Yaml)) (h5 : NoMove m)
    (h1 : step1 m = m) : localRename m = m := by
  simp only [localRename]
  rw [h1, step2_id_of_none m (h5 _ (by simp [moveKeys])),
      step3_id_of_none m (h5 _ (by simp [moveKeys])),
      step4_id_of_none m (h5 _ (by simp [moveKeys])),
      step5_id_of_none m (h5 _ (by simp [moveKeys])),
      step6_id_of_none m (h5 _ (by simp [moveKeys]))]

/-! The step-one (resource conversion) fix theory. -/

theorem modv_eq_self_imp_fix (m : List (String × Yaml)) (k : String)
    (f : Yaml → Yaml) (h : modv m k f = m) :
    ∀ v, getv m k = some v → f v = v := by
  induction m with
  | nil =>
    intro v hv
    simp [getv] at hv
  | cons p rest ih =>
    obtain ⟨k0, v0⟩ := p
    intro v hv
    by_cases h0 : k0 = k
    · simp only [getv, h0, if_true, Option.some.injEq] at hv
      simp only [modv, h0, if_true, List.cons.injEq, Prod.mk.injEq,
        true_and, and_true] at h
      rw [← hv]
      exact h
    · simp only [getv, h0, if_false] at hv
      simp only [modv, h0, if_false, List.cons.injEq, true_and] at h
      exact ih h v hv

theorem cpuOf_eq_of_getv (rm rm2 : List (String × Yaml))
    (h : getv rm2 "cpu" = getv rm "cpu") : cpuOf rm2 = cpuOf rm := by
  simp [cpuOf, h]

theorem memOf_eq_of_getv (rm rm2 : List (String × Yaml))
    (h : getv rm2 "memory" = getv rm "memory") : memOf rm2 = memOf rm := by
  simp [memOf, h]

theorem step1_fix_extract (m : List (String × Yaml)) (hfix : step1 m = m) :
    ∀ rm, getv m "resources" = some (.map rm) →
      ((cpuOf rm).isSome || (memOf rm).isSome) = true →
      insv (insv rm "requests" (.map (reqMap rm))) "limits"
        (.map (reqMap rm)) = rm := by
  intro rm hr ht
  simp only [step1, hr, ht, if_true] at hfix
  simp only [modMap] at hfix
  have := modv_eq_self_imp_fix _ _ _ hfix (.map rm) hr
  simpa using this

theorem step1_id_of_fix (m : List (String × Yaml))
    (hfix : ∀ rm, getv m "resources" = some (.map rm) →
      ((cpuOf rm).isSome || (memOf rm).isSome) = true →
      insv (insv rm "requests" (.map (reqMap rm))) "limits"
        (.map (reqMap rm)) = rm) :
    step1 m = m := by
  cases hr : getv m "resources" with
  | none => simp [step1, hr]
  | some rv =>
    cases rv with
    | map rm =>
      cases ht : (cpuOf rm).isSome || (memOf rm).isSome
      · simp [step1, hr, ht]
      · have hstep : step1 m = modMap m "resources" (fun rm2 =>
            insv (insv rm2 "requests" (.map (reqMap rm))) "limits"
              (.map (reqMap rm))) := by
          simp [step1, hr, ht]
        rw [hstep]
        apply modMap_id_of_fix
        intro x hx
        rw [hr] at hx
        simp only [Option.some.injEq, Yaml.map.injEq] at hx
        rw [← hx]
        exact hfix rm hr ht
    | null => simp [step1, hr]
    | bool b => simp [step1, hr]
    | str s => simp [step1, hr]
    | int i => simp [step1, hr]
    | seq l => simp [step1, hr]

theorem step1_congr_fix (X Y : List (String × Yaml))
    (hg : getv X "resources" = getv Y "resources") (hY : step1 Y = Y) :
    step1 X = X := by
  apply step1_id_of_fix
  intro rm hr ht
  rw [hg] at hr
  exact step1_fix_extract Y hY rm hr ht

theorem step1_idem (m : List (String × Yaml)) :
    step1 (step1 m) = step1 m := by
  cases hr : getv m "resources" with
  | none =>
    have h1 : step1 m = m := by simp [step1, hr]
    rw [h1]
    exact h1
  | some rv =>
    cases rv with
    | map rm =>
      cases ht : (cpuOf rm).isSome || (memOf rm).isSome
      · have h1 : step1 m = m := by simp [step1, hr, ht]
        rw [h1]
        exact h1
      · have h1 : step1 m = modMap m "resources" (fun rm2 =>
            insv (insv rm2 "requests" (.map (reqMap rm))) "limits"
              (.map (reqMap rm))) := by
          simp [step1, hr, ht]
        have h2 : getv (step1 m) "resources" =
            some (.map (insv (insv rm "requests" (.map (reqMap rm)))
              "limits" (.map (reqMap rm)))) := by
          rw [h1]
          exact getv_modMap_map m "resources" _ rm hr
        apply step1_id_of_fix
        intro rm2 hr2 ht2
        rw [h2] at hr2
        simp only [Option.some.injEq, Yaml.map.injEq] at hr2
        have hcpu : cpuOf rm2 = cpuOf rm := by
          rw [← hr2]
          apply cpuOf_eq_of_getv
          rw [getv_insv_ne _ "limits" "cpu" _ (by decide),
              getv_insv_ne _ "requests" "cpu" _ (by decide)]
        have hmem : memOf rm2 = memOf rm := by
          rw [← hr2]
          apply memOf_eq_of_getv
          rw [getv_insv_ne _ "limits" "memory" _ (by decide),
              getv_insv_ne _ "requests" "memory" _ (by decide)]
        have hreq : reqMap rm2 = reqMap rm := by
          simp [reqMap, hcpu, hmem]
        rw [hreq, ← hr2]
        have hgr : getv (insv (insv rm "requests" (.map (reqMap rm)))
            "limits" (.map (reqMap rm))) "requests" =
            some (.map (reqMap rm)) := by
          rw [getv_insv_ne _ "limits" "requests" _ (by decide)]
          exact getv_insv_self _ _ _
        rw [insv_id_of_getv _ _ _ hgr]
        exact insv_id_of_getv _ _ _ (getv_insv_self _ _ _)
    | null =>
      have h1 : step1 m = m := by simp [step1, hr]
      rw [h1]
      exact h1
    | bool b =>
      have h1 : step1 m = m := by simp [step1, hr]
      rw [h1]
      exact h1
    | str s =>
      have h1 : step1 m = m := by simp [step1, hr]
      rw [h1]
      exact h1
    | int i =>
      have h1 : step1 m = m := by simp [step1, hr]
      rw [h1]
      exact h1
    | seq l =>
      have h1 : step1 m = m := by simp [step1, hr]
      rw [h1]
      exact h1

theorem getv_localRename_resources (m : List (String × Yaml)) :
    getv (localRename m) "resources" = getv (step1 m) "resources" := by
  simp only [localRename]
  rw [getv_step6_ne _ _ (by decide) (by decide),
      getv_step5_ne _ _ (by decide) (by decide),
      getv_step4_ne _ _ (by decide) (by decide),
      getv_step3_ne _ _ (by decide) (by decide),
      getv_step2_ne _ _ (by decide) (by decide)]

/-- The local rewrite of `rename_nested_keys` is idempotent. -/
theorem localRename_idem (m : List (String × Yaml)) :
    localRename (localRename m) = localRename m := by
  apply localRename_id_of
  · exact noMove_localRename m
  · exact step1_congr_fix _ (step1 m) (getv_localRename_resources m)
      (step1_idem m)

/-! Transport of the `localRename` fixed-point property. -/

theorem noMove_of_fix (x : List (String × Yaml)) (h : localRename x = x) :
    NoMove x := by
  rw [← h]
  exact noMove_localRename x

theorem step1_fix_of_fix (x : List (String × Yaml))
    (h : localRename x = x) : step1 x = x := by
  have hg : getv x "resources" = getv (step1 x) "resources" := by
    rw [← getv_localRename_resources x, h]
  exact step1_congr_fix x (step1 x) hg (step1_idem x)

theorem localRename_fix_congr (X Y : List (String × Yaml))
    (hres : getv X "resources" = getv Y "resources")
    (hmove : ∀ k ∈ moveKeys, getv X k = getv Y k)
    (hY : localRename Y = Y) : localRename X = X := by
  apply localRename_id_of
  · intro k hk
    rw [hmove k hk]
    exact noMove_of_fix Y hY k hk
  · apply step1_congr_fix X Y hres
    exact step1_fix_of_fix Y hY

theorem step1_id_of_none (m : List (String × Yaml))
    (h : getv m "resources" = none) : step1 m = m := by
  simp [step1, h]

theorem mem_keys_of_getv (l : List (String × Yaml)) (k : String) (v : Yaml)
    (h : getv l k = some v) : k ∈ keysOf l := by
  have := getv_mem l k v h
  exact List.mem_map.mpr ⟨(k, v), this, rfl⟩

theorem getv_insAll_cases (a l : List (String × Yaml)) (k : String)
    (hnd : (keysOf l).Nodup) (v : Yaml) (h : getv (insAll a l) k = some v) :
    getv l k = some v ∨ (getv l k = none ∧ getv a k = some v) := by
  induction l generalizing a with
  | nil => exact Or.inr ⟨rfl, h⟩
  | cons p rest ih =>
    obtain ⟨k0, v0⟩ := p
    have hnd2 : (k0 :: keysOf rest).Nodup := by simpa [keysOf] using hnd
    obtain ⟨hnot, hrest⟩ := List.nodup_cons.mp hnd2
    simp only [insAll, List.foldl_cons] at h
    rcases ih (insv a k0 v0) hrest h with hc | ⟨hn, hc⟩
    · by_cases h0 : k0 = k
      · exfalso
        subst h0
        exact hnot (mem_keys_of_getv rest k0 v hc)
      · simp only [getv, h0, if_false]
        exact Or.inl hc
    · by_cases h0 : k0 = k
      · subst h0
        rw [getv_insv_self] at hc
        simp only [getv, if_pos rfl]
        exact Or.inl hc
      · rw [getv_insv_ne a k0 k v0 (fun hh => h0 hh.symm)] at hc
        simp only [getv, h0, if_false]
        exact Or.inr ⟨hn, hc⟩

theorem keysOf_modMap (m : List (String × Yaml)) (k : String)
    (f : List (String × Yaml) → List (String × Yaml)) :
    keysOf (modMap m k f) = keysOf m := by
  simp only [modMap]
  exact keysOf_modv m k _

/-! `Proc` for the mappings built by the local rewrites. -/

theorem proc_empty_map : Proc (.map ([] : List (String × Yaml))) := by
  simp only [Proc, ProcPairs]
  refine ⟨by simp [keysOf], ?_, trivial⟩
  exact localRename_id_of [] (fun k _ => rfl) (step1_id_of_none [] rfl)

theorem proc_insv_other (x : List (String × Yaml)) (k : String) (v : Yaml)
    (h1 : ¬k = "resources") (h2 : ¬k ∈ moveKeys)
    (hx : Proc (.map x)) (hv : Proc v) : Proc (.map (insv x k v)) := by
  simp only [Proc] at hx ⊢
  obtain ⟨hnd, hfix, hpp⟩ := hx
  refine ⟨nodup_insv x k v hnd, ?_, ProcPairs_insv x k v hpp hv⟩
  apply localRename_fix_congr _ x
  · exact getv_insv_ne x k "resources" v (fun hh => h1 hh.symm)
  · intro k2 hk2
    exact getv_insv_ne x k k2 v (fun hh => h2 (hh ▸ hk2))
  · exact hfix

theorem proc_remv_other (x : List (String × Yaml)) (k : String)
    (h1 : ¬k = "resources") (h2 : ¬k ∈ moveKeys)
    (hx : Proc (.map x)) : Proc (.map (remv x k)) := by
  simp only [Proc] at hx ⊢
  obtain ⟨hnd, hfix, hpp⟩ := hx
  refine ⟨nodup_remv x k hnd, ?_, ProcPairs_remv x k hpp⟩
  apply localRename_fix_congr _ x
  · exact getv_remv_ne x k "resources" (fun hh => h1 hh.symm)
  · intro k2 hk2
    exact getv_remv_ne x k k2 (fun hh => h2 (hh ▸ hk2))
  · exact hfix

theorem proc_insAll (cfg tcm : List (String × Yaml))
    (hcfg : Proc (.map cfg)) (htcm : Proc (.map tcm)) :
    Proc (.map (insAll cfg tcm)) := by
  simp only [Proc] at hcfg htcm ⊢
  obtain ⟨hnd1, hfix1, hpp1⟩ := hcfg
  obtain ⟨hnd2, hfix2, hpp2⟩ := htcm
  refine ⟨nodup_insAll cfg tcm hnd1, ?_, ProcPairs_insAll cfg tcm hpp1 hpp2⟩
  apply localRename_id_of
  · intro k hk
    exact getv_insAll_none cfg tcm k (noMove_of_fix cfg hfix1 k hk)
      (noMove_of_fix tcm hfix2 k hk)
  · apply step1_id_of_fix
    intro rm hr ht
    rcases getv_insAll_cases cfg tcm "resources" hnd2 _ hr with hca | ⟨_, hca⟩
    · exact step1_fix_extract tcm (step1_fix_of_fix tcm hfix2) rm hca ht
    · exact step1_fix_extract cfg (step1_fix_of_fix cfg hfix1) rm hca ht

/-! `Proc` preservation, step by step. -/

theorem getv_reqMap_other (rm : List (String × Yaml)) (k : String)
    (h1 : ¬k = "cpu") (h2 : ¬k = "memory") : getv (reqMap rm) k = none := by
  have h1b : ¬"cpu" = k := fun hh => h1 hh.symm
  have h2b : ¬"memory" = k := fun hh => h2 hh.symm
  simp only [reqMap]
  cases cpuOf rm <;> cases memOf rm <;> simp [getv, h1b, h2b]

theorem nodup_reqMap (rm : List (String × Yaml)) :
    (keysOf (reqMap rm)).Nodup := by
  simp only [reqMap]
  cases cpuOf rm <;> cases memOf rm <;> simp [keysOf]

theorem proc_reqMap (rm : List (String × Yaml)) (hpp : ProcPairs rm) :
    Proc (.map (reqMap rm)) := by
  simp only [Proc]
  refine ⟨nodup_reqMap rm, ?_, ?_⟩
  · apply localRename_id_of
    · intro k hk
      apply getv_reqMap_other
      · intro hkc
        subst hkc
        simp [moveKeys] at hk
      · intro hkm
        subst hkm
        simp [moveKeys] at hk
    · exact step1_id_of_none _
        (getv_reqMap_other rm "resources" (by decide) (by decide))
  · have hc : ∀ c, cpuOf rm = some c → Proc c := by
      intro c hcq
      cases hg : getv rm "cpu" with
      | none =>
        rw [show cpuOf rm = none from by simp [cpuOf, hg]] at hcq
        cases hcq
      | some gv =>
        cases gv with
        | map cm =>
          rw [show cpuOf rm = getv cm "cores" from by simp [cpuOf, hg]]
            at hcq
          have hcm : Proc (.map cm) := ProcPairs_getv rm "cpu" _ hpp hg
          simp only [Proc] at hcm
          exact ProcPairs_getv cm "cores" c hcm.2.2 hcq
        | null =>
          rw [show cpuOf rm = none from by simp [cpuOf, hg]] at hcq
          cases hcq
        | bool b =>
          rw [show cpuOf rm = none from by simp [cpuOf, hg]] at hcq
          cases hcq
        | str s =>
          rw [show cpuOf rm = none from by simp [cpuOf, hg]] at hcq
          cases hcq
        | int i =>
          rw [show cpuOf rm = none from by simp [cpuOf, hg]] at hcq
          cases hcq
        | seq l =>
          rw [show cpuOf rm = none from by simp [cpuOf, hg]] at hcq
          cases hcq
    have hm : ∀ mv, memOf rm = some mv → Proc mv := by
      intro mv hmq
      cases hg : getv rm "memory" with
      | none =>
        rw [show memOf rm = none from by simp [memOf, hg]] at hmq
        cases hmq
      | some gv =>
        cases gv with
        | map mm =>
          have hmm : Proc (.map mm) := ProcPairs_getv rm "memory" _ hpp hg
          simp only [Proc] at hmm
          cases hg2 : getv mm "container" with
          | none =>
            rw [show memOf rm = none from by simp [memOf, hg, hg2]] at hmq
            cases hmq
          | some cv =>
            cases cv with
            | map ctm =>
              rw [show memOf rm = getv ctm "max" from by
                simp [memOf, hg, hg2]] at hmq
              have hct : Proc (.map ctm) :=
                ProcPairs_getv mm "container" _ hmm.2.2 hg2
              simp only [Proc] at hct
              exact ProcPairs_getv ctm "max" mv hct.2.2 hmq
            | null =>
              rw [show memOf rm = none from by simp [memOf, hg, hg2]] at hmq
              cases hmq
            | bool b =>
              rw [show memOf rm = none from by simp [memOf, hg, hg2]] at hmq
              cases hmq
            | str s =>
              rw [show memOf rm = none from by simp [memOf, hg, hg2]] at hmq
              cases hmq
            | int i =>
              rw [show memOf rm = none from by simp [memOf, hg, hg2]] at hmq
              cases hmq
            | seq l =>
              rw [show memOf rm = none from by simp [memOf, hg, hg2]] at hmq
              cases hmq
        | null =>
          rw [show memOf rm = none from by simp [memOf, hg]] at hmq
          cases hmq
        | bool b =>
          rw [show memOf rm = none from by simp [memOf, hg]] at hmq
          cases hmq
        | str s =>
          rw [show memOf rm = none from by simp [memOf, hg]] at hmq
          cases hmq
        | int i =>
          rw [show memOf rm = none from by simp [memOf, hg]] at hmq
          cases hmq
        | seq l =>
          rw [show memOf rm = none from by simp [memOf, hg]] at hmq
          cases hmq
    simp only [reqMap]
    cases hcq : cpuOf rm with
    | none =>
      cases hmq : memOf rm with
      | none => simp [ProcPairs]
      | some mv =>
        simp only [List.nil_append, ProcPairs]
        exact ⟨hm mv hmq, trivial⟩
    | some c =>
      cases hmq : memOf rm with
      | none =>
        simp only [List.append_nil, ProcPairs]
        exact ⟨hc c hcq, trivial⟩
      | some mv =>
        simp only [List.cons_append, List.nil_append, ProcPairs]
        exact ⟨hc c hcq, hm mv hmq, trivial⟩

theorem procPairs_step1 (m : List (String × Yaml)) (hp : ProcPairs m) :
    ProcPairs (step1 m) := by
  cases hr : getv m "resources" with
  | none =>
    rw [step1_id_of_none m hr]
    exact hp
  | some rv =>
    cases rv with
    | map rm =>
      cases ht : (cpuOf rm).isSome || (memOf rm).isSome
      · have hstep : step1 m = m := by simp [step1, hr, ht]
        rw [hstep]
        exact hp
      · have hstep : step1 m = modMap m "resources" (fun rm2 =>
            insv (insv rm2 "requests" (.map (reqMap rm))) "limits"
              (.map (reqMap rm))) := by
          simp [step1, hr, ht]
        rw [hstep]
        apply ProcPairs_modMap m "resources" _ hp
        intro x hx
        rw [hr] at hx
        simp only [Option.some.injEq, Yaml.map.injEq] at hx
        rw [← hx]
        have hprm : Proc (.map rm) := ProcPairs_getv m "resources" _ hp hr
        have hppx : ProcPairs rm := by
          simp only [Proc] at hprm
          exact hprm.2.2
        have hreq : Proc (.map (reqMap rm)) := proc_reqMap rm hppx
        apply proc_insv_other _ "limits" _ (by decide) (by decide)
        · exact proc_insv_other _ "requests" _ (by decide) (by decide) hprm hreq
        · exact hreq
    | null =>
      have hstep : step1 m = m := by simp [step1, hr]
      rw [hstep]
      exact hp
    | bool b =>
      have hstep : step1 m = m := by simp [step1, hr]
      rw [hstep]
      exact hp
    | str s =>
      have hstep : step1 m = m := by simp [step1, hr]
      rw [hstep]
      exact hp
    | int i =>
      have hstep : step1 m = m := by simp [step1, hr]
      rw [hstep]
      exact hp
    | seq l =>
      have hstep : step1 m = m := by simp [step1, hr]
      rw [hstep]
      exact hp

theorem proc_step2_tiered (tm tcm : List (String × Yaml))
    (htm : Proc (.map tm)) (htcm : Proc (.map tcm)) :
    Proc (.map (modMap (orInsv tm "config" (.map [])) "config"
      (fun cfg => insAll cfg tcm))) := by
  have htm2 := htm
  simp only [Proc] at htm2 ⊢
  obtain ⟨hnd, hfix, hpp⟩ := htm2
  refine ⟨?_, ?_, ?_⟩
  · rw [keysOf_modMap]
    exact nodup_orInsv tm "config" _ hnd
  · apply localRename_fix_congr _ tm
    · rw [getv_modMap_ne _ "config" _ _ (by decide),
          getv_orInsv_ne _ "config" _ _ (by decide)]
    · intro k hk
      have hne : ¬k = "config" := by
        intro hkc
        subst hkc
        simp [moveKeys] at hk
      rw [getv_modMap_ne _ "config" k _ hne,
          getv_orInsv_ne _ "config" k _ hne]
    · exact hfix
  · apply ProcPairs_modMap
    · exact ProcPairs_orInsv tm "config" _ hpp proc_empty_map
    · intro x hx
      have hxproc : Proc (.map x) := by
        cases hg : getv tm "config" with
        | some w =>
          rw [orInsv_of_getv_some tm "config" _ w hg, hg] at hx
          simp only [Option.some.injEq] at hx
          have := ProcPairs_getv tm "config" w hpp hg
          rw [hx] at this
          exact this
        | none =>
          rw [orInsv_of_getv_none tm "config" _ hg] at hx
          rw [getv_append, hg] at hx
          simp [getv] at hx
          rw [hx]
          exact proc_empty_map
      exact proc_insAll x tcm hxproc htcm

theorem proc_new_tiered (tcm : List (String × Yaml))
    (htcm : Proc (.map tcm)) :
    Proc (.map [("config", .map (insAll [] tcm))]) := by
  have hcfg : Proc (.map (insAll ([] : List (String × Yaml)) tcm)) :=
    proc_insAll [] tcm proc_empty_map htcm
  simp only [Proc]
  refine ⟨by simp [keysOf], ?_, ?_⟩
  · apply localRename_id_of
    · intro k hk
      have hne : ¬"config" = k := by
        intro hh
        rw [← hh] at hk
        simp [moveKeys] at hk
      simp [getv, hne]
    · apply step1_id_of_none
      simp [getv]
  · simp only [ProcPairs]
    exact ⟨hcfg, trivial⟩

theorem procPairs_step2 (m : List (String × Yaml)) (hp : ProcPairs m) :
    ProcPairs (step2 m) := by
  cases hr : getv m "tieredConfig" with
  | none =>
    rw [step2_id_of_none m hr]
    exact hp
  | some v =>
    cases v with
    | map tcm =>
      have htcm : Proc (.map tcm) := ProcPairs_getv m "tieredConfig" _ hp hr
      have hprem : ProcPairs (remv m "tieredConfig") :=
        ProcPairs_remv m "tieredConfig" hp
      cases hti : getv (remv m "tieredConfig") "tiered" with
      | some tv =>
        cases tv with
        | map tm =>
          have hstep : step2 m = modMap (remv m "tieredConfig") "tiered"
              (fun tm2 => modMap (orInsv tm2 "config" (.map [])) "config"
                (fun cfg => insAll cfg tcm)) := by
            simp [step2, hr, hti]
          rw [hstep]
          apply ProcPairs_modMap _ _ _ hprem
          intro x hx
          exact proc_step2_tiered x tcm
            (ProcPairs_getv _ "tiered" _ hprem hx) htcm
        | null =>
          have hstep : step2 m = insv (remv m "tieredConfig") "tiered"
              (.map [("config", .map (insAll [] tcm))]) := by
            simp [step2, hr, hti]
          rw [hstep]
          exact ProcPairs_insv _ _ _ hprem (proc_new_tiered tcm htcm)
        | bool b =>
          have hstep : step2 m = insv (remv m "tieredConfig") "tiered"
              (.map [("config", .map (insAll [] tcm))]) := by
            simp [step2, hr, hti]
          rw [hstep]
          exact ProcPairs_insv _ _ _ hprem (proc_new_tiered tcm htcm)
        | str s =>
          have hstep : step2 m = insv (remv m "tieredConfig") "tiered"
              (.map [("config", .map (insAll [] tcm))]) := by
            simp [step2, hr, hti]
          rw [hstep]
          exact ProcPairs_insv _ _ _ hprem (proc_new_tiered tcm htcm)
        | int i =>
          have hstep : step2 m = insv (remv m "tieredConfig") "tiered"
              (.map [("config", .map (insAll [] tcm))]) := by
            simp [step2, hr, hti]
          rw [hstep]
          exact ProcPairs_insv _ _ _ hprem (proc_new_tiered tcm htcm)
        | seq l =>
          have hstep : step2 m = insv (remv m "tieredConfig") "tiered"
              (.map [("config", .map (insAll [] tcm))]) := by
            simp [step2, hr, hti]
          rw [hstep]
          exact ProcPairs_insv _ _ _ hprem (proc_new_tiered tcm htcm)
      | none =>
        have hstep : step2 m = insv (remv m "tieredConfig") "tiered"
            (.map [("config", .map (insAll [] tcm))]) := by
          simp [step2, hr, hti]
        rw [hstep]
        exact ProcPairs_insv _ _ _ hprem (proc_new_tiered tcm htcm)
    | null =>
      have hstep : step2 m = remv m "tieredConfig" := by simp [step2, hr]
      rw [hstep]
      exact ProcPairs_remv m "tieredConfig" hp
    | bool b =>
      have hstep : step2 m = remv m "tieredConfig" := by simp [step2, hr]
      rw [hstep]
      exact ProcPairs_remv m "tieredConfig" hp
    | str s =>
      have hstep : step2 m = remv m "tieredConfig" := by simp [step2, hr]
      rw [hstep]
      exact ProcPairs_remv m "tieredConfig" hp
    | int i =>
      have hstep : step2 m = remv m "tieredConfig" := by simp [step2, hr]
      rw [hstep]
      exact ProcPairs_remv m "tieredConfig" hp
    | seq l =>
      have hstep : step2 m = remv m "tieredConfig" := by simp [step2, hr]
      rw [hstep]
      exact ProcPairs_remv m "tieredConfig" hp

theorem procPairs_step3 (m : List (String × Yaml)) (hp : ProcPairs m) :
    ProcPairs (step3 m) := by
  cases hr : getv m "tieredStorageHostPath" with
  | none =>
    rw [step3_id_of_none m hr]
    exact hp
  | some v =>
    have hv : Proc v := ProcPairs_getv m _ _ hp hr
    have hprem : ProcPairs (remv m "tieredStorageHostPath") :=
      ProcPairs_remv m _ hp
    have hstep : step3 m = modMap (remv m "tieredStorageHostPath") "tiered"
        (fun tm => insv tm "hostPath" v) := by
      simp [step3, hr]
    rw [hstep]
    apply ProcPairs_modMap _ _ _ hprem
    intro x hx
    exact proc_insv_other x "hostPath" v (by decide) (by decide)
      (ProcPairs_getv _ "tiered" _ hprem hx) hv

theorem procPairs_step4 (m : List (String × Yaml)) (hp : ProcPairs m) :
    ProcPairs (step4 m) := by
  cases hr : getv m "tieredStoragePersistentVolume" with
  | none =>
    rw [step4_id_of_none m hr]
    exact hp
  | some v =>
    have hv : Proc v := ProcPairs_getv m _ _ hp hr
    have hprem : ProcPairs (remv m "tieredStoragePersistentVolume") :=
      ProcPairs_remv m _ hp
    have hstep : step4 m =
        modMap (remv m "tieredStoragePersistentVolume") "tiered"
          (fun tm => insv tm "persistentVolume" v) := by
      simp [step4, hr]
    rw [hstep]
    apply ProcPairs_modMap _ _ _ hprem
    intro x hx
    exact proc_insv_other x "persistentVolume" v (by decide) (by decide)
      (ProcPairs_getv _ "tiered" _ hprem hx) hv

theorem proc_renameLsr (lsm : List (String × Yaml))
    (h : Proc (.map lsm)) : Proc (.map (renameLsr lsm)) := by
  simp only [renameLsr]
  have hpp : ProcPairs lsm := by
    simp only [Proc] at h
    exact h.2.2
  have hl1 : ∀ l1 : List (String × Yaml),
      (l1 = match getv lsm "secret_name" with
        | some sn => insv (remv lsm "secret_name") "name" sn
        | none => lsm) → Proc (.map l1) := by
    intro l1 hl
    cases hg : getv lsm "secret_name" with
    | none =>
      rw [hg] at hl
      rw [hl]
      exact h
    | some sn =>
      rw [hg] at hl
      rw [hl]
      exact proc_insv_other _ "name" sn (by decide) (by decide)
        (proc_remv_other _ "secret_name" (by decide) (by decide) h)
        (ProcPairs_getv lsm _ _ hpp hg)
  cases hg : getv lsm "secret_name" with
  | none =>
    have h1 : Proc (.map lsm) := h
    have hpl : ProcPairs lsm := hpp
    cases hg2 : getv lsm "secret_key" with
    | none => exact h1
    | some sk =>
      exact proc_insv_other _ "key" sk (by decide) (by decide)
        (proc_remv_other _ "secret_key" (by decide) (by decide) h1)
        (ProcPairs_getv lsm _ _ hpl hg2)
  | some sn =>
    have h1 : Proc (.map (insv (remv lsm "secret_name") "name" sn)) :=
      hl1 _ (by rw [hg])
    have hpl : ProcPairs (insv (remv lsm "secret_name") "name" sn) := by
      simp only [Proc] at h1
      exact h1.2.2
    cases hg2 : getv (insv (remv lsm "secret_name") "name" sn)
        "secret_key" with
    | none => exact h1
    | some sk =>
      exact proc_insv_other _ "key" sk (by decide) (by decide)
        (proc_remv_other _ "secret_key" (by decide) (by decide) h1)
        (ProcPairs_getv _ _ _ hpl hg2)

theorem procPairs_step5 (m : List (String × Yaml)) (hp : ProcPairs m) :
    ProcPairs (step5 m) := by
  cases hr : getv m "license_secret_ref" with
  | none =>
    rw [step5_id_of_none m hr]
    exact hp
  | some v =>
    cases v with
    | map lsm =>
      have hlsm : Proc (.map lsm) := ProcPairs_getv m _ _ hp hr
      have hbase : ProcPairs (orInsv (remv m "license_secret_ref")
          "enterprise" (.map [])) :=
        ProcPairs_orInsv _ _ _ (ProcPairs_remv m _ hp) proc_empty_map
      have hstep : step5 m =
          modMap (orInsv (remv m "license_secret_ref") "enterprise"
            (.map [])) "enterprise"
            (fun em => insv em "licenseSecretRef"
              (.map (renameLsr lsm))) := by
        simp [step5, hr]
      rw [hstep]
      apply ProcPairs_modMap _ _ _ hbase
      intro x hx
      exact proc_insv_other x "licenseSecretRef" _ (by decide) (by decide)
        (ProcPairs_getv _ "enterprise" _ hbase hx) (proc_renameLsr lsm hlsm)
    | null =>
      have hstep : step5 m = remv m "license_secret_ref" := by
        simp [step5, hr]
      rw [hstep]
      exact ProcPairs_remv m _ hp
    | bool b =>
      have hstep : step5 m = remv m "license_secret_ref" := by
        simp [step5, hr]
      rw [hstep]
      exact ProcPairs_remv m _ hp
    | str s =>
      have hstep : step5 m = remv m "license_secret_ref" := by
        simp [step5, hr]
      rw [hstep]
      exact ProcPairs_remv m _ hp
    | int i =>
      have hstep : step5 m = remv m "license_secret_ref" := by
        simp [step5, hr]
      rw [hstep]
      exact ProcPairs_remv m _ hp
    | seq l =>
      have hstep : step5 m = remv m "license_secret_ref" := by
        simp [step5, hr]
      rw [hstep]
      exact ProcPairs_remv m _ hp

theorem procPairs_step6 (m : List (String × Yaml)) (hp : ProcPairs m) :
    ProcPairs (step6 m) := by
  cases hr : getv m "license_key" with
  | none =>
    rw [step6_id_of_none m hr]
    exact hp
  | some lk =>
    have hlk : Proc lk := ProcPairs_getv m _ _ hp hr
    have hbase : ProcPairs (orInsv (remv m "license_key") "enterprise"
        (.map [])) :=
      ProcPairs_orInsv _ _ _ (ProcPairs_remv m _ hp) proc_empty_map
    have hstep : step6 m =
        modMap (orInsv (remv m "license_key") "enterprise" (.map []))
          "enterprise" (fun em => insv em "license" lk) := by
      simp [step6, hr]
    rw [hstep]
    apply ProcPairs_modMap _ _ _ hbase
    intro x hx
    exact proc_insv_other x "license" lk (by decide) (by decide)
      (ProcPairs_getv _ "enterprise" _ hbase hx) hlk

theorem procPairs_localRename (m : List (String × Yaml))
    (hp : ProcPairs m) : ProcPairs (localRename m) :=
  procPairs_step6 _ (procPairs_step5 _ (procPairs_step4 _
    (procPairs_step3 _ (procPairs_step2 _ (procPairs_step1 _ hp)))))

/-! Key distinctness is preserved by each local rewrite. -/

theorem nodup_step1 (m : List (String × Yaml)) (h : (keysOf m).Nodup) :
    (keysOf (step1 m)).Nodup := by
  cases hr : getv m "resources" with
  | none =>
    rw [step1_id_of_none m hr]
    exact h
  | some rv =>
    cases rv with
    | map rm =>
      cases ht : (cpuOf rm).isSome || (memOf rm).isSome
      · have hstep : step1 m = m := by simp [step1, hr, ht]
        rw [hstep]
        exact h
      · have hstep : step1 m = modMap m "resources" (fun rm2 =>
            insv (insv rm2 "requests" (.map (reqMap rm))) "limits"
              (.map (reqMap rm))) := by
          simp [step1, hr, ht]
        rw [hstep, keysOf_modMap]
        exact h
    | null =>
      have hstep : step1 m = m := by simp [step1, hr]
      rw [hstep]
      exact h
    | bool b =>
      have hstep : step1 m = m := by simp [step1, hr]
      rw [hstep]
      exact h
    | str s =>
      have hstep : step1 m = m := by simp [step1, hr]
      rw [hstep]
      exact h
    | int i =>
      have hstep : step1 m = m := by simp [step1, hr]
      rw [hstep]
      exact h
    | seq l =>
      have hstep : step1 m = m := by simp [step1, hr]
      rw [hstep]
      exact h

theorem nodup_step2 (m : List (String × Yaml)) (h : (keysOf m).Nodup) :
    (keysOf (step2 m)).Nodup := by
  cases hr : getv m "tieredConfig" with
  | none =>
    rw [step2_id_of_none m hr]
    exact h
  | some v =>
    cases v with
    | map tcm =>
      cases hti : getv (remv m "tieredConfig") "tiered" with
      | some tv =>
        cases tv with
        | map tm =>
          have hstep : step2 m = modMap (remv m "tieredConfig") "tiered"
              (fun tm2 => modMap (orInsv tm2 "config" (.map [])) "config"
                (fun cfg => insAll cfg tcm)) := by
            simp [step2, hr, hti]
          rw [hstep, keysOf_modMap]
          exact nodup_remv m _ h
        | null =>
          have hstep : step2 m = insv (remv m "tieredConfig") "tiered"
              (.map [("config", .map (insAll [] tcm))]) := by
            simp [step2, hr, hti]
          rw [hstep]
          exact nodup_insv _ _ _ (nodup_remv m _ h)
        | bool b =>
          have hstep : step2 m = insv (remv m "tieredConfig") "tiered"
              (.map [("config", .map (insAll [] tcm))]) := by
            simp [step2, hr, hti]
          rw [hstep]
          exact nodup_insv _ _ _ (nodup_remv m _ h)
        | str s =>
          have hstep : step2 m = insv (remv m "tieredConfig") "tiered"
              (.map [("config", .map (insAll [] tcm))]) := by
            simp [step2, hr, hti]
          rw [hstep]
          exact nodup_insv _ _ _ (nodup_remv m _ h)
        | int i =>
          have hstep : step2 m = insv (remv m "tieredConfig") "tiered"
              (.map [("config", .map (insAll [] tcm))]) := by
            simp [step2, hr, hti]
          rw [hstep]
          exact nodup_insv _ _ _ (nodup_remv m _ h)
        | seq l =>
          have hstep : step2 m = insv (remv m "tieredConfig") "tiered"
              (.map [("config", .map (insAll [] tcm))]) := by
            simp [step2, hr, hti]
          rw [hstep]
          exact nodup_insv _ _ _ (nodup_remv m _ h)
      | none =>
        have hstep : step2 m = insv (remv m "tieredConfig") "tiered"
            (.map [("config", .map (insAll [] tcm))]) := by
          simp [step2, hr, hti]
        rw [hstep]
        exact nodup_insv _ _ _ (nodup_remv m _ h)
    | null =>
      have hstep : step2 m = remv m "tieredConfig" := by simp [step2, hr]
      rw [hstep]
      exact nodup_remv m _ h
    | bool b =>
      have hstep : step2 m = remv m "tieredConfig" := by simp [step2, hr]
      rw [hstep]
      exact nodup_remv m _ h
    | str s =>
      have hstep : step2 m = remv m "tieredConfig" := by simp [step2, hr]
      rw [hstep]
      exact nodup_remv m _ h
    | int i =>
      have hstep : step2 m = remv m "tieredConfig" := by simp [step2, hr]
      rw [hstep]
      exact nodup_remv m _ h
    | seq l =>
      have hstep : step2 m = remv m "tieredConfig" := by simp [step2, hr]
      rw [hstep]
      exact nodup_remv m _ h

theorem nodup_step3 (m : List (String × Yaml)) (h : (keysOf m).Nodup) :
    (keysOf (step3 m)).Nodup := by
  cases hr : getv m "tieredStorageHostPath" with
  | none =>
    rw [step3_id_of_none m hr]
    exact h
  | some v =>
    have hstep : step3 m = modMap (remv m "tieredStorageHostPath") "tiered"
        (fun tm => insv tm "hostPath" v) := by
      simp [step3, hr]
    rw [hstep, keysOf_modMap]
    exact nodup_remv m _ h

theorem nodup_step4 (m : List (String × Yaml)) (h : (keysOf m).Nodup) :
    (keysOf (step4 m)).Nodup := by
  cases hr : getv m "tieredStoragePersistentVolume" with
  | none =>
    rw [step4_id_of_none m hr]
    exact h
  | some v =>
    have hstep : step4 m =
        modMap (remv m "tieredStoragePersistentVolume") "tiered"
          (fun tm => insv tm "persistentVolume" v) := by
      simp [step4, hr]
    rw [hstep, keysOf_modMap]
    exact nodup_remv m _ h

theorem nodup_step5 (m : List (String × Yaml)) (h : (keysOf m).Nodup) :
    (keysOf (step5 m)).Nodup := by
  cases hr : getv m "license_secret_ref" with
  | none =>
    rw [step5_id_of_none m hr]
    exact h
  | some v =>
    cases v with
    | map lsm =>
      have hstep : step5 m =
          modMap (orInsv (remv m "license_secret_ref") "enterprise"
            (.map [])) "enterprise"
            (fun em => insv em "licenseSecretRef"
              (.map (renameLsr lsm))) := by
        simp [step5, hr]
      rw [hstep, keysOf_modMap]
      exact nodup_orInsv _ _ _ (nodup_remv m _ h)
    | null =>
      have hstep : step5 m = remv m "license_secret_ref" := by
        simp [step5, hr]
      rw [hstep]
      exact nodup_remv m _ h
    | bool b =>
      have hstep : step5 m = remv m "license_secret_ref" := by
        simp [step5, hr]
      rw [hstep]
      exact nodup_remv m _ h
    | str s =>
      have hstep : step5 m = remv m "license_secret_ref" := by
        simp [step5, hr]
      rw [hstep]
      exact nodup_remv m _ h
    | int i =>
      have hstep : step5 m = remv m "license_secret_ref" := by
        simp [step5, hr]
      rw [hstep]
      exact nodup_remv m _ h
    | seq l =>
      have hstep : step5 m = remv m "license_secret_ref" := by
        simp [step5, hr]
      rw [hstep]
      exact nodup_remv m _ h

theorem nodup_step6 (m : List (String × Yaml)) (h : (keysOf m).Nodup) :
    (keysOf (step6 m)).Nodup := by
  cases hr : getv m "license_key" with
  | none =>
    rw [step6_id_of_none m hr]
    exact h
  | some lk =>
    have hstep : step6 m =
        modMap (orInsv (remv m "license_key") "enterprise" (.map []))
          "enterprise" (fun em => insv em "license" lk) := by
      simp [step6, hr]
    rw [hstep, keysOf_modMap]
    exact nodup_orInsv _ _ _ (nodup_remv m _ h)

theorem nodup_localRename (m : List (String × Yaml))
    (h : (keysOf m).Nodup) : (keysOf (localRename m)).Nodup :=
  nodup_step6 _ (nodup_step5 _ (nodup_step4 _ (nodup_step3 _
    (nodup_step2 _ (nodup_step1 _ h)))))

/-! The renamed tree is processed, and processed trees are fixed. -/

theorem proc_rename_aux : ∀ (n : Nat) (t : Yaml), sizeOf t ≤ n →
    WF t = true → Proc (rename_nested_keys t) := by
  intro n
  induction n with
  | zero =>
    intro t ht _
    exfalso
    cases t <;> simp at ht
  | succ n ih =>
    intro t ht hwf
    cases t with
    | map m =>
      have hm : sizeOf m ≤ n := by
        simp only [Yaml.map.sizeOf_spec] at ht
        omega
      simp only [WF, Bool.and_eq_true, decide_eq_true_eq] at hwf
      have hpairs : ∀ l : List (String × Yaml), sizeOf l ≤ n →
          WFPairs l = true → ProcPairs (renamePairs l) := by
        intro l
        induction l with
        | nil =>
          intro _ _
          simp [renamePairs, ProcPairs]
        | cons p rest ihl =>
          obtain ⟨k0, v0⟩ := p
          intro hs hw
          simp only [WFPairs, Bool.and_eq_true] at hw
          simp only [renamePairs, ProcPairs]
          refine ⟨ih v0 ?_ hw.1, ihl ?_ hw.2⟩
          · simp only [List.cons.sizeOf_spec, Prod.mk.sizeOf_spec] at hs
            omega
          · simp only [List.cons.sizeOf_spec] at hs
            omega
      have heq : rename_nested_keys (.map m) =
          .map (localRename (renamePairs m)) := by
        simp [rename_nested_keys]
      rw [heq]
      simp only [Proc]
      refine ⟨?_, localRename_idem _,
        procPairs_localRename _ (hpairs m hm hwf.2)⟩
      apply nodup_localRename
      rw [keysOf_renamePairs]
      exact hwf.1
    | null => simp [rename_nested_keys, Proc]
    | bool b => simp [rename_nested_keys, Proc]
    | str s => simp [rename_nested_keys, Proc]
    | int i => simp [rename_nested_keys, Proc]
    | seq l => simp [rename_nested_keys, Proc]

theorem rename_of_proc_aux : ∀ (n : Nat) (t : Yaml), sizeOf t ≤ n →
    Proc t → rename_nested_keys t = t := by
  intro n
  induction n with
  | zero =>
    intro t ht _
    exfalso
    cases t <;> simp at ht
  | succ n ih =>
    intro t ht hp
    cases t with
    | map m =>
      have hm : sizeOf m ≤ n := by
        simp only [Yaml.map.sizeOf_spec] at ht
        omega
      simp only [Proc] at hp
      obtain ⟨hnd, hfix, hpp⟩ := hp
      have hpl : ∀ l : List (String × Yaml), sizeOf l ≤ n → ProcPairs l →
          renamePairs l = l := by
        intro l
        induction l with
        | nil =>
          intro _ _
          simp [renamePairs]
        | cons p rest ihl =>
          obtain ⟨k0, v0⟩ := p
          intro hs hw
          simp only [ProcPairs] at hw
          simp only [renamePairs]
          rw [ih v0 (by
                simp only [List.cons.sizeOf_spec, Prod.mk.sizeOf_spec] at hs
                omega) hw.1,
              ihl (by
                simp only [List.cons.sizeOf_spec] at hs
                omega) hw.2]
      have heq : rename_nested_keys (.map m) =
          .map (localRename (renamePairs m)) := by
        simp [rename_nested_keys]
      rw [heq, hpl m hm hpp, hfix]
    | null => simp [rename_nested_keys]
    | bool b => simp [rename_nested_keys]
    | str s => simp [rename_nested_keys]
    | int i => simp [rename_nested_keys]
    | seq l => simp [rename_nested_keys]

/-- `rename_nested_keys` is idempotent on well-formed trees (mappings in
a parsed `serde_yaml::Value` always have distinct keys). -/
theorem rename_nested_keys_idem (t : Yaml) (h : WF t = true) :
    rename_nested_keys (rename_nested_keys t) = rename_nested_keys t :=
  rename_of_proc_aux (sizeOf (rename_nested_keys t)) _ le_rfl
    (proc_rename_aux (sizeOf t) t le_rfl h)

/-! ### Claim C4 (confirmed) -/

/-- C4: pass idempotence — for every well-formed YAML tree (mappings in a
parsed `serde_yaml::Value` always have pairwise-distinct keys, hence the
`WF` hypothesis) and every restructuring pass P among
`rename_nested_keys`, `map_statefulset_to_podtemplate`,
`migrate_external_config`, `migrate_console_v2_to_v3`,
`clean_deprecated_fields` and `clean_empty_cloud_storage`, applying the
pass twice equals applying it once: `P (P t) = P t`. -/
theorem pass_idempotence (t : Yaml) (hwf : WF t = true) :
    rename_nested_keys (rename_nested_keys t) = rename_nested_keys t ∧
      map_statefulset_to_podtemplate (map_statefulset_to_podtemplate t) =
        map_statefulset_to_podtemplate t ∧
      migrate_external_config (migrate_external_config t) =
        migrate_external_config t ∧
      migrate_console_v2_to_v3 (migrate_console_v2_to_v3 t) =
        migrate_console_v2_to_v3 t ∧
      clean_deprecated_fields (clean_deprecated_fields t) =
        clean_deprecated_fields t ∧
      clean_empty_cloud_storage (clean_empty_cloud_storage t) =
        clean_empty_cloud_storage t :=
  ⟨rename_nested_keys_idem t hwf, map_statefulset_to_podtemplate_idem t,
   migrate_external_config_idem t, migrate_console_v2_to_v3_idem t,
   clean_deprecated_fields_idem t, clean_empty_cloud_storage_idem t⟩

/-- A concrete well-formed tree exercising all six passes. -/
def treeC4 : Yaml :=
  .map [("tieredConfig", .map [("cloud_storage_enabled", .bool true)]),
        ("license_key", .str "my-license"),
        ("resources", .map [("cpu", .map [("cores", .int 4)])]),
        ("statefulset", .map
          [("annotations", .map [("team", .str "infra")]),
           ("nodeSelector", .map [("disk", .str "ssd")])]),
        ("external", .map
          [("service", .map [("domain", .str "example.com")])]),
        ("console", .map [("console", .map [("config", .map
          [("kafka", .map [("brokers", .str "b1")])])])]),
        ("storage", .map [("tiered", .map [("config", .map
          [("cloud_storage_enabled", .bool false),
           ("cloud_storage_bucket", .str "bkt")])])])]

/-- Witness for C4: the six passes are idempotent at `treeC4`. -/
theorem pass_idempotence_witness :
    WF treeC4 = true ∧
      (rename_nested_keys (rename_nested_keys treeC4) =
          rename_nested_keys treeC4 ∧
        map_statefulset_to_podtemplate
            (map_statefulset_to_podtemplate treeC4) =
          map_statefulset_to_podtemplate treeC4 ∧
        migrate_external_config (migrate_external_config treeC4) =
          migrate_external_config treeC4 ∧
        migrate_console_v2_to_v3 (migrate_console_v2_to_v3 treeC4) =
          migrate_console_v2_to_v3 treeC4 ∧
        clean_deprecated_fields (clean_deprecated_fields treeC4) =
          clean_deprecated_fields treeC4 ∧
        clean_empty_cloud_storage (clean_empty_cloud_storage treeC4) =
          clean_empty_cloud_storage treeC4) :=
  ⟨by decide, pass_idempotence treeC4 (by decide)⟩

end ChartUpgrade
